import Mathlib

/-!
Verification of the arpfloat-nostd software floating-point engine.

The development shallowly embeds two float representations of the repository:

* `Frost`: the single-`u64` explicit-mantissa representation
  (`lib/frost/src/base/mod.rs`), translated in full from the source.
* `AF`: the main representation used by `lib/float/src/base/cast.rs` and
  `src/functions.rs`.  The struct itself, its category/rounding enums, the
  normalization engine and the arithmetic operators live in source files that
  are not part of the source tree available here (`float.rs`, `bigint.rs`,
  `arithmetic.rs`); those parts are modelled from the specification
  (sections 3, 4.2 and 4.4) and are marked `Modelled from the spec:` in their
  doc comments.  Everything that is visible in the source
  (`cast.rs`, `functions.rs`, `frost`) is translated directly.

Machine integers are embedded as `Nat`/`Int` with explicit `% 2 ^ 64`
truncation where a `u64` can wrap; fallible paths (assertions, checked
negation) return `Option`/`PRes` values.
-/

namespace Arp

/-! ### Bit-length helper

`bitlen n` is the number of binary digits of `n` (0 for 0).  It replaces the
`leading_zeros`ʲ/`next_msb` native intrinsics of the source; the fuel-based
definition keeps kernel reduction cheap. -/

def bitlenGo : Nat → Nat → Nat
  | 0, _ => 0
  | fuel + 1, n =>
    if n = 0 then 0
    else if 2 ^ 256 ≤ n then bitlenGo fuel (n / 2 ^ 256) + 256
    else if 2 ^ 64 ≤ n then bitlenGo fuel (n / 2 ^ 64) + 64
    else if 2 ^ 8 ≤ n then bitlenGo fuel (n / 2 ^ 8) + 8
    else bitlenGo fuel (n / 2) + 1

def bitlen (n : Nat) : Nat := bitlenGo n n

/-- One chunk step of the bit-length recursion. -/
theorem bitlen_chunk_step (k b n : Nat) (hk : 2 ^ k ≤ n)
    (h1 : n / 2 ^ k < 2 ^ b) (h2 : 2 ^ (b - 1) ≤ n / 2 ^ k) :
    n < 2 ^ (b + k) ∧ 2 ^ (b + k - 1) ≤ n := by
  have hkpos : (0 : Nat) < 2 ^ k := by positivity
  have hq : 1 ≤ n / 2 ^ k := (Nat.one_le_div_iff hkpos).mpr hk
  have hb1 : 1 ≤ b := by
    by_contra hc
    have : b = 0 := by omega
    rw [this] at h1
    omega
  constructor
  · have hdm := Nat.div_add_mod n (2 ^ k)
    rw [Nat.mul_comm (2 ^ k)] at hdm
    have hmod : n % 2 ^ k < 2 ^ k := Nat.mod_lt _ hkpos
    have hup : n < (n / 2 ^ k + 1) * 2 ^ k := by
      rw [Nat.add_mul, one_mul]
      omega
    calc n < (n / 2 ^ k + 1) * 2 ^ k := hup
      _ ≤ 2 ^ b * 2 ^ k := Nat.mul_le_mul_right _ (by omega)
      _ = 2 ^ (b + k) := by rw [← pow_add]
  · have hlow : 2 ^ (b - 1) * 2 ^ k ≤ (n / 2 ^ k) * 2 ^ k :=
      Nat.mul_le_mul_right _ h2
    calc 2 ^ (b + k - 1) = 2 ^ (b - 1) * 2 ^ k := by
          rw [← pow_add]
          congr 1
          omega
      _ ≤ (n / 2 ^ k) * 2 ^ k := hlow
      _ ≤ n := Nat.div_mul_le_self n _

theorem bitlenGo_spec : ∀ fuel n, n ≤ fuel →
    n < 2 ^ bitlenGo fuel n ∧ (n ≠ 0 → 2 ^ (bitlenGo fuel n - 1) ≤ n) := by
  intro fuel
  induction fuel with
  | zero =>
    intro n hn
    have : n = 0 := Nat.le_zero.mp hn
    subst this
    exact ⟨by norm_num [bitlenGo], by simp⟩
  | succ fuel ih =>
    intro n hn
    by_cases h0 : n = 0
    · subst h0
      exact ⟨by norm_num [bitlenGo], by simp⟩
    · have hchunk : ∀ k : Nat, 1 ≤ k → 2 ^ k ≤ n →
          n < 2 ^ (bitlenGo fuel (n / 2 ^ k) + k) ∧
          2 ^ (bitlenGo fuel (n / 2 ^ k) + k - 1) ≤ n := by
        intro k hk1 hkn
        have hkpos : (0 : Nat) < 2 ^ k := by positivity
        have h2k : 2 ≤ 2 ^ k := by
          calc (2 : Nat) = 2 ^ 1 := by norm_num
            _ ≤ 2 ^ k := Nat.pow_le_pow_right (by norm_num) hk1
        have hdiv_le : n / 2 ^ k ≤ fuel := by
          have := Nat.div_le_div_right (c := 2 ^ k) hn
          have h3 : n / 2 ^ k ≤ n / 2 := Nat.div_le_div_left h2k (by norm_num)
          omega
        have hq0 : n / 2 ^ k ≠ 0 := by
          have := (Nat.one_le_div_iff hkpos).mpr hkn
          omega
        obtain ⟨ha, hb⟩ := ih (n / 2 ^ k) hdiv_le
        exact bitlen_chunk_step k _ n hkn ha (hb hq0)
      by_cases hc256 : 2 ^ 256 ≤ n
      · have hb : bitlenGo (fuel + 1) n = bitlenGo fuel (n / 2 ^ 256) + 256 := by
          rw [bitlenGo, if_neg h0, if_pos hc256]
        rw [hb]
        have := hchunk 256 (by norm_num) hc256
        exact ⟨this.1, fun _ => this.2⟩
      · by_cases hc64 : 2 ^ 64 ≤ n
        · have hb : bitlenGo (fuel + 1) n = bitlenGo fuel (n / 2 ^ 64) + 64 := by
            rw [bitlenGo, if_neg h0, if_neg hc256, if_pos hc64]
          rw [hb]
          have := hchunk 64 (by norm_num) hc64
          exact ⟨this.1, fun _ => this.2⟩
        · by_cases hc8 : 2 ^ 8 ≤ n
          · have hb : bitlenGo (fuel + 1) n
                = bitlenGo fuel (n / 2 ^ 8) + 8 := by
              rw [bitlenGo, if_neg h0, if_neg hc256, if_neg hc64, if_pos hc8]
            rw [hb]
            have := hchunk 8 (by norm_num) hc8
            exact ⟨this.1, fun _ => this.2⟩
          · have hb : bitlenGo (fuel + 1) n = bitlenGo fuel (n / 2) + 1 := by
              rw [bitlenGo, if_neg h0, if_neg hc256, if_neg hc64, if_neg hc8]
            rw [hb]
            by_cases hn1 : n = 1
            · have hz : ∀ f, bitlenGo f 0 = 0 := by
                intro f
                cases f
                · rfl
                · rw [bitlenGo]
                  norm_num
              subst hn1
              norm_num [hz]
            · have h21 : (2 : Nat) ^ 1 ≤ n := by
                have : 2 ≤ n := by omega
                simpa using this
              have := hchunk 1 (by norm_num) h21
              have heq : n / 2 ^ 1 = n / 2 := by norm_num
              rw [heq] at this
              exact ⟨this.1, fun _ => this.2⟩

theorem lt_two_pow_bitlen (n : Nat) : n < 2 ^ bitlen n :=
  (bitlenGo_spec n n (Nat.le_refl n)).1

theorem two_pow_bitlen_pred_le {n : Nat} (h : n ≠ 0) : 2 ^ (bitlen n - 1) ≤ n :=
  (bitlenGo_spec n n (Nat.le_refl n)).2 h

theorem bitlen_zero : bitlen 0 = 0 := rfl

theorem bitlen_pos {n : Nat} (h : n ≠ 0) : 1 ≤ bitlen n := by
  by_contra hc
  have hb : bitlen n = 0 := by omega
  have := lt_two_pow_bitlen n
  rw [hb] at this
  simp at this
  exact h this

theorem bitlen_le_of_lt {n k : Nat} (h : n < 2 ^ k) : bitlen n ≤ k := by
  by_cases h0 : n = 0
  · subst h0; simp [bitlen_zero]
  · by_contra hc
    have h1 : 2 ^ (bitlen n - 1) ≤ n := two_pow_bitlen_pred_le h0
    have h2 : 2 ^ k ≤ 2 ^ (bitlen n - 1) := Nat.pow_le_pow_right (by norm_num) (by omega)
    omega

theorem lt_bitlen_of_le {n k : Nat} (h : 2 ^ k ≤ n) : k < bitlen n := by
  have hk : (0 : Nat) < 2 ^ k := by positivity
  have h0 : n ≠ 0 := by omega
  have h1 : n < 2 ^ bitlen n := lt_two_pow_bitlen n
  have : 2 ^ k < 2 ^ bitlen n := Nat.lt_of_le_of_lt h h1
  exact (Nat.pow_lt_pow_iff_right (by norm_num)).mp this

theorem bitlen_eq_iff {n k : Nat} (h0 : n ≠ 0) :
    bitlen n = k + 1 ↔ 2 ^ k ≤ n ∧ n < 2 ^ (k + 1) := by
  constructor
  · intro h
    refine ⟨?_, ?_⟩
    · have := two_pow_bitlen_pred_le h0
      rw [h] at this
      simpa using this
    · have := lt_two_pow_bitlen n
      rw [h] at this
      exact this
  · intro ⟨h1, h2⟩
    have ha := bitlen_le_of_lt h2
    have hb := lt_bitlen_of_le h1
    omega

/-- Or-ing a value into cleared low bits is the same as adding it; this
converts the source's `bits <<= k; bits |= v` idiom into plain arithmetic. -/
theorem lor_mul_pow_add (a b k : Nat) (hb : b < 2 ^ k) :
    (a * 2 ^ k) ||| b = a * 2 ^ k + b := by
  apply Nat.eq_of_testBit_eq
  intro i
  rw [Nat.testBit_lor, Nat.mul_comm a, Nat.testBit_mul_pow_two_add a hb,
    Nat.testBit_mul_pow_two]
  by_cases h : i < k
  · simp only [if_pos h, decide_eq_true_eq]
    have : ¬ (i ≥ k) := by omega
    simp [this]
  · have hb' : b.testBit i = false :=
      Nat.testBit_lt_two_pow (Nat.lt_of_lt_of_le hb
        (Nat.pow_le_pow_right (by norm_num) (by omega)))
    have : i ≥ k := by omega
    simp [hb', if_neg h, this]

/-! ### The `frost` representation (`lib/frost/src/base/mod.rs`)

A float with a single explicit-format `u64` mantissa (`[1xxxxxxx........]`)
and a `u64` biased exponent field.  All functions below are translated
directly from the source; `u64` values are `Nat`s reduced `% 2 ^ 64` wherever
the Rust shift can drop high bits, and the `assert!` checks of `set_exp`
surface as `Option`. -/

namespace Frost

/-- The `u64` modulus. -/
def U : Nat := 2 ^ 64

/-- Mask full of 1s, of `b` bits (`fn mask`). -/
def mask (b : Nat) : Nat := 2 ^ b - 1

/-- Convert a mantissa in the implicit format to the internal storage format
(`fn expand_mantissa_to_explicit`). -/
def expand_mantissa_to_explicit (FROM : Nat) (input : Nat) (leading_1 : Bool) :
    Nat :=
  let value : Nat := if leading_1 then 2 ^ 63 else 0
  let shift := 63 - FROM
  value ||| ((input <<< shift) % U)

/-- The frost `Float` struct: sign bit, `u64` biased exponent, `u64`
explicit-format mantissa. -/
structure Float where
  sign : Bool
  exp : Nat
  mantissa : Nat
deriving DecidableEq, Repr

/-- The `Default` instance used by the constructors. -/
def dflt : Float := ⟨false, 0, 0⟩

def set_sign (f : Float) (s : Bool) : Float := { f with sign := s }

def set_mantissa (f : Float) (sg : Nat) : Float := { f with mantissa := sg }

def set_unbiased_exp (f : Float) (e : Nat) : Float := { f with exp := e }

def compute_ieee745_bias (exponent_bits : Nat) : Nat :=
  2 ^ (exponent_bits - 1) - 1

def get_bias (E : Nat) : Nat := compute_ieee745_bias E

/-- Bounds `(exp_min, exp_max)` of the biased exponent (`fn get_exp_bounds`). -/
def get_exp_bounds (E : Nat) : Int × Int :=
  (-(get_bias E : Int), (2 ^ E : Int) - get_bias E)

def get_unbiased_exp (f : Float) : Nat := f.exp

def get_exp (E : Nat) (f : Float) : Int := (f.exp : Int) - get_bias E

/-- Set the biased exponent; the source `assert!`s the bounds, modelled as
`Option`. -/
def set_exp (E : Nat) (f : Float) (new_exp : Int) : Option Float :=
  if new_exp ≤ (get_exp_bounds E).2 ∧ (get_exp_bounds E).1 ≤ new_exp then
    some { f with exp := (new_exp + (get_bias E : Int)).toNat }
  else none

def zero (sign : Bool) : Float := ⟨sign, 0, 0⟩

def inf (E : Nat) (sign : Bool) : Float := ⟨sign, mask E, 0⟩

def nan (E M : Nat) (sign : Bool) : Float := ⟨sign, mask E, 2 ^ M - 1⟩

/-- True if the Float has the signaling exponent. -/
def in_special_exp (E : Nat) (f : Float) : Bool := f.exp == mask E

def is_negative (f : Float) : Bool := f.sign

/-- The mantissa with the unused low bits cleared (`fn get_mantissa`). -/
def get_mantissa (M : Nat) (f : Float) : Nat :=
  let unused_bits := 64 - M - 1
  (f.mantissa >>> unused_bits) <<< unused_bits

/-- The fractional part of the mantissa without the implicit 1 or 0. -/
def get_frac_mantissa (f : Float) : Nat := (f.mantissa <<< 1) % U

def is_inf (E : Nat) (f : Float) : Bool :=
  in_special_exp E f && (get_frac_mantissa f == 0)

def is_nan (E : Nat) (f : Float) : Bool :=
  in_special_exp E f && (get_frac_mantissa f != 0)

def is_normal (f : Float) : Bool := get_unbiased_exp f != 0

/-- Construct from a `u64` (`fn from_u64`); `leading_zeros` is expressed via
`bitlen`. -/
def from_u64 (E : Nat) (val : Nat) : Option Float :=
  if val = 0 then some (zero false)
  else
    let lz := 64 - bitlen val
    let size_in_bits := 64 - lz
    if (size_in_bits : Int) > (get_exp_bounds E).2 then some (inf E false)
    else
      (set_exp E dflt ((size_in_bits : Int) - 1)).map fun a =>
        set_sign (set_mantissa a ((val <<< lz) % U)) false

/-- Construct from an `i64` (`fn from_i64`); the negation `-val` is checked
arithmetic in the source's debug profile and overflows at `i64::MIN`,
modelled as `none`. -/
def from_i64 (E : Nat) (val : Int) : Option Float :=
  if val < 0 then
    if val = -(2 ^ 63) then none
    else (from_u64 E (-val).toNat).map fun a => set_sign a true
  else from_u64 E val.toNat

/-- Rational value represented by a frost float with a non-special exponent,
as every source read path sees it: the mantissa is read through
`get_mantissa`, which clears the `64 - M - 1` unused low bits, and is a
fixed-point number with 63 fraction bits. -/
def value (E M : Nat) (f : Float) : ℚ :=
  (if f.sign then -1 else 1) * ((get_mantissa M f : Nat) : ℚ) *
    2 ^ (get_exp E f - 63)

/-- Core of `fn add`, after the commuting swap has put the larger exponent
on the left; the two `assert!`s and the final `set_exp` surface as
`Option`. -/
def addAligned (E M : Nat) (x y : Float) : Option Float :=
  if ¬ (get_exp E x ≥ get_exp E y) then none
  else if in_special_exp E x || in_special_exp E y then none
  else
    let exp_delta := get_exp E x - get_exp E y
    let er := get_exp E x
    let y_significand := get_mantissa M y >>> (min exp_delta 63).toNat
    let x_significand := get_mantissa M x
    let is_neg := is_negative x
    let is_plus := x.sign == y.sign
    let step : Nat × Int × Bool :=
      if is_plus then
        let s := x_significand + y_significand
        if s ≥ U then (((s % U) >>> 1) ||| 2 ^ 63, er + 1, is_neg)
        else (s % U, er, is_neg)
      else
        let (xy0, is_neg) :=
          if y_significand > x_significand then
            (y_significand - x_significand, !is_neg)
          else (x_significand - y_significand, is_neg)
        let lz : Int := 64 - bitlen xy0
        let lower_bound := (get_exp_bounds E).1
        let delta_to_min := er - lower_bound
        let shift := min (min delta_to_min lz) 63
        ((xy0 <<< shift.toNat) % U, er - shift, is_neg)
    let xy_significand := step.1
    let er := step.2.1
    let is_neg := step.2.2
    if xy_significand = 0 then
      some (set_sign (set_unbiased_exp (set_mantissa dflt 0) 0) is_neg)
    else
      (set_exp E (set_mantissa dflt xy_significand) er).map fun a =>
        set_sign a is_neg

/-- Addition (`fn add`): swap so the larger exponent comes first, then run
the aligned core. -/
def add (E M : Nat) (x y : Float) : Option Float :=
  if get_exp E y > get_exp E x then addAligned E M y x else addAligned E M x y

end Frost

/-! ### The main representation (`lib/float/src/base/*`, `src/functions.rs`)

`cast.rs` and `functions.rs` are translated from the source.  The struct,
its enums, `new`/`raw`, the normalization engine and the arithmetic
operators/comparisons live in `float.rs`/`bigint.rs`/`arithmetic.rs`, which
are not part of the available source tree; they are modelled from the spec
(sections 3, 4.2, 4.4) as indicated on each definition.  The `BigInt`
mantissa is embedded as an unbounded `Nat`: every value reached through the
embedded operations stays below the configured width, and the places where
the source wraps a `u64` are marked explicitly. -/

namespace AF

/-- Modelled from the spec: the four value categories of section 3
("Category: one of Zero | Normal | Infinity | NaN"). -/
inductive Category
  | Zero
  | Normal
  | Infinity
  | NaN
deriving DecidableEq, Repr

/-- Modelled from the spec: the rounding modes of section 4.2 (the source's
`RoundingMode`; `functions.rs` names the truncating mode `Zero`). -/
inductive RoundingMode
  | NearestTiesToEven
  | Zero
  | Positive
  | Negative
deriving DecidableEq, Repr

/-- Modelled from the spec: the 4-way classification of discarded low bits
(section 2, "Loss-Fraction Classifier"). -/
inductive LossFraction
  | ExactlyZero
  | LessThanHalf
  | ExactlyHalf
  | MoreThanHalf
deriving DecidableEq, Repr

/-- Modelled from the spec: the Float tuple of section 3,
`{sign, exponent, mantissa, category}`; the exponent is kept unbiased
(`get_exp` in the source returns it directly) and the mantissa is the
wide integer. -/
structure Float where
  sign : Bool
  exp : Int
  mantissa : Nat
  category : Category
deriving DecidableEq, Repr

/-- Mask full of 1s (`utils::mask`). -/
def mask (b : Nat) : Nat := 2 ^ b - 1

/-- Bias computation (`utils::compute_ieee745_bias`). -/
def compute_ieee745_bias (exponent_bits : Nat) : Nat :=
  2 ^ (exponent_bits - 1) - 1

def get_bias (E : Nat) : Nat := compute_ieee745_bias E

/-- Modelled from the spec: minimum representable exponent (section 3,
biased field 1 decodes to `1 - bias`; subnormals share it). -/
def expMin (E : Nat) : Int := 1 - (get_bias E : Int)

/-- Modelled from the spec: maximum representable exponent (biased field
`2^E - 2` decodes to `bias`). -/
def expMax (E : Nat) : Int := (get_bias E : Int)

def get_sign (f : Float) : Bool := f.sign

def get_exp (f : Float) : Int := f.exp

def get_mantissa (f : Float) : Nat := f.mantissa

def get_category (f : Float) : Category := f.category

def set_sign (f : Float) (s : Bool) : Float := { f with sign := s }

def neg (f : Float) : Float := { f with sign := !f.sign }

/-- Absolute value (`fn abs` of `functions.rs`). -/
def abs (f : Float) : Float := set_sign f false

def is_zero (f : Float) : Bool := f.category == Category.Zero

def is_normal (f : Float) : Bool := f.category == Category.Normal

def is_inf (f : Float) : Bool := f.category == Category.Infinity

def is_nan (f : Float) : Bool := f.category == Category.NaN

def is_negative (f : Float) : Bool := f.sign

/-- Raw constructor (category supplied by the caller). -/
def raw (s : Bool) (e : Int) (m : Nat) (c : Category) : Float := ⟨s, e, m, c⟩

def zero (s : Bool) : Float := ⟨s, 0, 0, Category.Zero⟩

def inf (s : Bool) : Float := ⟨s, 0, 0, Category.Infinity⟩

def nan (s : Bool) : Float := ⟨s, 0, 1, Category.NaN⟩

/-- Modelled from the spec: `new` detects the Zero category (section 4.2
step 1, "if mantissa is zero, canonical Zero, preserving sign") and
otherwise tags the raw triple Normal; normalization is invoked separately
by the callers in `cast.rs`. -/
def new (s : Bool) (e : Int) (m : Nat) : Float :=
  if m = 0 then zero s else raw s e m Category.Normal

/-- Modelled from the spec: classification of the `s` low bits dropped by a
right shift of `m` (section 4.1, right-shifts return the `LossFraction` of
the discarded low bits). -/
def lossOfShift (m s : Nat) : LossFraction :=
  if s = 0 then LossFraction.ExactlyZero
  else
    let r := m % 2 ^ s
    let half := 2 ^ (s - 1)
    if r = 0 then LossFraction.ExactlyZero
    else if r < half then LossFraction.LessThanHalf
    else if r = half then LossFraction.ExactlyHalf
    else LossFraction.MoreThanHalf

/-- Modelled from the spec: sticky combination — a nonzero prior loss strictly
below the newly discarded bits bumps Zero/Half up (section 4.2 step 4,
"accumulating LossFraction"). -/
def addSticky : LossFraction → LossFraction
  | LossFraction.ExactlyZero => LossFraction.LessThanHalf
  | LossFraction.LessThanHalf => LossFraction.LessThanHalf
  | LossFraction.ExactlyHalf => LossFraction.MoreThanHalf
  | LossFraction.MoreThanHalf => LossFraction.MoreThanHalf

def combineLoss (shiftLoss l0 : LossFraction) : LossFraction :=
  match l0 with
  | LossFraction.ExactlyZero => shiftLoss
  | _ => addSticky shiftLoss

/-- Modelled from the spec: a prior nonzero loss scaled down by a left shift
is strictly below half an ulp. -/
def demoteLoss : LossFraction → LossFraction
  | LossFraction.ExactlyZero => LossFraction.ExactlyZero
  | _ => LossFraction.LessThanHalf

/-- Modelled from the spec: section 4.2 step 5 — `NearestTiesToEven` rounds
up on `MoreThanHalf`, or `ExactlyHalf` with an odd retained LSB; `Zero`
(toward zero) never rounds up; the directed modes round up on any nonzero
loss on their side of zero. -/
def need_round_up (rm : RoundingMode) (sign : Bool) (loss : LossFraction)
    (lsb_odd : Bool) : Bool :=
  match rm with
  | RoundingMode.NearestTiesToEven =>
    loss == LossFraction.MoreThanHalf ||
      (loss == LossFraction.ExactlyHalf && lsb_odd)
  | RoundingMode.Zero => false
  | RoundingMode.Positive => !(loss == LossFraction.ExactlyZero) && !sign
  | RoundingMode.Negative => !(loss == LossFraction.ExactlyZero) && sign

/-- Modelled from the spec: the normalization/rounding engine of section 4.2.
Steps: Zero detection; alignment of the leading set bit to the implicit-bit
position `M` (left shifts capped so the exponent never drops below the
minimum, right shifts recording the `LossFraction`); overflow to Infinity;
rounding per mode with a renewed overflow check when the carry propagates.
NaN/Infinity/Zero inputs pass through unchanged (the category is sticky). -/
def normalize (E M : Nat) (rm : RoundingMode) (f : Float)
    (loss0 : LossFraction) : Float :=
  if f.category != Category.Normal then f
  else if f.mantissa = 0 then zero f.sign
  else
    let p : Int := (bitlen f.mantissa : Int) - 1
    let shift : Int := min ((M : Int) - p) (f.exp - expMin E)
    let mant : Nat :=
      if 0 ≤ shift then f.mantissa <<< shift.toNat
      else f.mantissa >>> (-shift).toNat
    let loss : LossFraction :=
      if 0 ≤ shift then
        (if shift = 0 then loss0 else demoteLoss loss0)
      else combineLoss (lossOfShift f.mantissa (-shift).toNat) loss0
    let exp : Int := f.exp - shift
    if exp > expMax E then inf f.sign
    else
      let mant2 := if need_round_up rm f.sign loss (mant % 2 = 1) then mant + 1
        else mant
      if mant2 = 2 ^ (M + 1) then
        (if exp + 1 > expMax E then inf f.sign
         else raw f.sign (exp + 1) (2 ^ M) Category.Normal)
      else if mant2 = 0 then zero f.sign
      else raw f.sign exp mant2 Category.Normal

/-- Construct from a `u64` (`cast.rs::from_u64`): seed at exponent
`MANTISSA` and normalize with `NearestTiesToEven`. -/
def from_u64 (E M : Nat) (v : Nat) : Float :=
  normalize E M RoundingMode.NearestTiesToEven (new false (M : Int) v)
    LossFraction.ExactlyZero

/-- Construct from an `i64` (`cast.rs::from_i64`); the checked negation
`-val` overflows at `i64::MIN`, modelled as `none`. -/
def from_i64 (E M : Nat) (val : Int) : Option Float :=
  if val < 0 then
    if val = -(2 ^ 63) then none
    else some (set_sign (from_u64 E M (-val).toNat) true)
  else some (from_u64 E M val.toNat)

/-- Decode a native-format bit pattern (`cast.rs::from_bits`). -/
def from_bits (E M : Nat) (b : Nat) : Float :=
  let biased_exp : Nat := (b >>> M) &&& (2 ^ E - 1)
  let sign_bit : Nat := (b >>> (E + M)) &&& 1
  let mantissa0 : Nat := b &&& (2 ^ M - 1)
  let sign : Bool := sign_bit = 1
  if biased_exp = mask E then
    (if mantissa0 = 0 then inf sign else nan sign)
  else
    let e0 : Int := (biased_exp : Int) - (compute_ieee745_bias E : Int)
    if biased_exp ≠ 0 then new sign e0 (mantissa0 + 2 ^ M)
    else new sign (e0 + 1) mantissa0

/-- Assemble `(sign ; exponent-field ; mantissa-field)` the way
`as_native_float` does: `bits <<= k; bits |= v`. -/
def encode (E M : Nat) (s : Bool) (e mant : Nat) : Nat :=
  ((((cond s 1 0) <<< E) ||| e) <<< M) ||| mant

/-- Encode into a native bit pattern (`cast.rs::as_native_float`); the two
`assert!`s surface as `none`, and the `as u64` cast of the re-biased
exponent wraps mod `2 ^ 64` as in the source. -/
def as_native_float (E M : Nat) (f : Float) : Option Nat :=
  match f.category with
  | Category.Infinity => some (encode E M f.sign (mask E) 0)
  | Category.NaN => some (encode E M f.sign (mask E) (2 ^ (M - 1)))
  | Category.Zero => some (encode E M f.sign 0 0)
  | Category.Normal =>
    let expu : Nat := ((f.exp + (get_bias E : Int)) % (2 ^ 64)).toNat
    if expu = 0 then none
    else
      let m := f.mantissa
      let e2 : Nat := if expu = 1 ∧ m >>> M = 0 then 0 else expu
      let mant := m &&& (2 ^ M - 1)
      if mant ≤ 2 ^ M then some (encode E M f.sign e2 mant) else none

/-- Modelled from the spec: magnitude comparison of two finite values
`mantissa * 2 ^ (exp - M)` (section 4.4, "comparison: ordering over the
numeric value"). -/
def magLt (x y : Float) : Bool :=
  if y.exp ≤ x.exp then decide ((x.mantissa <<< (x.exp - y.exp).toNat) < y.mantissa)
  else decide (x.mantissa < (y.mantissa <<< (y.exp - x.exp).toNat))

def magEq (x y : Float) : Bool :=
  if y.exp ≤ x.exp then decide ((x.mantissa <<< (x.exp - y.exp).toNat) = y.mantissa)
  else decide (x.mantissa = (y.mantissa <<< (y.exp - x.exp).toNat))

/-- Modelled from the spec: IEEE partial order `<` (NaN incomparable, signed
zeros equal, otherwise sign then magnitude). -/
def flt (x y : Float) : Bool :=
  match x.category, y.category with
  | Category.NaN, _ => false
  | _, Category.NaN => false
  | Category.Zero, Category.Zero => false
  | Category.Zero, Category.Infinity => !y.sign
  | Category.Zero, Category.Normal => !y.sign
  | Category.Infinity, Category.Zero => x.sign
  | Category.Normal, Category.Zero => x.sign
  | Category.Infinity, Category.Infinity => x.sign && !y.sign
  | Category.Infinity, Category.Normal => x.sign
  | Category.Normal, Category.Infinity => !y.sign
  | Category.Normal, Category.Normal =>
    if x.sign != y.sign then x.sign
    else if x.sign then magLt y x else magLt x y

/-- Modelled from the spec: IEEE equality (`NaN != NaN`, `-0 == +0`). -/
def feq (x y : Float) : Bool :=
  match x.category, y.category with
  | Category.NaN, _ => false
  | _, Category.NaN => false
  | Category.Zero, Category.Zero => true
  | Category.Infinity, Category.Infinity => x.sign == y.sign
  | Category.Normal, Category.Normal => x.sign == y.sign && magEq x y
  | _, _ => false

def fgt (x y : Float) : Bool := flt y x

def fge (x y : Float) : Bool := flt y x || feq x y

def fle (x y : Float) : Bool := flt x y || feq x y

/-- Modelled from the spec: the exact core of add/subtract (section 4.4) —
operands are aligned to the smaller exponent without truncation (the capped
shift of the source keeps the same rounded result via the sticky loss), the
significands are added or subtracted exactly, and the result is normalized.
A fully-cancelling result follows the spec's IEEE sign rule (+0 except under
round-toward-negative). -/
def addExact (E M : Nat) (rm : RoundingMode) (x y : Float) : Float :=
  let e := min x.exp y.exp
  let X := x.mantissa <<< (x.exp - e).toNat
  let Y := y.mantissa <<< (y.exp - e).toNat
  if x.sign == y.sign then
    normalize E M rm (new x.sign e (X + Y)) LossFraction.ExactlyZero
  else if X = Y then zero (rm == RoundingMode.Negative)
  else if Y < X then
    normalize E M rm (new x.sign e (X - Y)) LossFraction.ExactlyZero
  else normalize E M rm (new y.sign e (Y - X)) LossFraction.ExactlyZero

/-- Modelled from the spec: the caller-facing add wrapper — NaN and Infinity
are handled before the finite core (sections 4.4, 8: NaN propagates,
`Infinity + finite = Infinity`, `Infinity - Infinity = NaN`). -/
def addRM (E M : Nat) (rm : RoundingMode) (x y : Float) : Float :=
  if is_nan x then nan x.sign
  else if is_nan y then nan y.sign
  else if is_inf x && is_inf y then
    (if x.sign == y.sign then x else nan x.sign)
  else if is_inf x then x
  else if is_inf y then y
  else if is_zero x && is_zero y then
    (if x.sign == y.sign then zero x.sign
     else zero (rm == RoundingMode.Negative))
  else if is_zero x then y
  else if is_zero y then x
  else addExact E M rm x y

def addW (E M : Nat) (x y : Float) : Float :=
  addRM E M RoundingMode.NearestTiesToEven x y

/-- Modelled from the spec: subtraction is addition with the sign flipped. -/
def subW (E M : Nat) (x y : Float) : Float :=
  addRM E M RoundingMode.NearestTiesToEven x (neg y)

/-- Modelled from the spec: multiplication multiplies the mantissas (wide
result) and sums the exponents, then normalizes (section 4.4); special
categories behave per IEEE (`0 * Infinity = NaN`). -/
def mulW (E M : Nat) (x y : Float) : Float :=
  let s : Bool := x.sign != y.sign
  if is_nan x then nan x.sign
  else if is_nan y then nan y.sign
  else if (is_inf x && is_zero y) || (is_zero x && is_inf y) then nan s
  else if is_inf x || is_inf y then inf s
  else if is_zero x || is_zero y then zero s
  else
    normalize E M RoundingMode.NearestTiesToEven
      (new s (x.exp + y.exp - M) (x.mantissa * y.mantissa))
      LossFraction.ExactlyZero

/-- Modelled from the spec: division long-divides the mantissas with two
extra quotient bits plus a sticky remainder and subtracts the exponents,
then normalizes (section 4.4); division by zero yields Infinity, `0/0` and
`Inf/Inf` yield NaN (section 7). -/
def divW (E M : Nat) (x y : Float) : Float :=
  let s : Bool := x.sign != y.sign
  if is_nan x then nan x.sign
  else if is_nan y then nan y.sign
  else if is_inf x && is_inf y then nan s
  else if is_inf x then inf s
  else if is_inf y then zero s
  else if is_zero x && is_zero y then nan s
  else if is_zero y then inf s
  else if is_zero x then zero s
  else
    let num := x.mantissa <<< (M + 2)
    let q := num / y.mantissa
    let r := num % y.mantissa
    let loss :=
      if r = 0 then LossFraction.ExactlyZero
      else if 2 * r < y.mantissa then LossFraction.LessThanHalf
      else if 2 * r = y.mantissa then LossFraction.ExactlyHalf
      else LossFraction.MoreThanHalf
    normalize E M RoundingMode.NearestTiesToEven
      (new s (x.exp - y.exp - 2) q) loss

/-- Power of two (`fn sqr` of `functions.rs`): `*self * *self`. -/
def sqr (E M : Nat) (f : Float) : Float := mulW E M f f

/-- Exponent scaling (`fn scale` of `functions.rs`). -/
def scaleF (E M : Nat) (f : Float) (s : Int) (rm : RoundingMode) : Float :=
  if !is_normal f then f
  else normalize E M rm (new f.sign (f.exp + s) f.mantissa)
    LossFraction.ExactlyZero

/-- Result of a fuelled computation: a value, an assertion failure, or fuel
exhaustion. -/
inductive PRes (α : Type)
  | ok (a : α)
  | abort
  | fuelOut
deriving DecidableEq, Repr

/-- The Newton–Raphson loop of `fn sqrt`: `x := (x + target/x) / two`,
stopping as soon as the iterate stops strictly decreasing
(`if prev < x || x == prev return x`). -/
def sqrtGo (E M : Nat) (target two : Float) : Nat → Float → PRes Float
  | 0, _ => PRes.fuelOut
  | fuel + 1, x =>
    let xn := divW E M (addW E M x (divW E M target x)) two
    if flt x xn || feq xn x then PRes.ok xn
    else sqrtGo E M target two fuel xn

/-- Square root (`fn sqrt` of `functions.rs`). -/
def sqrtM (E M : Nat) (fuel : Nat) (f : Float) : PRes Float :=
  if is_zero f then PRes.ok f
  else if is_nan f || is_negative f then PRes.ok (nan f.sign)
  else if is_inf f then PRes.ok f
  else
    let two := from_u64 E M 2
    let x0 := if flt f two then two else f
    sqrtGo E M f two fuel x0

/-- The scaled-subtraction loop of `fn rem`:
`while lhs >= rhs && lhs.is_normal()`. -/
def remGo (E M : Nat) (rhs : Float) : Nat → Float → PRes Float
  | 0, _ => PRes.fuelOut
  | fuel + 1, lhs =>
    if fge lhs rhs && is_normal lhs then
      let scl := lhs.exp - rhs.exp
      let diff0 := scaleF E M rhs scl RoundingMode.NearestTiesToEven
      let diff :=
        if fgt diff0 lhs then
          scaleF E M rhs (scl - 1) RoundingMode.NearestTiesToEven
        else diff0
      remGo E M rhs fuel (subW E M lhs diff)
    else PRes.ok lhs

/-- Tail of `fn rem` after the special cases: the `debug_assert!` surfaces
as `abort`, then the loop runs and the original sign is restored. -/
def remTail (E M fuel : Nat) (sgn : Bool) (lhs rhs : Float) : PRes Float :=
  if ¬ (is_normal lhs ∧ is_normal rhs) then PRes.abort
  else
    match remGo E M rhs fuel lhs with
    | PRes.ok l => PRes.ok (set_sign l sgn)
    | PRes.abort => PRes.abort
    | PRes.fuelOut => PRes.fuelOut

/-- Remainder (`fn rem` of `functions.rs`). -/
def remM (E M : Nat) (fuel : Nat) (x y : Float) : PRes Float :=
  if is_nan x || is_nan y || is_inf x || is_zero y then PRes.ok (nan x.sign)
  else if is_zero x || is_inf y then PRes.ok x
  else remTail E M fuel x.sign (abs x) (if is_negative y then neg y else y)

/-- Greater of the two (`fn max` of `functions.rs`). -/
def fmax (x y : Float) : Float :=
  if is_nan x then y
  else if is_nan y then x
  else if x.sign != y.sign then (if x.sign then y else x)
  else if fgt x y then x else y

/-- Smaller of the two (`fn min` of `functions.rs`). -/
def fmin (x y : Float) : Float :=
  if is_nan x then y
  else if is_nan y then x
  else if x.sign != y.sign then (if x.sign then x else y)
  else if fgt x y then y else x

/-- Taylor series loop of `fn sin_taylor` (`i` runs over `1..10`; the `u64`
factorial accumulator never exceeds `19! < 2 ^ 64`). -/
def sinTaylorGo (E M : Nat) (x2 : Float) :
    Nat → Nat → Bool → Float → Nat → Float → Float
  | 0, _, _, _, _, sum => sum
  | c + 1, i, ng, top, bottom, sum =>
    let elem := divW E M top (from_u64 E M bottom)
    let sum2 := if ng then subW E M sum elem else addW E M sum elem
    sinTaylorGo E M x2 c (i + 1) (!ng) (mulW E M top x2)
      (bottom * (i * 2) * (i * 2 + 1)) sum2

def sin_taylor (E M : Nat) (x : Float) : Float :=
  sinTaylorGo E M (sqr E M x) 9 1 false x 1 (zero false)

/-- Triple-angle reduction of `fn sin_step4_reduction`. -/
def sin_step4_reduction (E M : Nat) : Float → Nat → Float
  | x, 0 => sin_taylor E M x
  | x, steps + 1 =>
    let three := from_u64 E M 3
    let four := from_u64 E M 4
    let x3 := divW E M x three
    let sx := sin_step4_reduction E M x3 steps
    subW E M (mulW E M three sx)
      (mulW E M four (mulW E M (mulW E M sx sx) sx))

/-- One iteration of the Brent–Salamin AGM loop of `fn pi`. -/
def piStep (E M : Nat) (sqrtFuel : Nat) (two : Float)
    (s : Float × Float × Float × Float) :
    PRes (Float × Float × Float × Float) :=
  let a := s.1
  let b := s.2.1
  let t := s.2.2.1
  let x := s.2.2.2
  let y := a
  let a2 := divW E M (addW E M a b) two
  match sqrtM E M sqrtFuel (mulW E M b y) with
  | PRes.ok b2 =>
    let t2 := subW E M t (mulW E M x (sqr E M (subW E M a2 y)))
    let x2 := mulW E M x two
    PRes.ok (a2, b2, t2, x2)
  | PRes.abort => PRes.abort
  | PRes.fuelOut => PRes.fuelOut

/-- The `while a != b` loop of `fn pi`; on exit the result is `a * a / t`. -/
def piGo (E M : Nat) (sqrtFuel : Nat) (two : Float) :
    Nat → Float × Float × Float × Float → PRes Float
  | 0, _ => PRes.fuelOut
  | fuel + 1, s =>
    if feq s.1 s.2.1 then PRes.ok (divW E M (mulW E M s.1 s.1) s.2.2.1)
    else
      match piStep E M sqrtFuel two s with
      | PRes.ok s2 => piGo E M sqrtFuel two fuel s2
      | PRes.abort => PRes.abort
      | PRes.fuelOut => PRes.fuelOut

/-- π via the AGM iteration (`fn pi` of `functions.rs`); the nonnegative
`from_i64` literals are `from_u64` values. -/
def piM (E M : Nat) (fuel : Nat) : PRes Float :=
  let one := from_u64 E M 1
  let two := from_u64 E M 2
  let four := from_u64 E M 4
  match sqrtM E M fuel two with
  | PRes.ok s2 =>
    piGo E M fuel two fuel (one, divW E M one s2, divW E M one four, one)
  | PRes.abort => PRes.abort
  | PRes.fuelOut => PRes.fuelOut

/-- Sine (`fn sin` of `functions.rs`); the `assert!(self.is_normal())` and
the three `debug_assert!`s surface as `abort`. -/
def sinM (E M : Nat) (fuel : Nat) (f : Float) : PRes Float :=
  if is_zero f then PRes.ok f
  else if !is_normal f then PRes.abort
  else
    let val0 := if is_negative f then neg f else f
    let neg0 := is_negative f
    match piM E M fuel with
    | PRes.ok pi =>
      let pi2 := scaleF E M pi 1 RoundingMode.Zero
      let pi_half := scaleF E M pi (-1) RoundingMode.Zero
      match (if fgt val0 pi2 then remM E M fuel val0 pi2 else PRes.ok val0) with
      | PRes.ok val1 =>
        if ¬ (fle val1 pi2 = true) then PRes.abort
        else
          let val2 := if fgt val1 pi then subW E M val1 pi else val1
          let neg2 := if fgt val1 pi then !neg0 else neg0
          if ¬ (fle val2 pi = true) then PRes.abort
          else
            let val3 := if fgt val2 pi_half then subW E M pi val2 else val2
            if ¬ (fle val3 pi_half = true) then PRes.abort
            else
              let res := sin_step4_reduction E M val3 5
              PRes.ok (if neg2 then neg res else res)
      | PRes.abort => PRes.abort
      | PRes.fuelOut => PRes.fuelOut
    | PRes.abort => PRes.abort
    | PRes.fuelOut => PRes.fuelOut

/-- Rational value of a finite float: `±mantissa * 2 ^ (exp - M)`. -/
def value (M : Nat) (f : Float) : ℚ :=
  (if f.sign then -1 else 1) * (f.mantissa : ℚ) * 2 ^ (f.exp - (M : Int))

/-- Well-formedness of a Normal float under a configuration: the invariants
the normalization engine maintains (exponent in range, mantissa nonzero and
below `2 ^ (M + 1)`, subnormal mantissas only at the minimum exponent). -/
def wfF (E M : Nat) (f : Float) : Bool :=
  match f.category with
  | Category.Normal =>
    decide (expMin E ≤ f.exp) && decide (f.exp ≤ expMax E) &&
      decide (0 < f.mantissa) && decide (f.mantissa < 2 ^ (M + 1)) &&
      (decide (2 ^ M ≤ f.mantissa) || decide (f.exp = expMin E))
  | _ => true

/-- Rank of a well-formed nonnegative float: strictly monotone along the
magnitude order, used as the termination measure of the iteration loops. -/
def keyF (E M : Nat) (f : Float) : Nat :=
  match f.category with
  | Category.Zero => 0
  | Category.Normal => (f.exp - expMin E).toNat * 2 ^ (M + 1) + f.mantissa
  | Category.Infinity => ((expMax E - expMin E).toNat + 1) * 2 ^ (M + 1)
  | Category.NaN => ((expMax E - expMin E).toNat + 2) * 2 ^ (M + 1)

/-- Boolean check for one perfect-square sqrt instance (claim C7). -/
def c7check (i : Nat) : Bool :=
  sqrtM 11 52 60 (from_u64 11 52 (i * i)) == PRes.ok (from_u64 11 52 i)

end AF

/-! ### Theorems -/

/-- C8: constructing from the integer 65520 under the 5-exponent-bit /
10-mantissa-bit configuration normalizes to Infinity: the value needs 16
significand bits, the 5 discarded bits are exactly half, round-to-nearest
ties-to-even rounds the odd retained mantissa up, and the carry pushes the
exponent past the maximum (15).  65519, one below, still rounds down into
the largest finite value (mantissa 2047 at exponent 15, i.e. 65504). -/
theorem c8_from_integer_65520_is_infinity :
    AF.from_u64 5 10 65520 = AF.inf false ∧
    AF.from_u64 5 10 65519 = AF.raw false 15 2047 AF.Category.Normal := by
  constructor
  · decide
  · decide

/-- C3 counterexample: the frost `add` gives a fully-cancelling sum the sign
of its first operand (after the exponent-ordering swap), not the IEEE `+0`:
`(-5) + 5` produces the zero with sign bit set (`-0`) while `5 + (-5)`
produces `+0`, so the result is also operand-order-dependent. -/
theorem c3_cancellation_counterexample :
    ((Frost.from_i64 11 (-5)).bind fun a =>
      (Frost.from_i64 11 5).bind fun b => Frost.add 11 52 a b) =
        some ⟨true, 0, 0⟩ ∧
    ((Frost.from_i64 11 5).bind fun a =>
      (Frost.from_i64 11 (-5)).bind fun b => Frost.add 11 52 a b) =
        some ⟨false, 0, 0⟩ := by
  constructor
  · decide
  · decide

/-- C3 amended: when two non-special operands with equal exponents and equal
(visible) mantissas but opposite signs are added, the frost `add` returns the
canonical zero carrying the sign of the first operand — not the IEEE
convention's `+0`, and hence dependent on operand order. -/
theorem c3_cancellation_sign_first_operand (E M : Nat) (x y : Frost.Float)
    (hx : Frost.in_special_exp E x = false)
    (hy : Frost.in_special_exp E y = false)
    (hexp : x.exp = y.exp)
    (hm : Frost.get_mantissa M x = Frost.get_mantissa M y)
    (hs : x.sign = !y.sign) :
    Frost.add E M x y = some ⟨x.sign, 0, 0⟩ := by
  have hgx : Frost.get_exp E x = Frost.get_exp E y := by
    simp [Frost.get_exp, hexp]
  have hswap : ¬ (Frost.get_exp E x < Frost.get_exp E y) := by
    rw [hgx]
    exact lt_irrefl _
  have hge : Frost.get_exp E x ≥ Frost.get_exp E y := le_of_eq hgx.symm
  have hplus : (x.sign == y.sign) = false := by
    rw [hs]
    cases y.sign <;> rfl
  have hdelta : Frost.get_exp E x - Frost.get_exp E y = 0 := by omega
  unfold Frost.add
  rw [if_neg (by exact hswap)]
  unfold Frost.addAligned
  rw [if_neg (by simp [hge]), if_neg (by simp [hx, hy])]
  simp only [hdelta, hplus, Frost.is_negative, hm]
  norm_num
  rfl

/-- C3 witness: the amended statement applied to the concrete pair
`(-5, 5)` in the 11/52 configuration. -/
theorem c3_cancellation_sign_first_operand_witness :
    Frost.add 11 52 ⟨true, 1025, 11529215046068469760⟩
      ⟨false, 1025, 11529215046068469760⟩ = some ⟨true, 0, 0⟩ := by
  exact c3_cancellation_sign_first_operand 11 52 _ _ (by decide) (by decide)
    (by decide) (by decide) (by decide)

/-- C9 counterexample: the four frost category predicates are not mutually
exclusive: `is_normal` is defined as "unbiased exponent nonzero", which also
holds for every Infinity and NaN (their exponent field is all-ones), so an
Infinity satisfies both `is_inf` and `is_normal`, and a NaN satisfies both
`is_nan` and `is_normal`. -/
theorem c9_predicates_overlap_counterexample :
    Frost.is_inf 8 (Frost.inf 8 false) = true ∧
    Frost.is_normal (Frost.inf 8 false) = true ∧
    Frost.is_nan 8 (Frost.nan 8 23 false) = true ∧
    Frost.is_normal (Frost.nan 8 23 false) = true := by
  refine ⟨?_, ?_, ?_, ?_⟩ <;> decide

/-- C9 amended: the four-way classification derived from (exponent, mantissa)
is mutually exclusive and exhaustive once `Normal` is restricted to the
non-special exponent range: every frost float is exactly one of Infinity
(special exponent, zero fraction), NaN (special exponent, nonzero fraction),
Normal-with-non-special-exponent, or zero-exponent (Zero/subnormal);
`is_normal` as written overlaps the first two. -/
theorem c9_category_partition (E : Nat) (hE : 1 ≤ E) (f : Frost.Float) :
    (Frost.is_inf E f = true ∨ Frost.is_nan E f = true ∨
      (Frost.in_special_exp E f = false ∧ Frost.is_normal f = true) ∨
      Frost.is_normal f = false) ∧
    ¬ (Frost.is_inf E f = true ∧ Frost.is_nan E f = true) ∧
    ¬ (Frost.is_inf E f = true ∧
        Frost.in_special_exp E f = false ∧ Frost.is_normal f = true) ∧
    ¬ (Frost.is_inf E f = true ∧ Frost.is_normal f = false) ∧
    ¬ (Frost.is_nan E f = true ∧
        Frost.in_special_exp E f = false ∧ Frost.is_normal f = true) ∧
    ¬ (Frost.is_nan E f = true ∧ Frost.is_normal f = false) ∧
    ¬ ((Frost.in_special_exp E f = false ∧ Frost.is_normal f = true) ∧
        Frost.is_normal f = false) := by
  have hmask : Frost.mask E ≠ 0 := by
    have h2 : 2 ≤ 2 ^ E := by
      calc (2 : Nat) = 2 ^ 1 := by norm_num
        _ ≤ 2 ^ E := Nat.pow_le_pow_right (by norm_num) hE
    simp only [Frost.mask]
    omega
  by_cases hsp : f.exp = Frost.mask E
  · by_cases hfr : Frost.get_frac_mantissa f = 0
    · simp [Frost.is_inf, Frost.is_nan, Frost.is_normal, Frost.in_special_exp,
        Frost.get_unbiased_exp, hsp, hfr, hmask]
    · simp [Frost.is_inf, Frost.is_nan, Frost.is_normal, Frost.in_special_exp,
        Frost.get_unbiased_exp, hsp, hfr, hmask]
  · by_cases hz : f.exp = 0
    · simp [Frost.is_inf, Frost.is_nan, Frost.is_normal, Frost.in_special_exp,
        Frost.get_unbiased_exp, hsp, hz, Ne.symm hmask]
    · simp [Frost.is_inf, Frost.is_nan, Frost.is_normal, Frost.in_special_exp,
        Frost.get_unbiased_exp, hsp, hz]

/-- C9 witness: the partition at the concrete float `⟨false, 5, 123⟩` under
an 8-bit exponent. -/
theorem c9_category_partition_witness :
    (Frost.is_inf 8 ⟨false, 5, 123⟩ = true ∨
      Frost.is_nan 8 ⟨false, 5, 123⟩ = true ∨
      (Frost.in_special_exp 8 ⟨false, 5, 123⟩ = false ∧
        Frost.is_normal ⟨false, 5, 123⟩ = true) ∨
      Frost.is_normal ⟨false, 5, 123⟩ = false) ∧
    ¬ (Frost.is_inf 8 ⟨false, 5, 123⟩ = true ∧
        Frost.is_nan 8 ⟨false, 5, 123⟩ = true) ∧
    ¬ (Frost.is_inf 8 ⟨false, 5, 123⟩ = true ∧
        Frost.in_special_exp 8 ⟨false, 5, 123⟩ = false ∧
        Frost.is_normal ⟨false, 5, 123⟩ = true) ∧
    ¬ (Frost.is_inf 8 ⟨false, 5, 123⟩ = true ∧
        Frost.is_normal ⟨false, 5, 123⟩ = false) ∧
    ¬ (Frost.is_nan 8 ⟨false, 5, 123⟩ = true ∧
        Frost.in_special_exp 8 ⟨false, 5, 123⟩ = false ∧
        Frost.is_normal ⟨false, 5, 123⟩ = true) ∧
    ¬ (Frost.is_nan 8 ⟨false, 5, 123⟩ = true ∧
        Frost.is_normal ⟨false, 5, 123⟩ = false) ∧
    ¬ ((Frost.in_special_exp 8 ⟨false, 5, 123⟩ = false ∧
        Frost.is_normal ⟨false, 5, 123⟩ = true) ∧
        Frost.is_normal ⟨false, 5, 123⟩ = false) :=
  c9_category_partition 8 (by norm_num) ⟨false, 5, 123⟩

/-- C6: `min`/`max` follow the IEEE rules of `functions.rs`: a NaN operand
is ignored when the other operand is a number (`min(NaN, 5) = 5`), and when
the signs differ the zeros are selected by sign (`max(-0, +0) = +0`,
`min(-0, +0) = -0`), never treated as numerically equal. -/
theorem c6_min_max_ieee (x y : AF.Float) :
    (AF.is_nan x = true → AF.fmin x y = y ∧ AF.fmax x y = y) ∧
    (AF.is_nan x = false → AF.is_nan y = true →
      AF.fmin x y = x ∧ AF.fmax x y = x) ∧
    (AF.is_nan x = false → AF.is_nan y = false → x.sign ≠ y.sign →
      AF.fmax x y = (if x.sign then y else x) ∧
      AF.fmin x y = (if x.sign then x else y)) ∧
    (AF.fmax (AF.zero true) (AF.zero false) = AF.zero false ∧
      AF.fmin (AF.zero true) (AF.zero false) = AF.zero true ∧
      AF.fmax (AF.zero false) (AF.zero true) = AF.zero false ∧
      AF.fmin (AF.zero false) (AF.zero true) = AF.zero true ∧
      AF.fmin (AF.nan false) (AF.from_u64 11 52 5) = AF.from_u64 11 52 5 ∧
      AF.fmax (AF.nan false) (AF.from_u64 11 52 5) = AF.from_u64 11 52 5) := by
  refine ⟨?_, ?_, ?_, ?_⟩
  · intro hx
    simp [AF.fmin, AF.fmax, hx]
  · intro hx hy
    simp [AF.fmin, AF.fmax, hx, hy]
  · intro hx hy hs
    have hb : (x.sign != y.sign) = true := bne_iff_ne.mpr hs
    simp [AF.fmin, AF.fmax, hx, hy, hb]
  · refine ⟨?_, ?_, ?_, ?_, ?_, ?_⟩ <;> decide

/-- C6 witness: the sign-differ and NaN branches at concrete inputs. -/
theorem c6_min_max_ieee_witness :
    AF.fmax (AF.zero true) (AF.zero false) =
      (if (AF.zero true).sign then AF.zero false else AF.zero true) ∧
    AF.fmin (AF.nan false) (AF.from_u64 11 52 5) = AF.from_u64 11 52 5 :=
  ⟨((c6_min_max_ieee (AF.zero true) (AF.zero false)).2.2.1 (by decide)
      (by decide) (by decide)).1,
   ((c6_min_max_ieee (AF.nan false) (AF.from_u64 11 52 5)).1 (by decide)).1⟩

/-- C2 counterexample: `sin` applied to a NaN or Infinity operand does not
return a NaN value — the `assert!(self.is_normal())` at the top of `fn sin`
fires and the operation aborts. -/
theorem c2_sin_nan_aborts_counterexample :
    AF.sinM 11 52 5 (AF.nan false) = AF.PRes.abort ∧
    AF.sinM 11 52 5 (AF.inf false) = AF.PRes.abort ∧
    AF.sinM 11 52 5 (AF.inf true) = AF.PRes.abort := by
  refine ⟨?_, ?_, ?_⟩ <;> decide

/-- Arithmetic form of `encode`: with in-range fields the or-ed shifts are a
plain positional sum. -/
theorem encode_eq (E M : Nat) (s : Bool) (e mant : Nat) (he : e < 2 ^ E)
    (hm : mant < 2 ^ M) :
    AF.encode E M s e mant =
      (cond s 1 0) * 2 ^ (E + M) + e * 2 ^ M + mant := by
  unfold AF.encode
  simp only [Nat.shiftLeft_eq]
  rw [lor_mul_pow_add _ _ _ he, lor_mul_pow_add _ _ _ hm, Nat.add_mul,
    Nat.mul_assoc, ← pow_add]

/-- Helper: the round trip `from_bits` then `as_native_float` over a general
configuration: exact for every non-NaN pattern, and a NaN pattern keeps its
sign and exponent field with the canonical quiet payload `2 ^ (M - 1)`. -/
theorem af_roundtrip (E M : Nat) (hM : 1 ≤ M) (hE64 : E ≤ 64)
    (b : Nat) (hb : b < 2 ^ (E + M + 1)) :
    AF.as_native_float E M (AF.from_bits E M b) =
      some (if (b / 2 ^ M) % 2 ^ E = 2 ^ E - 1 ∧ b % 2 ^ M ≠ 0
        then (b / 2 ^ (E + M)) * 2 ^ (E + M) + (2 ^ E - 1) * 2 ^ M
          + 2 ^ (M - 1)
        else b) := by
  have hEpos : (0 : Nat) < 2 ^ E := by positivity
  have hMpos : (0 : Nat) < 2 ^ M := by positivity
  have hEMpos : (0 : Nat) < 2 ^ (E + M) := by positivity
  -- field decomposition
  have he_lt : (b / 2 ^ M) % 2 ^ E < 2 ^ E := Nat.mod_lt _ hEpos
  have hm_lt : b % 2 ^ M < 2 ^ M := Nat.mod_lt _ hMpos
  have hs_lt : b / 2 ^ (E + M) < 2 := by
    apply Nat.div_lt_of_lt_mul
    calc b < 2 ^ (E + M + 1) := hb
      _ = 2 ^ (E + M) * 2 := by rw [pow_succ]
  have hs_le : b / 2 ^ (E + M) ≤ 1 := by omega
  have hsplit2 : b / 2 ^ M =
      (b / 2 ^ (E + M)) * 2 ^ E + (b / 2 ^ M) % 2 ^ E := by
    have h3 : b / 2 ^ M / 2 ^ E = b / 2 ^ (E + M) := by
      rw [Nat.div_div_eq_div_mul, ← pow_add, Nat.add_comm M E]
    rw [← h3]
    exact (Nat.div_add_mod' _ _).symm
  have hb_eq : b = (b / 2 ^ (E + M)) * 2 ^ (E + M)
      + ((b / 2 ^ M) % 2 ^ E) * 2 ^ M + b % 2 ^ M := by
    calc b = (b / 2 ^ M) * 2 ^ M + b % 2 ^ M := (Nat.div_add_mod' _ _).symm
      _ = ((b / 2 ^ (E + M)) * 2 ^ E + (b / 2 ^ M) % 2 ^ E) * 2 ^ M
            + b % 2 ^ M := by rw [← hsplit2]
      _ = (b / 2 ^ (E + M)) * 2 ^ (E + M)
            + ((b / 2 ^ M) % 2 ^ E) * 2 ^ M + b % 2 ^ M := by
            rw [Nat.add_mul, Nat.mul_assoc, ← pow_add]
  -- the decoded fields
  have hfe : (b >>> M) &&& (2 ^ E - 1) = (b / 2 ^ M) % 2 ^ E := by
    rw [Nat.shiftRight_eq_div_pow, Nat.and_pow_two_sub_one_eq_mod]
  have hfs : (b >>> (E + M)) &&& 1 = b / 2 ^ (E + M) := by
    rw [Nat.shiftRight_eq_div_pow, Nat.and_one_is_mod,
      Nat.mod_eq_of_lt (by omega)]
  have hfm : b &&& (2 ^ M - 1) = b % 2 ^ M := Nat.and_pow_two_sub_one_eq_mod _ _
  set s := b / 2 ^ (E + M) with hs_def
  set e := (b / 2 ^ M) % 2 ^ E with he_def
  set m := b % 2 ^ M with hm_def
  have hcond : cond (decide (s = 1)) 1 0 = s := by
    interval_cases s
    · rfl
    · rfl
  rw [AF.from_bits]
  simp only [hfe, hfs, hfm, AF.mask]
  by_cases hA : e = 2 ^ E - 1
  · rw [if_pos (show e = 2 ^ E - 1 from hA)]
    by_cases hm0 : m = 0
    · rw [if_pos (show m = 0 from hm0),
        if_neg (show ¬ (e = 2 ^ E - 1 ∧ m ≠ 0) by simp [hm0])]
      simp only [AF.as_native_float, AF.inf]
      rw [encode_eq E M _ _ _ (by simp only [AF.mask]; omega) hMpos]
      rw [hcond]
      rw [hA, hm0] at hb_eq
      congr 1
      simp only [AF.mask]
      omega
    · rw [if_neg (show ¬ m = 0 from hm0),
        if_pos (show e = 2 ^ E - 1 ∧ m ≠ 0 from ⟨hA, hm0⟩)]
      simp only [AF.as_native_float, AF.nan]
      have hlt : 2 ^ (M - 1) < 2 ^ M :=
        Nat.pow_lt_pow_right (by norm_num) (by omega)
      rw [encode_eq E M _ _ _ (by simp only [AF.mask]; omega) hlt]
      rw [hcond]
      simp only [AF.mask]
  · rw [if_neg (show ¬ e = 2 ^ E - 1 from hA),
      if_neg (show ¬ (e = 2 ^ E - 1 ∧ m ≠ 0) by simp [hA])]
    have hebound : (e : Int) < 2 ^ 64 := by
      have h1 : (e : Int) < (2 : Int) ^ E := by exact_mod_cast he_lt
      have h2 : (2 : Int) ^ E ≤ (2 : Int) ^ 64 :=
        pow_le_pow_right₀ (by norm_num) hE64
      omega
    by_cases he0 : e = 0
    · by_cases hm0 : m = 0
      · rw [if_neg (show ¬ e ≠ 0 by simp [he0]), AF.new,
          if_pos (show m = 0 from hm0)]
        simp only [AF.as_native_float, AF.zero]
        rw [encode_eq E M _ _ _ hEpos hMpos, hcond]
        rw [he0, hm0] at hb_eq
        congr 1
        omega
      · rw [if_neg (show ¬ e ≠ 0 by simp [he0]), AF.new,
          if_neg (show ¬ m = 0 from hm0)]
        simp only [AF.as_native_float, AF.raw]
        have hexp1 : (e : Int) - (AF.compute_ieee745_bias E : Int) + 1
            + (AF.get_bias E : Int) = 1 := by
          simp only [AF.get_bias]
          omega
        rw [hexp1]
        have hone : ((1 : Int) % 2 ^ 64).toNat = 1 := by decide
        rw [hone]
        have hmdiv : m >>> M = 0 := by
          rw [Nat.shiftRight_eq_div_pow]
          exact Nat.div_eq_of_lt hm_lt
        have hmm : m &&& (2 ^ M - 1) = m := by
          rw [Nat.and_pow_two_sub_one_eq_mod]
          exact Nat.mod_eq_of_lt hm_lt
        rw [if_neg (show ¬ (1 : Nat) = 0 by norm_num), hmm,
          if_pos (show m ≤ 2 ^ M from le_of_lt hm_lt),
          if_pos (show (1 : Nat) = 1 ∧ m >>> M = 0 from ⟨rfl, hmdiv⟩)]
        rw [encode_eq E M _ _ _ hEpos hm_lt, hcond]
        rw [he0] at hb_eq
        congr 1
        omega
    · have hmpos : ¬ (m + 2 ^ M = 0) := by positivity
      rw [if_pos (show e ≠ 0 from he0), AF.new, if_neg hmpos]
      simp only [AF.as_native_float, AF.raw]
      have hexpe : (e : Int) - (AF.compute_ieee745_bias E : Int)
          + (AF.get_bias E : Int) = (e : Int) := by
        simp only [AF.get_bias]
        omega
      rw [hexpe]
      have hemod : ((e : Int)) % ((2 : Int) ^ 64) = (e : Int) :=
        Int.emod_eq_of_lt (by positivity) hebound
      rw [hemod, Int.toNat_natCast]
      have hmdiv : (m + 2 ^ M) >>> M = 1 := by
        rw [Nat.shiftRight_eq_div_pow, Nat.add_div_right _ hMpos,
          Nat.div_eq_of_lt hm_lt]
      have hcond2 : ¬ (e = 1 ∧ (m + 2 ^ M) >>> M = 0) := by
        rw [hmdiv]
        simp
      have hmm : (m + 2 ^ M) &&& (2 ^ M - 1) = m := by
        rw [Nat.and_pow_two_sub_one_eq_mod, Nat.add_mod_right,
          Nat.mod_eq_of_lt hm_lt]
      rw [if_neg (show ¬ e = 0 from he0), hmm,
        if_pos (show m ≤ 2 ^ M from le_of_lt hm_lt), if_neg hcond2]
      rw [encode_eq E M _ _ _ he_lt hm_lt, hcond]
      congr 1
      omega

/-- C1: for every 32-bit IEEE-754 bit pattern `b`, decoding with `from_bits`
and re-encoding with `as_native_float` returns `b` exactly — including
Infinities, subnormals and zeros — except that a NaN pattern comes back as a
NaN with the same sign and all-ones exponent but the canonical quiet payload
bit `2 ^ 22` (payload aside, as the spec allows); likewise for every 64-bit
pattern with payload bit `2 ^ 51`. -/
theorem c1_native_bits_roundtrip :
    (∀ b : Nat, b < 2 ^ 32 →
      AF.as_native_float 8 23 (AF.from_bits 8 23 b) =
        some (if (b / 2 ^ 23) % 2 ^ 8 = 2 ^ 8 - 1 ∧ b % 2 ^ 23 ≠ 0
          then (b / 2 ^ 31) * 2 ^ 31 + (2 ^ 8 - 1) * 2 ^ 23 + 2 ^ 22
          else b)) ∧
    (∀ b : Nat, b < 2 ^ 64 →
      AF.as_native_float 11 52 (AF.from_bits 11 52 b) =
        some (if (b / 2 ^ 52) % 2 ^ 11 = 2 ^ 11 - 1 ∧ b % 2 ^ 52 ≠ 0
          then (b / 2 ^ 63) * 2 ^ 63 + (2 ^ 11 - 1) * 2 ^ 52 + 2 ^ 51
          else b)) := by
  constructor
  · intro b hb
    exact af_roundtrip 8 23 (by norm_num) (by norm_num) b (by norm_num; omega)
  · intro b hb
    exact af_roundtrip 11 52 (by norm_num) (by norm_num) b (by norm_num; omega)

/-- C1 witness: the spec's scenario value `0x41700000` round-trips exactly,
and the negative quiet NaN pattern `0xffc00000` is reproduced bit-exactly as
well (its payload is already the canonical bit). -/
theorem c1_native_bits_roundtrip_witness :
    AF.as_native_float 8 23 (AF.from_bits 8 23 1097859072) =
      some 1097859072 ∧
    AF.as_native_float 8 23 (AF.from_bits 8 23 4290772992) =
      some 4290772992 := by
  constructor
  · have h := c1_native_bits_roundtrip.1 1097859072 (by norm_num)
    rw [if_neg (by decide)] at h
    exact h
  · have h := c1_native_bits_roundtrip.1 4290772992 (by norm_num)
    rw [if_pos (by decide)] at h
    norm_num at h
    exact h

/-- Normalization never changes the sign. -/
theorem af_normalize_sign (E M : Nat) (rm : AF.RoundingMode) (f : AF.Float)
    (l : AF.LossFraction) : (AF.normalize E M rm f l).sign = f.sign := by
  simp only [AF.normalize]
  split_ifs <;> rfl

/-- `from_u64` always produces a positive sign bit. -/
theorem af_from_u64_sign (E M v : Nat) : (AF.from_u64 E M v).sign = false := by
  unfold AF.from_u64
  rw [af_normalize_sign]
  unfold AF.new
  split <;> rfl

theorem af_set_sign_false {f : AF.Float} (h : f.sign = false) :
    AF.set_sign f false = f := by
  cases f
  simp only [AF.set_sign]
  simp at h
  rw [h]

/-- Value of the frost `from_u64` under the 11-bit-exponent configuration:
the conversion never fails and stores the magnitude with a positive sign;
the stored value, read back through `get_mantissa` as every source read path
does, equals `v` exactly whenever `v` fits in the `M + 1` mantissa bits the
reads keep. -/
theorem frost_from_u64_spec (v : Nat) (hv : v < 2 ^ 64) :
    ∃ f, Frost.from_u64 11 v = some f ∧ f.sign = false ∧
      ∀ M : Nat, M ≤ 63 → bitlen v ≤ M + 1 →
        Frost.value 11 M f = (v : ℚ) := by
  by_cases h0 : v = 0
  · subst h0
    refine ⟨Frost.zero false, by rfl, rfl, ?_⟩
    intro M hM hbl
    simp [Frost.value, Frost.zero, Frost.get_mantissa]
  · have hn1 : 1 ≤ bitlen v := bitlen_pos h0
    have hn64 : bitlen v ≤ 64 := bitlen_le_of_lt hv
    have hvlt : v < 2 ^ bitlen v := lt_two_pow_bitlen v
    set n := bitlen v with hn_def
    have hsize : 64 - (64 - n) = n := by omega
    have hshift_lt : v <<< (64 - n) < 2 ^ 64 := by
      rw [Nat.shiftLeft_eq]
      calc v * 2 ^ (64 - n) < 2 ^ n * 2 ^ (64 - n) :=
            mul_lt_mul_of_pos_right hvlt (pow_pos (by norm_num) _)
        _ = 2 ^ 64 := by rw [← pow_add]; congr 1; omega
    refine ⟨⟨false, n + 1022, v <<< (64 - n)⟩, ?_, rfl, ?_⟩
    · simp only [Frost.from_u64, ← hn_def]
      rw [if_neg h0, hsize]
      rw [if_neg (by
        show ¬ ((n : Int) > (Frost.get_exp_bounds 11).2)
        simp only [Frost.get_exp_bounds, Frost.get_bias,
          Frost.compute_ieee745_bias]
        norm_num
        omega)]
      simp only [Frost.set_exp]
      rw [if_pos (by
        simp only [Frost.get_exp_bounds, Frost.get_bias,
          Frost.compute_ieee745_bias]
        norm_num
        omega)]
      simp only [Option.map_some']
      simp only [Frost.set_sign, Frost.set_mantissa, Frost.U, Frost.dflt]
      rw [Nat.mod_eq_of_lt hshift_lt]
      congr 1
      simp only [Frost.get_bias, Frost.compute_ieee745_bias]
      norm_num
      omega
    · intro M hM hbl
      have hmask : Frost.get_mantissa M
          (⟨false, n + 1022, v <<< (64 - n)⟩ : Frost.Float) =
          v <<< (64 - n) := by
        unfold Frost.get_mantissa
        simp only
        rw [Nat.shiftLeft_eq, Nat.shiftRight_eq_div_pow, Nat.shiftLeft_eq]
        have hdvd : 2 ^ (64 - M - 1) ∣ v * 2 ^ (64 - n) :=
          Dvd.dvd.mul_left (pow_dvd_pow 2 (by omega)) v
        rw [Nat.div_mul_cancel hdvd]
      unfold Frost.value
      rw [hmask]
      unfold Frost.get_exp Frost.get_bias
      simp only [Frost.compute_ieee745_bias]
      rw [Nat.shiftLeft_eq]
      push_cast
      have hexp : (n : Int) + 1022 - 1023 - 63 = (n : Int) - 64 := by omega
      rw [hexp]
      have hzpow : (2 : ℚ) ^ ((64 - n : Nat) : Int) * 2 ^ ((n : Int) - 64)
          = 1 := by
        rw [← zpow_add₀ (by norm_num : (2:ℚ) ≠ 0)]
        have : ((64 - n : Nat) : Int) + ((n : Int) - 64) = 0 := by omega
        rw [this, zpow_zero]
      calc (1 : ℚ) * (v * 2 ^ (64 - n : Nat)) * 2 ^ ((n : Int) - 64)
          = (v : ℚ) * ((2 : ℚ) ^ ((64 - n : Nat) : Int) * 2 ^ ((n : Int) - 64)) := by
            rw [zpow_natCast]
            ring
        _ = v := by rw [hzpow]; ring

/-- C10 counterexample: neither representation converts
`2 ^ 53 + 1` exactly at 52 mantissa bits — lib/float rounds it to `2 ^ 53`
by ties-to-even, and frost stores all 64 bits but every read through
`get_mantissa 52` discards the low `11`, so the observable value is also
`2 ^ 53`. -/
theorem c10_magnitude_counterexample :
    AF.from_i64 11 52 (2 ^ 53 + 1) =
      some (AF.raw false 53 (2 ^ 52) AF.Category.Normal) ∧
    AF.value 52 (AF.raw false 53 (2 ^ 52) AF.Category.Normal) =
      (2 : ℚ) ^ 53 ∧
    Frost.from_i64 11 (2 ^ 53 + 1) =
      some (⟨false, 1076, 2 ^ 63 + 2 ^ 10⟩ : Frost.Float) ∧
    Frost.get_mantissa 52 (⟨false, 1076, 2 ^ 63 + 2 ^ 10⟩ : Frost.Float) =
      2 ^ 63 ∧
    Frost.value 11 52 (⟨false, 1076, 2 ^ 63 + 2 ^ 10⟩ : Frost.Float) =
      (2 : ℚ) ^ 53 ∧
    ((2 : ℚ) ^ 53) ≠ (2 : ℚ) ^ 53 + 1 := by
  refine ⟨by decide, ?_, by decide, by decide, ?_, by norm_num⟩
  · show (if false then (-1 : ℚ) else 1) * ((2 ^ 52 : Nat) : ℚ)
      * 2 ^ ((53 : Int) - 52) = (2 : ℚ) ^ 53
    norm_num
  · have hm : Frost.get_mantissa 52
        (⟨false, 1076, 2 ^ 63 + 2 ^ 10⟩ : Frost.Float) = 2 ^ 63 := by
      decide
    unfold Frost.value
    rw [hm]
    unfold Frost.get_exp Frost.get_bias
    simp only [Frost.compute_ieee745_bias]
    have hexp : (((1076 : Nat) : Int)) - ((2 ^ (11 - 1) - 1 : Nat) : Int)
        - 63 = -10 := by norm_num
    rw [hexp]
    have h63 : ((2 ^ 63 : Nat) : ℚ) = (2 : ℚ) ^ (63 : Int) := by
      norm_num
    rw [h63]
    rw [show (if false then (-1 : ℚ) else 1) = 1 from rfl, one_mul]
    rw [← zpow_add₀ (by norm_num : (2:ℚ) ≠ 0)]
    norm_num

/-- C10 amended: for every `i64` value above `i64::MIN`,
`from_i64` returns (without aborting) a float whose sign bit is set iff
`val < 0`; the frost value as read through `get_mantissa` equals `val`
whenever `|val|` fits in `M + 1` bits, and the lib/float conversion returns
`from_u64 |val|` with the sign patched; the checked negation overflows
exactly at `i64::MIN`. -/
theorem c10_from_i64_spec :
    (∀ val : Int, -(2 ^ 63) < val → val < 2 ^ 63 →
      ∃ f, Frost.from_i64 11 val = some f ∧
        f.sign = decide (val < 0) ∧
        (∀ M : Nat, M ≤ 63 → bitlen val.natAbs ≤ M + 1 →
          Frost.value 11 M f = (val : ℚ))) ∧
    Frost.from_i64 11 (-(2 ^ 63)) = none ∧
    AF.from_i64 11 52 (-(2 ^ 63)) = none ∧
    (∀ val : Int, -(2 ^ 63) < val → val < 2 ^ 63 →
      AF.from_i64 11 52 val =
        some (AF.set_sign (AF.from_u64 11 52 val.natAbs)
          (decide (val < 0)))) := by
  refine ⟨?_, by decide, by decide, ?_⟩
  · intro val hlo hhi
    by_cases hneg : val < 0
    · have habs : (-val).toNat < 2 ^ 64 := by omega
      obtain ⟨f, hf, hsgn, hval⟩ := frost_from_u64_spec (-val).toNat habs
      refine ⟨Frost.set_sign f true, ?_, ?_, ?_⟩
      · unfold Frost.from_i64
        rw [if_pos hneg, if_neg (by omega)]
        rw [hf]
        rfl
      · simp [Frost.set_sign, hneg]
      · intro M hM hbl
        have hna : (-val).toNat = val.natAbs := by omega
        have h1 : Frost.value 11 M (Frost.set_sign f true) =
            -(Frost.value 11 M f) := by
          unfold Frost.value Frost.set_sign Frost.get_exp Frost.get_mantissa
          simp [hsgn]
        rw [h1, hval M hM (by rw [hna]; exact hbl)]
        have hcast : (((-val).toNat : Nat) : ℚ) = -(val : ℚ) := by
          have h2 : (((-val).toNat : Nat) : Int) = -val := by omega
          calc (((-val).toNat : Nat) : ℚ)
              = ((((-val).toNat : Nat) : Int) : ℚ) := by push_cast; ring
            _ = ((-val : Int) : ℚ) := by rw [h2]
            _ = -(val : ℚ) := by push_cast; ring
        rw [hcast]
        ring
    · have habs : val.toNat < 2 ^ 64 := by omega
      obtain ⟨f, hf, hsgn, hval⟩ := frost_from_u64_spec val.toNat habs
      refine ⟨f, ?_, ?_, ?_⟩
      · unfold Frost.from_i64
        rw [if_neg hneg]
        exact hf
      · simp [hsgn, hneg]
      · intro M hM hbl
        have hna : val.toNat = val.natAbs := by omega
        rw [hval M hM (by rw [hna]; exact hbl)]
        have h3 : ((val.toNat : Nat) : Int) = val := by omega
        exact_mod_cast congrArg (fun z : Int => (z : ℚ)) h3
  · intro val hlo hhi
    by_cases hneg : val < 0
    · unfold AF.from_i64
      rw [if_pos hneg, if_neg (by omega)]
      have : (-val).toNat = val.natAbs := by omega
      rw [this]
      simp [hneg]
    · unfold AF.from_i64
      rw [if_neg hneg]
      have h1 : val.toNat = val.natAbs := by omega
      rw [h1]
      have h2 : decide (val < 0) = false := by simp [hneg]
      rw [h2, af_set_sign_false (af_from_u64_sign 11 52 val.natAbs)]

/-- C10 witness: the amended statement applied at `-7` (frost: exact value
at any kept precision of at least 3 bits, negative sign) and at `6`
(lib/float). -/
theorem c10_from_i64_spec_witness :
    (∃ f, Frost.from_i64 11 (-7) = some f ∧
      f.sign = decide ((-7 : Int) < 0) ∧
      (∀ M : Nat, M ≤ 63 → bitlen ((-7 : Int)).natAbs ≤ M + 1 →
        Frost.value 11 M f = ((-7 : Int) : ℚ))) ∧
    AF.from_i64 11 52 6 =
      some (AF.set_sign (AF.from_u64 11 52 (6 : Int).natAbs)
        (decide ((6 : Int) < 0))) :=
  ⟨c10_from_i64_spec.1 (-7) (by norm_num) (by norm_num),
   c10_from_i64_spec.2.2.2 6 (by norm_num) (by norm_num)⟩

/-- `new` never yields a NaN. -/
theorem af_new_not_nan (s : Bool) (e : Int) (m : Nat) :
    AF.is_nan (AF.new s e m) = false := by
  unfold AF.new
  split <;> rfl

/-- Normalization never introduces a NaN. -/
theorem af_normalize_not_nan (E M : Nat) (rm : AF.RoundingMode)
    (f : AF.Float) (l : AF.LossFraction) (h : AF.is_nan f = false) :
    AF.is_nan (AF.normalize E M rm f l) = false := by
  simp only [AF.normalize]
  split_ifs <;> first | exact h | rfl

/-- The exact add core never yields a NaN. -/
theorem af_addExact_not_nan (E M : Nat) (rm : AF.RoundingMode)
    (x y : AF.Float) : AF.is_nan (AF.addExact E M rm x y) = false := by
  unfold AF.addExact
  dsimp only
  split_ifs <;>
    first
      | exact af_normalize_not_nan _ _ _ _ _ (af_new_not_nan _ _ _)
      | rfl

/-- The add wrapper yields a NaN only from a NaN operand or from
`Infinity - Infinity`; a non-Infinity left operand with NaN-free inputs
stays NaN-free. -/
theorem af_addRM_not_nan (E M : Nat) (rm : AF.RoundingMode) (x y : AF.Float)
    (hx : AF.is_nan x = false) (hy : AF.is_nan y = false)
    (hix : AF.is_inf x = false) :
    AF.is_nan (AF.addRM E M rm x y) = false := by
  unfold AF.addRM
  simp only [hx, hy, hix, Bool.false_and, Bool.false_eq_true, if_false]
  split_ifs <;>
    first
      | exact hy
      | exact hx
      | rfl
      | exact af_addExact_not_nan E M rm x y

/-- `scale` never introduces a NaN. -/
theorem af_scaleF_not_nan (E M : Nat) (f : AF.Float) (s : Int)
    (rm : AF.RoundingMode) (h : AF.is_nan f = false) :
    AF.is_nan (AF.scaleF E M f s rm) = false := by
  unfold AF.scaleF
  split
  · exact h
  · exact af_normalize_not_nan _ _ _ _ _ (af_new_not_nan _ _ _)

/-- The rem loop preserves NaN-freedom of the running dividend. -/
theorem af_remGo_not_nan (E M : Nat) (rhs : AF.Float)
    (hrhs : AF.is_nan rhs = false) :
    ∀ (fuel : Nat) (lhs l : AF.Float), AF.is_nan lhs = false →
      AF.remGo E M rhs fuel lhs = AF.PRes.ok l → AF.is_nan l = false := by
  intro fuel
  induction fuel with
  | zero =>
    intro lhs l _ h
    exact absurd h (by simp [AF.remGo])
  | succ fuel ih =>
    intro lhs l hl h
    rw [AF.remGo] at h
    split at h
    · rename_i hguard
      apply ih _ _ _ h
      have hnorm : AF.is_normal lhs = true := by
        have h2 := hguard
        simp only [Bool.and_eq_true] at h2
        exact h2.2
      have hinf : AF.is_inf lhs = false := by
        have hc : lhs.category = AF.Category.Normal := by
          simpa [AF.is_normal] using hnorm
        simp [AF.is_inf, hc]
      have hdiff : AF.is_nan
          (if AF.fgt (AF.scaleF E M rhs (lhs.exp - rhs.exp)
              AF.RoundingMode.NearestTiesToEven) lhs
           then AF.scaleF E M rhs (lhs.exp - rhs.exp - 1)
              AF.RoundingMode.NearestTiesToEven
           else AF.scaleF E M rhs (lhs.exp - rhs.exp)
              AF.RoundingMode.NearestTiesToEven) = false := by
        split <;> exact af_scaleF_not_nan _ _ _ _ _ hrhs
      have hnegd : ∀ d : AF.Float, AF.is_nan d = false →
          AF.is_nan (AF.neg d) = false := by
        intro d hd
        simpa [AF.is_nan, AF.neg] using hd
      exact af_addRM_not_nan _ _ _ _ _ hl (hnegd _ hdiff) hinf
    · exact (by cases h; exact hl)

/-- The rem tail never returns a NaN when the loop inputs are NaN-free. -/
theorem af_remTail_not_nan (E M fuel : Nat) (sgn : Bool) (lhs rhs r : AF.Float)
    (hl : AF.is_nan lhs = false) (hrhs : AF.is_nan rhs = false)
    (h : AF.remTail E M fuel sgn lhs rhs = AF.PRes.ok r) :
    AF.is_nan r = false := by
  unfold AF.remTail at h
  split at h
  · exact absurd h (by simp)
  · split at h
    · rename_i l hgo
      cases h
      have := af_remGo_not_nan E M rhs hrhs fuel lhs l hl hgo
      simpa [AF.is_nan, AF.set_sign] using this
    · exact absurd h (by simp)
    · exact absurd h (by simp)

/-- C5: `rem` returns a NaN value exactly when one of the operands is NaN,
the dividend is Infinity, or the divisor is zero; in every other case the
value it returns (whenever the loop completes) is never NaN. -/
theorem c5_rem_nan_iff (E M fuel : Nat) (x y r : AF.Float)
    (h : AF.remM E M fuel x y = AF.PRes.ok r) :
    (AF.is_nan r = true ↔
      (AF.is_nan x = true ∨ AF.is_nan y = true ∨ AF.is_inf x = true ∨
        AF.is_zero y = true)) := by
  by_cases hc : (AF.is_nan x || AF.is_nan y || AF.is_inf x || AF.is_zero y)
      = true
  · rw [AF.remM, if_pos hc] at h
    cases h
    constructor
    · intro _
      have := hc
      simp only [Bool.or_eq_true] at this
      tauto
    · intro _
      rfl
  · have hc4 : AF.is_nan x = false ∧ AF.is_nan y = false ∧
        AF.is_inf x = false ∧ AF.is_zero y = false := by
      simp only [Bool.or_eq_true] at hc
      push_neg at hc
      exact ⟨by simpa using hc.1.1.1, by simpa using hc.1.1.2,
        by simpa using hc.1.2, by simpa using hc.2⟩
    obtain ⟨hx, hy, hix, hzy⟩ := hc4
    have hnot : AF.is_nan r = false := by
      rw [AF.remM, if_neg (by simp [hc])] at h
      split at h
      · cases h
        exact hx
      · have hlhs : AF.is_nan (AF.abs x) = false := by
          simpa [AF.is_nan, AF.abs, AF.set_sign] using hx
        have hrhs : AF.is_nan
            (if AF.is_negative y then AF.neg y else y) = false := by
          split
          · simpa [AF.is_nan, AF.neg] using hy
          · exact hy
        exact af_remTail_not_nan E M fuel x.sign _ _ r hlhs hrhs h
    rw [hnot]
    constructor
    · intro hfalse
      exact absurd hfalse (by simp)
    · intro hor
      rcases hor with h1 | h1 | h1 | h1
      · rw [hx] at h1
        exact absurd h1 (by simp)
      · rw [hy] at h1
        exact absurd h1 (by simp)
      · rw [hix] at h1
        exact absurd h1 (by simp)
      · rw [hzy] at h1
        exact absurd h1 (by simp)

/-- C5 witness: `7 rem 3 = 1` completes with a non-NaN result and none of
the NaN conditions, while `7 rem 0` yields NaN with a zero divisor. -/
theorem c5_rem_nan_iff_witness :
    (AF.is_nan (AF.from_u64 11 52 1) = true ↔
      (AF.is_nan (AF.from_u64 11 52 7) = true ∨
        AF.is_nan (AF.from_u64 11 52 3) = true ∨
        AF.is_inf (AF.from_u64 11 52 7) = true ∨
        AF.is_zero (AF.from_u64 11 52 3) = true)) ∧
    (AF.is_nan (AF.nan false) = true ↔
      (AF.is_nan (AF.from_u64 11 52 7) = true ∨
        AF.is_nan (AF.zero false) = true ∨
        AF.is_inf (AF.from_u64 11 52 7) = true ∨
        AF.is_zero (AF.zero false) = true)) :=
  ⟨c5_rem_nan_iff 11 52 10 (AF.from_u64 11 52 7) (AF.from_u64 11 52 3)
      (AF.from_u64 11 52 1) (by decide),
   c5_rem_nan_iff 11 52 10 (AF.from_u64 11 52 7) (AF.zero false)
      (AF.nan false) (by decide)⟩


/-- More fuel preserves a successful sqrt-loop outcome. -/
theorem af_sqrtGo_succ (E M : Nat) (t tw : AF.Float) :
    ∀ (n : Nat) (x r : AF.Float), AF.sqrtGo E M t tw n x = AF.PRes.ok r →
      AF.sqrtGo E M t tw (n + 1) x = AF.PRes.ok r := by
  intro n
  induction n with
  | zero => intro x r h; exact absurd h (by simp [AF.sqrtGo])
  | succ n ih =>
    intro x r h
    rw [AF.sqrtGo] at h
    rw [AF.sqrtGo]
    split at h
    · rw [if_pos (by assumption)]
      exact h
    · rw [if_neg (by assumption)]
      exact ih _ _ h

theorem af_sqrtGo_mono (E M : Nat) (t tw : AF.Float) (n m : Nat) (hnm : n ≤ m)
    (x r : AF.Float) (h : AF.sqrtGo E M t tw n x = AF.PRes.ok r) :
    AF.sqrtGo E M t tw m x = AF.PRes.ok r := by
  induction m with
  | zero =>
    have : n = 0 := Nat.le_zero.mp hnm
    subst this
    exact h
  | succ m ih =>
    rcases Nat.eq_or_lt_of_le hnm with heq | hlt
    · subst heq
      exact h
    · exact af_sqrtGo_succ E M t tw m x r (ih (Nat.lt_succ_iff.mp hlt))

theorem af_sqrtGo_no_abort (E M : Nat) (t tw : AF.Float) :
    ∀ (n : Nat) (x : AF.Float), AF.sqrtGo E M t tw n x ≠ AF.PRes.abort := by
  intro n
  induction n with
  | zero => intro x h; exact absurd h (by simp [AF.sqrtGo])
  | succ n ih =>
    intro x h
    rw [AF.sqrtGo] at h
    split at h
    · exact absurd h (by simp)
    · exact ih _ h

theorem af_sqrtGo_dichot (E M : Nat) (t tw : AF.Float) (n0 : Nat)
    (x r : AF.Float) (h : AF.sqrtGo E M t tw n0 x = AF.PRes.ok r) (n : Nat) :
    AF.sqrtGo E M t tw n x = AF.PRes.fuelOut ∨
      AF.sqrtGo E M t tw n x = AF.PRes.ok r := by
  rcases hn : AF.sqrtGo E M t tw n x with r' | _ | _
  · right
    rcases Nat.le_total n n0 with hle | hle
    · have := af_sqrtGo_mono E M t tw n n0 hle x r' hn
      rw [this] at h
      cases h
      rfl
    · have := af_sqrtGo_mono E M t tw n0 n hle x r h
      rw [this] at hn
      cases hn
      rfl
  · exact absurd hn (af_sqrtGo_no_abort E M t tw n x)
  · left; rfl

/-- Fuel dichotomy for `sqrt`: once some fuel succeeds with result `r`,
every fuel amount either runs out or yields the same `r`. -/
theorem af_sqrtM_dichot (E M : Nat) (n0 : Nat) (f r : AF.Float)
    (h : AF.sqrtM E M n0 f = AF.PRes.ok r) (n : Nat) :
    AF.sqrtM E M n f = AF.PRes.fuelOut ∨ AF.sqrtM E M n f = AF.PRes.ok r := by
  unfold AF.sqrtM at h ⊢
  split_ifs at h ⊢
  · right; exact h
  · right; exact h
  · right; exact h
  · exact af_sqrtGo_dichot E M f _ n0 _ r h n

/-- Unfolding equation for one AGM iteration on an explicit state. -/
theorem af_piStep_eq (E M sf : Nat) (tw a b t x : AF.Float) :
    AF.piStep E M sf tw (a, b, t, x) =
      match AF.sqrtM E M sf (AF.mulW E M b a) with
      | AF.PRes.ok b2 =>
        AF.PRes.ok (AF.divW E M (AF.addW E M a b) tw, b2,
          AF.subW E M t (AF.mulW E M x
            (AF.sqr E M (AF.subW E M (AF.divW E M (AF.addW E M a b) tw) a))),
          AF.mulW E M x tw)
      | AF.PRes.abort => AF.PRes.abort
      | AF.PRes.fuelOut => AF.PRes.fuelOut := rfl

/-- Unfolding equation for the AGM driver loop at positive fuel. -/
theorem af_piGo_succ_eq (E M sf n : Nat) (tw : AF.Float)
    (s : AF.Float × AF.Float × AF.Float × AF.Float) :
    AF.piGo E M sf tw (n + 1) s =
      if AF.feq s.1 s.2.1 then
        AF.PRes.ok (AF.divW E M (AF.mulW E M s.1 s.1) s.2.2.1)
      else
        match AF.piStep E M sf tw s with
        | AF.PRes.ok s2 => AF.piGo E M sf tw n s2
        | AF.PRes.abort => AF.PRes.abort
        | AF.PRes.fuelOut => AF.PRes.fuelOut := rfl

/-- Unfolding equation for `pi`. -/
theorem af_piM_eq (E M fuel : Nat) :
    AF.piM E M fuel =
      match AF.sqrtM E M fuel (AF.from_u64 E M 2) with
      | AF.PRes.ok s2 =>
        AF.piGo E M fuel (AF.from_u64 E M 2) fuel
          (AF.from_u64 E M 1, AF.divW E M (AF.from_u64 E M 1) s2,
            AF.divW E M (AF.from_u64 E M 1) (AF.from_u64 E M 4),
            AF.from_u64 E M 1)
      | AF.PRes.abort => AF.PRes.abort
      | AF.PRes.fuelOut => AF.PRes.fuelOut := rfl

/-- At configuration (2,25) the AGM state with `a = 28427754`,
`b = 28427753`, `t = NaN`, `x = Infinity` is a fixed point of the
iteration, whatever the sqrt fuel. -/
theorem pi25_step_fix (sf : Nat) :
    AF.piStep 2 25 sf (AF.from_u64 2 25 2)
        (⟨false, 0, 28427754, AF.Category.Normal⟩,
         ⟨false, 0, 28427753, AF.Category.Normal⟩,
         ⟨true, 0, 1, AF.Category.NaN⟩,
         ⟨false, 0, 0, AF.Category.Infinity⟩) = AF.PRes.fuelOut ∨
      AF.piStep 2 25 sf (AF.from_u64 2 25 2)
        (⟨false, 0, 28427754, AF.Category.Normal⟩,
         ⟨false, 0, 28427753, AF.Category.Normal⟩,
         ⟨true, 0, 1, AF.Category.NaN⟩,
         ⟨false, 0, 0, AF.Category.Infinity⟩) =
        AF.PRes.ok
          (⟨false, 0, 28427754, AF.Category.Normal⟩,
           ⟨false, 0, 28427753, AF.Category.Normal⟩,
           ⟨true, 0, 1, AF.Category.NaN⟩,
           ⟨false, 0, 0, AF.Category.Infinity⟩) := by
  rcases af_sqrtM_dichot 2 25 50
      (AF.mulW 2 25 ⟨false, 0, 28427753, AF.Category.Normal⟩
        ⟨false, 0, 28427754, AF.Category.Normal⟩)
      ⟨false, 0, 28427753, AF.Category.Normal⟩ (by decide) sf with h | h
  · left
    rw [af_piStep_eq, h]
  · right
    rw [af_piStep_eq, h]
    decide

/-- The fixed point has `a ≠ b`, so the loop never exits from it. -/
theorem pi25_go_fix (sf : Nat) : ∀ n : Nat,
    AF.piGo 2 25 sf (AF.from_u64 2 25 2) n
      (⟨false, 0, 28427754, AF.Category.Normal⟩,
       ⟨false, 0, 28427753, AF.Category.Normal⟩,
       ⟨true, 0, 1, AF.Category.NaN⟩,
       ⟨false, 0, 0, AF.Category.Infinity⟩) = AF.PRes.fuelOut := by
  intro n
  induction n with
  | zero => rfl
  | succ n ih =>
    rw [af_piGo_succ_eq]
    rw [if_neg (show ¬(AF.feq
      (⟨false, 0, 28427754, AF.Category.Normal⟩ : AF.Float)
      (⟨false, 0, 28427753, AF.Category.Normal⟩ : AF.Float) = true) from
        by decide)]
    rcases pi25_step_fix sf with h | h
    · rw [h]
    · rw [h]
      exact ih

/-- One AGM step from the third reachable (2,25) state lands on the fixed
point (or runs out of sqrt fuel). -/
theorem pi25_step2 (sf : Nat) :
    AF.piStep 2 25 sf (AF.from_u64 2 25 2)
        (⟨false, 0, 28428150, AF.Category.Normal⟩,
         ⟨false, 0, 28427357, AF.Category.Normal⟩,
         ⟨true, 0, 722317, AF.Category.Normal⟩,
         ⟨false, 0, 0, AF.Category.Infinity⟩) = AF.PRes.fuelOut ∨
      AF.piStep 2 25 sf (AF.from_u64 2 25 2)
        (⟨false, 0, 28428150, AF.Category.Normal⟩,
         ⟨false, 0, 28427357, AF.Category.Normal⟩,
         ⟨true, 0, 722317, AF.Category.Normal⟩,
         ⟨false, 0, 0, AF.Category.Infinity⟩) =
        AF.PRes.ok
          (⟨false, 0, 28427754, AF.Category.Normal⟩,
           ⟨false, 0, 28427753, AF.Category.Normal⟩,
           ⟨true, 0, 1, AF.Category.NaN⟩,
           ⟨false, 0, 0, AF.Category.Infinity⟩) := by
  rcases af_sqrtM_dichot 2 25 50
      (AF.mulW 2 25 ⟨false, 0, 28427357, AF.Category.Normal⟩
        ⟨false, 0, 28428150, AF.Category.Normal⟩)
      ⟨false, 0, 28427753, AF.Category.Normal⟩ (by decide) sf with h | h
  · left
    rw [af_piStep_eq, h]
  · right
    rw [af_piStep_eq, h]
    decide

/-- From the third reachable AGM state at (2,25) the loop never finishes. -/
theorem pi25_go2 (sf : Nat) : ∀ n : Nat,
    AF.piGo 2 25 sf (AF.from_u64 2 25 2) n
      (⟨false, 0, 28428150, AF.Category.Normal⟩,
       ⟨false, 0, 28427357, AF.Category.Normal⟩,
       ⟨true, 0, 722317, AF.Category.Normal⟩,
       ⟨false, 0, 0, AF.Category.Infinity⟩) = AF.PRes.fuelOut := by
  intro n
  cases n with
  | zero => rfl
  | succ n =>
    rw [af_piGo_succ_eq]
    rw [if_neg (show ¬(AF.feq
      (⟨false, 0, 28428150, AF.Category.Normal⟩ : AF.Float)
      (⟨false, 0, 28427357, AF.Category.Normal⟩ : AF.Float) = true) from
        by decide)]
    rcases pi25_step2 sf with h | h
    · rw [h]
    · rw [h]
      exact pi25_go_fix sf n

/-- One AGM step from the second reachable (2,25) state. -/
theorem pi25_step1 (sf : Nat) :
    AF.piStep 2 25 sf (AF.from_u64 2 25 2)
        (⟨false, 0, 28640499, AF.Category.Normal⟩,
         ⟨false, 0, 28215802, AF.Category.Normal⟩,
         ⟨true, 0, 719629, AF.Category.Normal⟩,
         ⟨false, 1, 33554432, AF.Category.Normal⟩) = AF.PRes.fuelOut ∨
      AF.piStep 2 25 sf (AF.from_u64 2 25 2)
        (⟨false, 0, 28640499, AF.Category.Normal⟩,
         ⟨false, 0, 28215802, AF.Category.Normal⟩,
         ⟨true, 0, 719629, AF.Category.Normal⟩,
         ⟨false, 1, 33554432, AF.Category.Normal⟩) =
        AF.PRes.ok
          (⟨false, 0, 28428150, AF.Category.Normal⟩,
           ⟨false, 0, 28427357, AF.Category.Normal⟩,
           ⟨true, 0, 722317, AF.Category.Normal⟩,
           ⟨false, 0, 0, AF.Category.Infinity⟩) := by
  rcases af_sqrtM_dichot 2 25 50
      (AF.mulW 2 25 ⟨false, 0, 28215802, AF.Category.Normal⟩
        ⟨false, 0, 28640499, AF.Category.Normal⟩)
      ⟨false, 0, 28427357, AF.Category.Normal⟩ (by decide) sf with h | h
  · left
    rw [af_piStep_eq, h]
  · right
    rw [af_piStep_eq, h]
    decide

/-- From the second reachable AGM state at (2,25) the loop never finishes. -/
theorem pi25_go1 (sf : Nat) : ∀ n : Nat,
    AF.piGo 2 25 sf (AF.from_u64 2 25 2) n
      (⟨false, 0, 28640499, AF.Category.Normal⟩,
       ⟨false, 0, 28215802, AF.Category.Normal⟩,
       ⟨true, 0, 719629, AF.Category.Normal⟩,
       ⟨false, 1, 33554432, AF.Category.Normal⟩) = AF.PRes.fuelOut := by
  intro n
  cases n with
  | zero => rfl
  | succ n =>
    rw [af_piGo_succ_eq]
    rw [if_neg (show ¬(AF.feq
      (⟨false, 0, 28640499, AF.Category.Normal⟩ : AF.Float)
      (⟨false, 0, 28215802, AF.Category.Normal⟩ : AF.Float) = true) from
        by decide)]
    rcases pi25_step1 sf with h | h
    · rw [h]
    · rw [h]
      exact pi25_go2 sf n

/-- One AGM step from the initial (2,25) state. -/
theorem pi25_step0 (sf : Nat) :
    AF.piStep 2 25 sf (AF.from_u64 2 25 2)
        (⟨false, 0, 33554432, AF.Category.Normal⟩,
         ⟨false, 0, 23726566, AF.Category.Normal⟩,
         ⟨false, 0, 0, AF.Category.Zero⟩,
         ⟨false, 0, 33554432, AF.Category.Normal⟩) = AF.PRes.fuelOut ∨
      AF.piStep 2 25 sf (AF.from_u64 2 25 2)
        (⟨false, 0, 33554432, AF.Category.Normal⟩,
         ⟨false, 0, 23726566, AF.Category.Normal⟩,
         ⟨false, 0, 0, AF.Category.Zero⟩,
         ⟨false, 0, 33554432, AF.Category.Normal⟩) =
        AF.PRes.ok
          (⟨false, 0, 28640499, AF.Category.Normal⟩,
           ⟨false, 0, 28215802, AF.Category.Normal⟩,
           ⟨true, 0, 719629, AF.Category.Normal⟩,
           ⟨false, 1, 33554432, AF.Category.Normal⟩) := by
  rcases af_sqrtM_dichot 2 25 50
      (AF.mulW 2 25 ⟨false, 0, 23726566, AF.Category.Normal⟩
        ⟨false, 0, 33554432, AF.Category.Normal⟩)
      ⟨false, 0, 28215802, AF.Category.Normal⟩ (by decide) sf with h | h
  · left
    rw [af_piStep_eq, h]
  · right
    rw [af_piStep_eq, h]
    decide

/-- From the initial AGM state at (2,25) the loop never finishes. -/
theorem pi25_go0 (sf : Nat) : ∀ n : Nat,
    AF.piGo 2 25 sf (AF.from_u64 2 25 2) n
      (⟨false, 0, 33554432, AF.Category.Normal⟩,
       ⟨false, 0, 23726566, AF.Category.Normal⟩,
       ⟨false, 0, 0, AF.Category.Zero⟩,
       ⟨false, 0, 33554432, AF.Category.Normal⟩) = AF.PRes.fuelOut := by
  intro n
  cases n with
  | zero => rfl
  | succ n =>
    rw [af_piGo_succ_eq]
    rw [if_neg (show ¬(AF.feq
      (⟨false, 0, 33554432, AF.Category.Normal⟩ : AF.Float)
      (⟨false, 0, 23726566, AF.Category.Normal⟩ : AF.Float) = true) from
        by decide)]
    rcases pi25_step0 sf with h | h
    · rw [h]
    · rw [h]
      exact pi25_go1 sf n

/-- `pi` at the 2-exponent-bit / 25-mantissa-bit configuration runs out of
fuel no matter how much fuel it is given: the AGM loop reaches a fixed
point with `a ≠ b`. -/
theorem pi25_nonterm (fuel : Nat) :
    AF.piM 2 25 fuel = AF.PRes.fuelOut := by
  rcases af_sqrtM_dichot 2 25 50 (AF.from_u64 2 25 2)
      ⟨false, 0, 47453133, AF.Category.Normal⟩ (by decide) fuel with h | h
  · rw [af_piM_eq, h]
  · rw [af_piM_eq, h]
    have hst : ((AF.from_u64 2 25 1 : AF.Float),
        AF.divW 2 25 (AF.from_u64 2 25 1)
          (⟨false, 0, 47453133, AF.Category.Normal⟩ : AF.Float),
        AF.divW 2 25 (AF.from_u64 2 25 1) (AF.from_u64 2 25 4),
        (AF.from_u64 2 25 1 : AF.Float)) =
        ((⟨false, 0, 33554432, AF.Category.Normal⟩ : AF.Float),
         (⟨false, 0, 23726566, AF.Category.Normal⟩ : AF.Float),
         (⟨false, 0, 0, AF.Category.Zero⟩ : AF.Float),
         (⟨false, 0, 33554432, AF.Category.Normal⟩ : AF.Float)) := by decide
    have hgo : AF.piGo 2 25 fuel (AF.from_u64 2 25 2) fuel
        (AF.from_u64 2 25 1,
          AF.divW 2 25 (AF.from_u64 2 25 1)
            ⟨false, 0, 47453133, AF.Category.Normal⟩,
          AF.divW 2 25 (AF.from_u64 2 25 1) (AF.from_u64 2 25 4),
          AF.from_u64 2 25 1) = AF.PRes.fuelOut := by
      rw [hst]
      exact pi25_go0 fuel fuel
    exact hgo

/-- Magnitude equality is symmetric. -/
theorem af_magEq_symm (x y : AF.Float) : AF.magEq x y = AF.magEq y x := by
  unfold AF.magEq
  split_ifs with h1 h2 h2
  · have hx : x.exp = y.exp := le_antisymm h2 h1
    rw [hx]
    simp [eq_comm]
  · simp [eq_comm]
  · simp [eq_comm]
  · omega

/-- IEEE equality is symmetric. -/
theorem af_feq_symm (x y : AF.Float) : AF.feq x y = AF.feq y x := by
  obtain ⟨xs, xe, xm, xc⟩ := x
  obtain ⟨ys, ye, ym, yc⟩ := y
  cases xc <;> cases yc <;>
    simp [AF.feq, af_magEq_symm, Bool.beq_comm, Bool.and_comm]

/-- Magnitude trichotomy. -/
theorem af_mag_trichot (x y : AF.Float) :
    AF.magLt x y = true ∨ AF.magEq x y = true ∨ AF.magLt y x = true := by
  unfold AF.magLt AF.magEq
  split_ifs with h1 h2 h2
  · have hx : x.exp = y.exp := le_antisymm h2 h1
    rw [hx]
    simp only [sub_self, Int.toNat_zero, Nat.shiftLeft_zero,
      decide_eq_true_eq]
    exact Nat.lt_trichotomy _ _
  · simp only [decide_eq_true_eq]
    rcases Nat.lt_trichotomy (x.mantissa <<< (x.exp - y.exp).toNat)
        y.mantissa with h | h | h
    · exact Or.inl h
    · exact Or.inr (Or.inl h)
    · exact Or.inr (Or.inr h)
  · simp only [decide_eq_true_eq]
    rcases Nat.lt_trichotomy x.mantissa
        (y.mantissa <<< (y.exp - x.exp).toNat) with h | h | h
    · exact Or.inl h
    · exact Or.inr (Or.inl h)
    · exact Or.inr (Or.inr h)
  · omega

/-- Trichotomy of the IEEE order on non-NaN values. -/
theorem af_flt_trichot (x y : AF.Float) (hx : AF.is_nan x = false)
    (hy : AF.is_nan y = false) :
    AF.flt x y = true ∨ AF.feq x y = true ∨ AF.flt y x = true := by
  obtain ⟨xs, xe, xm, xc⟩ := x
  obtain ⟨ys, ye, ym, yc⟩ := y
  simp only [AF.is_nan] at hx hy
  cases xc <;> cases yc <;> simp_all [AF.flt, AF.feq] <;>
    cases xs <;> cases ys <;> simp_all
  · exact af_mag_trichot _ _
  · rcases af_mag_trichot ⟨true, xe, xm, AF.Category.Normal⟩
        ⟨true, ye, ym, AF.Category.Normal⟩ with h | h | h
    · exact Or.inr (Or.inr h)
    · exact Or.inr (Or.inl h)
    · exact Or.inl h



/-- Unfolding of well-formedness on a Normal float. -/
theorem af_wfF_normal_iff (E M : Nat) (s : Bool) (e : Int) (m : Nat) :
    AF.wfF E M ⟨s, e, m, AF.Category.Normal⟩ = true ↔
      (AF.expMin E ≤ e ∧ e ≤ AF.expMax E ∧ 0 < m ∧ m < 2 ^ (M + 1) ∧
        (2 ^ M ≤ m ∨ e = AF.expMin E)) := by
  simp [AF.wfF, and_assoc]

/-- `keyF` on a Normal float. -/
theorem af_keyF_normal (E M : Nat) (s : Bool) (e : Int) (m : Nat) :
    AF.keyF E M ⟨s, e, m, AF.Category.Normal⟩ =
      (e - AF.expMin E).toNat * 2 ^ (M + 1) + m := rfl

/-- The key is strictly monotone along `flt` on well-formed nonnegative
non-NaN floats. -/
theorem af_key_lt_of_flt (E M : Nat) (x y : AF.Float)
    (hwx : AF.wfF E M x = true) (hwy : AF.wfF E M y = true)
    (hsx : x.sign = false) (hsy : y.sign = false)
    (hnx : AF.is_nan x = false) (hny : AF.is_nan y = false)
    (h : AF.flt x y = true) :
    AF.keyF E M x < AF.keyF E M y := by
  obtain ⟨xs, xe, xm, xc⟩ := x
  obtain ⟨ys, ye, ym, yc⟩ := y
  simp only at hsx hsy
  subst hsx
  subst hsy
  simp only [AF.is_nan] at hnx hny
  cases xc <;> cases yc <;>
      simp_all [AF.flt, AF.keyF, AF.wfF, AF.magLt, and_assoc]
  · -- Normal, Normal
    obtain ⟨hxe1, hxe2, hxm1, hxm2, hxsub⟩ := hwx
    obtain ⟨hye1, hye2, hym1, hym2, hysub⟩ := hwy
    split_ifs at h with hle
    · -- ye ≤ xe : shift x up
      rw [Nat.shiftLeft_eq] at h
      rcases eq_or_lt_of_le hle with heq | hlt
      · rw [heq]
        have : xm < ym := by
          have : (xe - ye).toNat = 0 := by omega
          simpa [heq, this] using h
        omega
      · exfalso
        have hd : 1 ≤ (xe - ye).toNat := by omega
        have hbig : 2 ^ (M + 1) ≤ xm * 2 ^ (xe - ye).toNat := by
          have hxm : 2 ^ M ≤ xm := by
            rcases hxsub with h2 | h2
            · exact h2
            · omega
          calc 2 ^ (M + 1) = 2 ^ M * 2 ^ 1 := by ring
          _ ≤ xm * 2 ^ (xe - ye).toNat :=
            Nat.mul_le_mul hxm (Nat.pow_le_pow_right (by norm_num) hd)
        omega
    · -- xe < ye : strictly larger exponent wins
      push_neg at hle
      have hab : (xe - AF.expMin E).toNat + 1 ≤ (ye - AF.expMin E).toNat := by
        omega
      calc (xe - AF.expMin E).toNat * 2 ^ (M + 1) + xm
          < ((xe - AF.expMin E).toNat + 1) * 2 ^ (M + 1) := by
            have h2 : 0 < 2 ^ (M + 1) := Nat.pos_pow_of_pos _ (by norm_num)
            nlinarith
      _ ≤ (ye - AF.expMin E).toNat * 2 ^ (M + 1) :=
            Nat.mul_le_mul_right _ hab
      _ ≤ (ye - AF.expMin E).toNat * 2 ^ (M + 1) + ym := Nat.le_add_right _ _
  · -- Normal, Infinity
    have hab : (xe - AF.expMin E).toNat ≤ (AF.expMax E - AF.expMin E).toNat :=
      by rcases hwx with ⟨h1, h2, _⟩; omega
    calc (xe - AF.expMin E).toNat * 2 ^ (M + 1) + xm
        < ((xe - AF.expMin E).toNat + 1) * 2 ^ (M + 1) := by
          obtain ⟨hxe1, hxe2, hxm1, hxm2, hxsub⟩ := hwx
          have h2 : 0 < 2 ^ (M + 1) := Nat.pos_pow_of_pos _ (by norm_num)
          nlinarith
    _ ≤ ((AF.expMax E - AF.expMin E).toNat + 1) * 2 ^ (M + 1) :=
          Nat.mul_le_mul_right _ (by omega)

/-- Normalizing a raw Normal float always yields a well-formed float. -/
theorem af_normalize_raw_wf (E M : Nat) (rm : AF.RoundingMode) (s : Bool)
    (e : Int) (m : Nat) (l : AF.LossFraction) (hm : m ≠ 0) :
    AF.wfF E M (AF.normalize E M rm (AF.raw s e m AF.Category.Normal) l)
      = true := by
  have hB1 : 1 ≤ bitlen m := bitlen_pos hm
  have hmlt : m < 2 ^ bitlen m := lt_two_pow_bitlen m
  have hmge : 2 ^ (bitlen m - 1) ≤ m := two_pow_bitlen_pred_le hm
  rw [AF.normalize]
  simp only [AF.raw, bne_self_eq_false, Bool.false_eq_true, if_false, hm,
    ite_false]
  set sh : Int := ((M : Int) - ((bitlen m : Int) - 1)) ⊓ (e - AF.expMin E)
    with hsh
  set mant : Nat := if 0 ≤ sh then m <<< sh.toNat else m >>> (-sh).toNat
    with hmantd
  set loss : AF.LossFraction :=
    if 0 ≤ sh then (if sh = 0 then l else AF.demoteLoss l)
    else AF.combineLoss (AF.lossOfShift m (-sh).toNat) l with hlossd
  have hsh1 : sh ≤ (M : Int) - ((bitlen m : Int) - 1) := min_le_left _ _
  have hsh2 : sh ≤ e - AF.expMin E := min_le_right _ _
  have hmant_lt : mant < 2 ^ (M + 1) := by
    by_cases h0 : 0 ≤ sh
    · rw [hmantd, if_pos h0, Nat.shiftLeft_eq]
      have hkb : bitlen m ≤ M + 1 := by omega
      have hkt : sh.toNat ≤ M + 1 - bitlen m := by omega
      calc m * 2 ^ sh.toNat
          < 2 ^ bitlen m * 2 ^ sh.toNat :=
            (Nat.mul_lt_mul_right
              (Nat.pos_pow_of_pos _ (by norm_num))).mpr hmlt
      _ ≤ 2 ^ bitlen m * 2 ^ (M + 1 - bitlen m) :=
            Nat.mul_le_mul_left _ (Nat.pow_le_pow_right (by norm_num) hkt)
      _ = 2 ^ (M + 1) := by
            rw [← pow_add]
            congr 1
            omega
    · rw [hmantd, if_neg h0, Nat.shiftRight_eq_div_pow]
      by_cases hbm : bitlen m ≤ M + 1
      · calc m / 2 ^ (-sh).toNat ≤ m := Nat.div_le_self _ _
        _ < 2 ^ bitlen m := hmlt
        _ ≤ 2 ^ (M + 1) := Nat.pow_le_pow_right (by norm_num) hbm
      · have hk : bitlen m - 1 - M ≤ (-sh).toNat := by omega
        calc m / 2 ^ (-sh).toNat ≤ m / 2 ^ (bitlen m - 1 - M) :=
              Nat.div_le_div_left
                (Nat.pow_le_pow_right (by norm_num) hk)
                (Nat.pos_pow_of_pos _ (by norm_num))
        _ < 2 ^ (M + 1) := by
              apply Nat.div_lt_of_lt_mul
              rw [← pow_add]
              calc m < 2 ^ bitlen m := hmlt
              _ ≤ 2 ^ (bitlen m - 1 - M + (M + 1)) :=
                    Nat.pow_le_pow_right (by norm_num) (by omega)
  have hmant_ge : sh = (M : Int) - ((bitlen m : Int) - 1) →
      2 ^ M ≤ mant := by
    intro hms
    by_cases h0 : 0 ≤ sh
    · rw [hmantd, if_pos h0, Nat.shiftLeft_eq]
      have hkb : bitlen m ≤ M + 1 := by omega
      have hkt : sh.toNat = M + 1 - bitlen m := by omega
      rw [hkt]
      calc 2 ^ M = 2 ^ (bitlen m - 1) * 2 ^ (M + 1 - bitlen m) := by
            rw [← pow_add]
            congr 1
            omega
      _ ≤ m * 2 ^ (M + 1 - bitlen m) := Nat.mul_le_mul_right _ hmge
    · rw [hmantd, if_neg h0, Nat.shiftRight_eq_div_pow]
      have hkt : (-sh).toNat = bitlen m - 1 - M := by omega
      rw [hkt]
      rw [Nat.le_div_iff_mul_le (Nat.pos_pow_of_pos _ (by norm_num))]
      calc 2 ^ M * 2 ^ (bitlen m - 1 - M) = 2 ^ (bitlen m - 1) := by
            rw [← pow_add]
            congr 1
            omega
      _ ≤ m := hmge
  set m2 : Nat := if AF.need_round_up rm s loss (decide (mant % 2 = 1))
      = true then mant + 1 else mant with hm2d
  have hm2_le : m2 ≤ mant + 1 := by
    rw [hm2d]
    split_ifs <;> omega
  have hm2_ge : mant ≤ m2 := by
    rw [hm2d]
    split_ifs <;> omega
  split_ifs with hc1 hc2 hc3 hc4
  · rfl
  · rfl
  · rw [af_wfF_normal_iff]
    refine ⟨by omega, by omega, Nat.pos_pow_of_pos _ (by norm_num),
      Nat.pow_lt_pow_right (by norm_num) (by omega), Or.inl le_rfl⟩
  · rfl
  · rw [af_wfF_normal_iff]
    refine ⟨by omega, by omega, Nat.pos_of_ne_zero hc4, by omega, ?_⟩
    by_cases hms : sh = (M : Int) - ((bitlen m : Int) - 1)
    · exact Or.inl (le_trans (hmant_ge hms) hm2_ge)
    · right
      rcases min_cases ((M : Int) - ((bitlen m : Int) - 1))
          (e - AF.expMin E) with ⟨hmin, _⟩ | ⟨hmin, _⟩
      · rw [← hsh] at hmin
        exact absurd hmin hms
      · rw [← hsh] at hmin
        omega

/-- Non-Normal floats are trivially well-formed. -/
theorem af_wfF_nonnormal (E M : Nat) (f : AF.Float)
    (h : f.category ≠ AF.Category.Normal) : AF.wfF E M f = true := by
  obtain ⟨s, e, m, c⟩ := f
  cases c
  · rfl
  · exact absurd rfl h
  · rfl
  · rfl

/-- `normalize ∘ new` always yields a well-formed float. -/
theorem af_normalize_new_wf (E M : Nat) (rm : AF.RoundingMode) (s : Bool)
    (e : Int) (m : Nat) (l : AF.LossFraction) :
    AF.wfF E M (AF.normalize E M rm (AF.new s e m) l) = true := by
  by_cases hm : m = 0
  · subst hm
    rfl
  · rw [show AF.new s e m = AF.raw s e m AF.Category.Normal from by
      simp [AF.new, hm]]
    exact af_normalize_raw_wf E M rm s e m l hm

/-- The sign of `new`. -/
theorem af_new_sign (s : Bool) (e : Int) (m : Nat) :
    (AF.new s e m).sign = s := by
  unfold AF.new
  split_ifs <;> rfl

/-- Negation, absolute value, sign-setting preserve well-formedness. -/
theorem af_wfF_neg (E M : Nat) (f : AF.Float) :
    AF.wfF E M (AF.neg f) = AF.wfF E M f := by
  obtain ⟨s, e, m, c⟩ := f
  cases c <;> rfl

theorem af_wfF_set_sign (E M : Nat) (f : AF.Float) (s : Bool) :
    AF.wfF E M (AF.set_sign f s) = AF.wfF E M f := by
  obtain ⟨s0, e, m, c⟩ := f
  cases c <;> rfl

/-- The exact add core always yields a well-formed float. -/
theorem af_addExact_wf (E M : Nat) (rm : AF.RoundingMode) (x y : AF.Float) :
    AF.wfF E M (AF.addExact E M rm x y) = true := by
  unfold AF.addExact
  dsimp only
  split_ifs <;> first
    | exact af_normalize_new_wf _ _ _ _ _ _ _
    | rfl

/-- Addition preserves well-formedness. -/
theorem af_addRM_wf (E M : Nat) (rm : AF.RoundingMode) (x y : AF.Float)
    (hx : AF.wfF E M x = true) (hy : AF.wfF E M y = true) :
    AF.wfF E M (AF.addRM E M rm x y) = true := by
  unfold AF.addRM
  split_ifs <;> first
    | rfl
    | exact hx
    | exact hy
    | exact af_addExact_wf E M rm x y

/-- Multiplication always yields a well-formed float. -/
theorem af_mulW_wf (E M : Nat) (x y : AF.Float) :
    AF.wfF E M (AF.mulW E M x y) = true := by
  unfold AF.mulW
  dsimp only
  split_ifs <;> first
    | exact af_normalize_new_wf _ _ _ _ _ _ _
    | rfl

/-- Case principle for the result of division. -/
theorem af_divW_cases (E M : Nat) (x y : AF.Float) (P : AF.Float → Prop)
    (hnanx : P (AF.nan x.sign)) (hnany : P (AF.nan y.sign))
    (hnans : P (AF.nan (x.sign != y.sign)))
    (hinf : P (AF.inf (x.sign != y.sign)))
    (hzero : P (AF.zero (x.sign != y.sign)))
    (hnorm : ∀ (q : Nat) (l : AF.LossFraction),
      P (AF.normalize E M AF.RoundingMode.NearestTiesToEven
        (AF.new (x.sign != y.sign) (x.exp - y.exp - 2) q) l)) :
    P (AF.divW E M x y) := by
  unfold AF.divW
  by_cases h1 : AF.is_nan x = true
  · rw [if_pos h1]
    exact hnanx
  · rw [if_neg h1]
    by_cases h2 : AF.is_nan y = true
    · rw [if_pos h2]
      exact hnany
    · rw [if_neg h2]
      by_cases h3 : (AF.is_inf x && AF.is_inf y) = true
      · rw [if_pos h3]
        exact hnans
      · rw [if_neg h3]
        by_cases h4 : AF.is_inf x = true
        · rw [if_pos h4]
          exact hinf
        · rw [if_neg h4]
          by_cases h5 : AF.is_inf y = true
          · rw [if_pos h5]
            exact hzero
          · rw [if_neg h5]
            by_cases h6 : (AF.is_zero x && AF.is_zero y) = true
            · rw [if_pos h6]
              exact hnans
            · rw [if_neg h6]
              by_cases h7 : AF.is_zero y = true
              · rw [if_pos h7]
                exact hinf
              · rw [if_neg h7]
                by_cases h8 : AF.is_zero x = true
                · rw [if_pos h8]
                  exact hzero
                · rw [if_neg h8]
                  exact hnorm _ _

/-- Division always yields a well-formed float. -/
theorem af_divW_wf (E M : Nat) (x y : AF.Float) :
    AF.wfF E M (AF.divW E M x y) = true := by
  refine af_divW_cases E M x y (fun f => AF.wfF E M f = true)
    rfl rfl rfl rfl rfl ?_
  intro q l
  exact af_normalize_new_wf _ _ _ _ _ _ _

/-- Scaling preserves well-formedness. -/
theorem af_scaleF_wf (E M : Nat) (f : AF.Float) (k : Int)
    (rm : AF.RoundingMode) (hf : AF.wfF E M f = true) :
    AF.wfF E M (AF.scaleF E M f k rm) = true := by
  unfold AF.scaleF
  split_ifs
  · exact hf
  · exact af_normalize_new_wf _ _ _ _ _ _ _

/-- Subtraction preserves well-formedness. -/
theorem af_subW_wf (E M : Nat) (x y : AF.Float)
    (hx : AF.wfF E M x = true) (hy : AF.wfF E M y = true) :
    AF.wfF E M (AF.subW E M x y) = true :=
  af_addRM_wf E M _ x (AF.neg y) hx (by rw [af_wfF_neg]; exact hy)

/-- The exact add core of nonnegative operands is nonnegative. -/
theorem af_addExact_sign_false (E M : Nat) (x y : AF.Float)
    (hx : x.sign = false) (hy : y.sign = false) :
    (AF.addExact E M AF.RoundingMode.NearestTiesToEven x y).sign
      = false := by
  unfold AF.addExact
  dsimp only
  split_ifs <;> first
    | rfl
    | (rw [af_normalize_sign, af_new_sign]; first | exact hx | exact hy)

/-- Addition of two nonnegative operands is nonnegative. -/
theorem af_addRM_sign_false (E M : Nat) (x y : AF.Float)
    (hx : x.sign = false) (hy : y.sign = false) :
    (AF.addRM E M AF.RoundingMode.NearestTiesToEven x y).sign = false := by
  unfold AF.addRM
  split_ifs <;> first
    | exact hx
    | exact hy
    | rfl
    | exact af_addExact_sign_false E M x y hx hy

/-- Division of nonnegative operands is nonnegative. -/
theorem af_divW_sign_false (E M : Nat) (x y : AF.Float)
    (hx : x.sign = false) (hy : y.sign = false) :
    (AF.divW E M x y).sign = false := by
  have hs : (x.sign != y.sign) = false := by rw [hx, hy]; rfl
  refine af_divW_cases E M x y (fun f => f.sign = false)
    hx hy hs hs hs ?_
  intro q l
  rw [af_normalize_sign, af_new_sign]
  exact hs

/-- Multiplication of nonnegative operands is nonnegative. -/
theorem af_mulW_sign_false (E M : Nat) (x y : AF.Float)
    (hx : x.sign = false) (hy : y.sign = false) :
    (AF.mulW E M x y).sign = false := by
  unfold AF.mulW
  dsimp only
  have hs : (x.sign != y.sign) = false := by rw [hx, hy]; rfl
  split_ifs <;> first
    | exact hx
    | exact hy
    | exact hs
    | (rw [af_normalize_sign, af_new_sign]; exact hs)

/-- Scaling preserves nonnegativity. -/
theorem af_scaleF_sign_false (E M : Nat) (f : AF.Float) (k : Int)
    (rm : AF.RoundingMode) (hf : f.sign = false) :
    (AF.scaleF E M f k rm).sign = false := by
  unfold AF.scaleF
  split_ifs
  · exact hf
  · rw [af_normalize_sign, af_new_sign]
    exact hf

/-- Addition of equal-signed non-NaN operands never yields NaN. -/
theorem af_addRM_not_nan_same_sign (E M : Nat) (rm : AF.RoundingMode)
    (x y : AF.Float) (hx : AF.is_nan x = false) (hy : AF.is_nan y = false)
    (hs : x.sign = y.sign) :
    AF.is_nan (AF.addRM E M rm x y) = false := by
  unfold AF.addRM
  rw [if_neg (show ¬(AF.is_nan x = true) from by simp [hx])]
  rw [if_neg (show ¬(AF.is_nan y = true) from by simp [hy])]
  split_ifs with h3 h4 <;> first
    | exact hx
    | exact hy
    | rfl
    | exact absurd (beq_iff_eq.mpr hs) (by simpa using h4)
    | exact af_addExact_not_nan E M rm x y

/-- Division with no NaN-producing special pair never yields NaN. -/
theorem af_divW_not_nan (E M : Nat) (x y : AF.Float)
    (hx : AF.is_nan x = false) (hy : AF.is_nan y = false)
    (hinf : ¬(AF.is_inf x = true ∧ AF.is_inf y = true))
    (hz : ¬(AF.is_zero x = true ∧ AF.is_zero y = true)) :
    AF.is_nan (AF.divW E M x y) = false := by
  unfold AF.divW
  rw [if_neg (show ¬(AF.is_nan x = true) from by simp [hx])]
  rw [if_neg (show ¬(AF.is_nan y = true) from by simp [hy])]
  rw [if_neg (show ¬((AF.is_inf x && AF.is_inf y) = true) from by
    simpa [Bool.and_eq_true] using hinf)]
  by_cases h4 : AF.is_inf x = true
  · rw [if_pos h4]
    rfl
  · rw [if_neg h4]
    by_cases h5 : AF.is_inf y = true
    · rw [if_pos h5]
      rfl
    · rw [if_neg h5]
      rw [if_neg (show ¬((AF.is_zero x && AF.is_zero y) = true) from by
        simpa [Bool.and_eq_true] using hz)]
      by_cases h7 : AF.is_zero y = true
      · rw [if_pos h7]
        rfl
      · rw [if_neg h7]
        by_cases h8 : AF.is_zero x = true
        · rw [if_pos h8]
          rfl
        · rw [if_neg h8]
          exact af_normalize_not_nan _ _ _ _ _ (af_new_not_nan _ _ _)

/-- For at least two exponent bits the bias is at least one. -/
theorem af_bias_pos (E : Nat) (hE : 2 ≤ E) : 1 ≤ AF.get_bias E := by
  unfold AF.get_bias AF.compute_ieee745_bias
  have h : 2 ≤ 2 ^ (E - 1) := by
    calc 2 = 2 ^ 1 := rfl
    _ ≤ 2 ^ (E - 1) := Nat.pow_le_pow_right (by norm_num) (by omega)
  omega

/-- Closed form of the constant `2` for any configuration with at least two
exponent bits and one mantissa bit. -/
theorem af_from_u64_two (E M : Nat) (hE : 2 ≤ E) (hM : 1 ≤ M) :
    AF.from_u64 E M 2 = ⟨false, 1, 2 ^ M, AF.Category.Normal⟩ := by
  have hbias : 1 ≤ AF.get_bias E := af_bias_pos E hE
  have hexpMin : AF.expMin E ≤ 0 := by
    unfold AF.expMin
    omega
  have hexpMax : 1 ≤ AF.expMax E := by
    unfold AF.expMax
    omega
  unfold AF.from_u64
  rw [show AF.new false (M : Int) 2 = AF.raw false (M : Int) 2
      AF.Category.Normal from by simp [AF.new]]
  rw [AF.normalize]
  simp only [AF.raw, bne_self_eq_false, Bool.false_eq_true, if_false]
  rw [if_neg (by norm_num)]
  have hb2 : bitlen 2 = 2 := by decide
  simp only [hb2]
  have hsh : ((M : Int) - (((2 : Nat) : Int) - 1)) ⊓
      ((M : Int) - AF.expMin E) = (M : Int) - 1 := by
    rw [min_eq_left]
    · push_cast
      ring
    · omega
  simp only [hsh]
  have h0le : (0 : Int) ≤ (M : Int) - 1 := by omega
  simp only [if_pos h0le]
  have htn : ((M : Int) - 1).toNat = M - 1 := by omega
  simp only [htn]
  have hmant : 2 <<< (M - 1) = 2 ^ M := by
    rw [Nat.shiftLeft_eq]
    calc 2 * 2 ^ (M - 1) = 2 ^ 1 * 2 ^ (M - 1) := by norm_num
    _ = 2 ^ (1 + (M - 1)) := by rw [pow_add]
    _ = 2 ^ M := by congr 1; omega
  simp only [hmant]
  have hloss : (if (M : Int) - 1 = 0 then AF.LossFraction.ExactlyZero
      else AF.demoteLoss AF.LossFraction.ExactlyZero) =
      AF.LossFraction.ExactlyZero := by
    split_ifs <;> rfl
  simp only [hloss]
  have hnr : ∀ b : Bool, AF.need_round_up AF.RoundingMode.NearestTiesToEven
      false AF.LossFraction.ExactlyZero b = false := fun b => rfl
  simp only [hnr, Bool.false_eq_true, if_false]
  have hov : ¬((M : Int) - ((M : Int) - 1) > AF.expMax E) := by omega
  simp only [if_neg hov]
  have hne1 : ¬(2 ^ M = 2 ^ (M + 1)) := by
    intro h
    exact absurd h (Nat.ne_of_lt (Nat.pow_lt_pow_right (by norm_num)
      (by omega)))
  simp only [if_neg hne1]
  have hne0 : ¬(2 ^ M = 0) :=
    Nat.pos_iff_ne_zero.mp (Nat.pos_pow_of_pos _ (by norm_num))
  simp only [if_neg hne0]
  have hexp : (M : Int) - ((M : Int) - 1) = 1 := by omega
  rw [hexp]

/-- The Newton loop terminates before the key of the iterate runs out. -/
theorem af_sqrtGo_term (E M : Nat) (t two : AF.Float)
    (htc : t.category = AF.Category.Normal) (hts : t.sign = false)
    (hwc : two.category = AF.Category.Normal) (hws : two.sign = false) :
    ∀ (n : Nat) (x : AF.Float), AF.wfF E M x = true → x.sign = false →
      AF.is_nan x = false → AF.keyF E M x < n →
      AF.sqrtGo E M t two n x ≠ AF.PRes.fuelOut := by
  intro n
  induction n with
  | zero =>
    intro x _ _ _ hk
    omega
  | succ n ih =>
    intro x hw hs hn hk
    rw [AF.sqrtGo]
    set xn := AF.divW E M (AF.addW E M x (AF.divW E M t x)) two with hxnd
    by_cases hguard : (AF.flt x xn || AF.feq xn x) = true
    · rw [if_pos hguard]
      simp
    · rw [if_neg hguard]
      have htn : AF.is_nan t = false := by
        simp [AF.is_nan, htc]
      have hti : AF.is_inf t = false := by
        simp [AF.is_inf, htc]
      have htz : AF.is_zero t = false := by
        simp [AF.is_zero, htc]
      have hwn : AF.is_nan two = false := by
        simp [AF.is_nan, hwc]
      have hwi : AF.is_inf two = false := by
        simp [AF.is_inf, hwc]
      have hwz : AF.is_zero two = false := by
        simp [AF.is_zero, hwc]
      have hd_nan : AF.is_nan (AF.divW E M t x) = false :=
        af_divW_not_nan E M t x htn hn
          (fun hc => by rw [hti] at hc; exact absurd hc.1 (by simp))
          (fun hc => by rw [htz] at hc; exact absurd hc.1 (by simp))
      have hd_sign : (AF.divW E M t x).sign = false :=
        af_divW_sign_false E M t x hts hs
      have hsum_nan : AF.is_nan (AF.addW E M x (AF.divW E M t x)) = false :=
        af_addRM_not_nan_same_sign E M _ x _ hn hd_nan
          (hs.trans hd_sign.symm)
      have hsum_sign : (AF.addW E M x (AF.divW E M t x)).sign = false :=
        af_addRM_sign_false E M x _ hs hd_sign
      have hxn_nan : AF.is_nan xn = false := by
        rw [hxnd]
        exact af_divW_not_nan E M _ two hsum_nan hwn
          (fun hc => by rw [hwi] at hc; exact absurd hc.2 (by simp))
          (fun hc => by rw [hwz] at hc; exact absurd hc.2 (by simp))
      have hxn_sign : xn.sign = false := by
        rw [hxnd]
        exact af_divW_sign_false E M _ two hsum_sign hws
      have hxn_wf : AF.wfF E M xn = true := by
        rw [hxnd]
        exact af_divW_wf E M _ two
      rcases af_flt_trichot x xn hn hxn_nan with h | h | h
      · exact absurd (by rw [h]; simp) hguard
      · rw [af_feq_symm] at h
        exact absurd (by rw [h]; simp) hguard
      · have hklt := af_key_lt_of_flt E M xn x hxn_wf hw hxn_sign hs
          hxn_nan hn h
        exact ih xn hxn_wf hxn_sign hxn_nan (by omega)

/-- `sqrt` terminates on every well-formed input: some finite fuel amount
(one more than the key of the start iterate) never runs out. -/
theorem af_sqrtM_term (E M : Nat) (hE : 2 ≤ E) (hM : 1 ≤ M) (f : AF.Float)
    (hw : AF.wfF E M f = true) :
    ∃ n : Nat, AF.sqrtM E M n f ≠ AF.PRes.fuelOut := by
  by_cases h1 : AF.is_zero f = true
  · exact ⟨0, by unfold AF.sqrtM; rw [if_pos h1]; simp⟩
  · by_cases h2 : (AF.is_nan f || AF.is_negative f) = true
    · exact ⟨0, by unfold AF.sqrtM; rw [if_neg h1, if_pos h2]; simp⟩
    · by_cases h3 : AF.is_inf f = true
      · exact ⟨0, by unfold AF.sqrtM; rw [if_neg h1, if_neg h2,
          if_pos h3]; simp⟩
      · have hfn : AF.is_nan f = false := by
          simp only [Bool.or_eq_true] at h2
          push_neg at h2
          simpa using h2.1
        have hfs : f.sign = false := by
          simp only [Bool.or_eq_true] at h2
          push_neg at h2
          simpa [AF.is_negative] using h2.2
        have hfc : f.category = AF.Category.Normal := by
          obtain ⟨s, e, m, c⟩ := f
          cases c
          · simp [AF.is_zero] at h1
          · rfl
          · simp [AF.is_inf] at h3
          · simp [AF.is_nan] at hfn
        have htwo := af_from_u64_two E M hE hM
        have hbias : 1 ≤ AF.get_bias E := af_bias_pos E hE
        have htwo_wf : AF.wfF E M (AF.from_u64 E M 2) = true := by
          rw [htwo, af_wfF_normal_iff]
          refine ⟨by unfold AF.expMin; omega, by unfold AF.expMax; omega,
            Nat.pos_pow_of_pos _ (by norm_num),
            Nat.pow_lt_pow_right (by norm_num) (by omega), Or.inl le_rfl⟩
        have htwo_sign : (AF.from_u64 E M 2).sign = false := by
          rw [htwo]
        have htwo_cat : (AF.from_u64 E M 2).category =
            AF.Category.Normal := by
          rw [htwo]
        have htwo_nan : AF.is_nan (AF.from_u64 E M 2) = false := by
          simp [AF.is_nan, htwo_cat]
        refine ⟨AF.keyF E M (if AF.flt f (AF.from_u64 E M 2)
          then AF.from_u64 E M 2 else f) + 1, ?_⟩
        unfold AF.sqrtM
        rw [if_neg h1, if_neg h2, if_neg h3]
        dsimp only
        refine af_sqrtGo_term E M f (AF.from_u64 E M 2) hfc hfs htwo_cat
          htwo_sign _ _ ?_ ?_ ?_ (Nat.lt_succ_self _)
        · split_ifs
          · exact htwo_wf
          · exact hw
        · split_ifs
          · exact htwo_sign
          · exact hfs
        · split_ifs
          · exact htwo_nan
          · exact hfn

/-- Splitting a rational power of two along an exponent inequality. -/
theorem af_zpow_split (a b c : Int) (h : b ≤ a) :
    (2 : ℚ) ^ (a - c) = ((2 : ℚ) ^ ((a - b).toNat)) * (2 : ℚ) ^ (b - c) := by
  rw [show ((2 : ℚ) ^ ((a - b).toNat)) = (2 : ℚ) ^ ((a - b : ℤ)) from by
    rw [← zpow_natCast]
    congr 1
    omega]
  rw [← zpow_add₀ (by norm_num : (2 : ℚ) ≠ 0)]
  congr 1
  ring

/-- Magnitude comparison agrees with the rational magnitudes. -/
theorem af_magLt_iff_val (M : Nat) (x y : AF.Float) :
    AF.magLt x y = true ↔
      (x.mantissa : ℚ) * 2 ^ (x.exp - (M : Int)) <
        (y.mantissa : ℚ) * 2 ^ (y.exp - (M : Int)) := by
  unfold AF.magLt
  split_ifs with hle
  · simp only [decide_eq_true_eq, Nat.shiftLeft_eq]
    rw [af_zpow_split x.exp y.exp M hle, ← mul_assoc]
    rw [mul_lt_mul_right (by positivity :
      (0 : ℚ) < (2 : ℚ) ^ (y.exp - (M : Int)))]
    constructor
    · intro h
      exact_mod_cast h
    · intro h
      exact_mod_cast h
  · push_neg at hle
    simp only [decide_eq_true_eq, Nat.shiftLeft_eq]
    rw [af_zpow_split y.exp x.exp M (le_of_lt hle), ← mul_assoc]
    rw [mul_lt_mul_right (by positivity :
      (0 : ℚ) < (2 : ℚ) ^ (x.exp - (M : Int)))]
    constructor
    · intro h
      exact_mod_cast h
    · intro h
      exact_mod_cast h

/-- Magnitude equality agrees with the rational magnitudes. -/
theorem af_magEq_iff_val (M : Nat) (x y : AF.Float) :
    AF.magEq x y = true ↔
      (x.mantissa : ℚ) * 2 ^ (x.exp - (M : Int)) =
        (y.mantissa : ℚ) * 2 ^ (y.exp - (M : Int)) := by
  unfold AF.magEq
  split_ifs with hle
  · simp only [decide_eq_true_eq, Nat.shiftLeft_eq]
    rw [af_zpow_split x.exp y.exp M hle, ← mul_assoc]
    rw [mul_left_inj' (by positivity :
      ((2 : ℚ) ^ (y.exp - (M : Int))) ≠ 0)]
    constructor
    · intro h
      exact_mod_cast h
    · intro h
      exact_mod_cast h
  · push_neg at hle
    simp only [decide_eq_true_eq, Nat.shiftLeft_eq]
    rw [af_zpow_split y.exp x.exp M (le_of_lt hle), ← mul_assoc]
    rw [mul_left_inj' (by positivity :
      ((2 : ℚ) ^ (x.exp - (M : Int))) ≠ 0)]
    constructor
    · intro h
      exact_mod_cast h
    · intro h
      exact_mod_cast h

/-- On nonnegative Normal floats `flt` is the magnitude comparison. -/
theorem af_flt_nn (x y : AF.Float) (hxc : x.category = AF.Category.Normal)
    (hyc : y.category = AF.Category.Normal) (hxs : x.sign = false)
    (hys : y.sign = false) : AF.flt x y = AF.magLt x y := by
  obtain ⟨xs, xe, xm, xc⟩ := x
  obtain ⟨ys, ye, ym, yc⟩ := y
  simp only at hxc hyc hxs hys
  subst hxc
  subst hyc
  subst hxs
  subst hys
  simp [AF.flt]

/-- On nonnegative Normal floats `feq` is the magnitude equality. -/
theorem af_feq_nn (x y : AF.Float) (hxc : x.category = AF.Category.Normal)
    (hyc : y.category = AF.Category.Normal) (hxs : x.sign = false)
    (hys : y.sign = false) : AF.feq x y = AF.magEq x y := by
  obtain ⟨xs, xe, xm, xc⟩ := x
  obtain ⟨ys, ye, ym, yc⟩ := y
  simp only at hxc hyc hxs hys
  subst hxc
  subst hyc
  subst hxs
  subst hys
  simp [AF.feq]

/-- Bit length of a shifted value. -/
theorem bitlen_mul_pow (D c : Nat) (hD : D ≠ 0) :
    bitlen (D * 2 ^ c) = bitlen D + c := by
  have h1 : 2 ^ (bitlen D - 1) ≤ D := two_pow_bitlen_pred_le hD
  have h2 : D < 2 ^ bitlen D := lt_two_pow_bitlen D
  have hB := bitlen_pos hD
  have hne : D * 2 ^ c ≠ 0 :=
    Nat.mul_ne_zero hD (Nat.pos_iff_ne_zero.mp
      (Nat.pos_pow_of_pos _ (by norm_num)))
  rw [show bitlen D + c = (bitlen D + c - 1) + 1 from by omega]
  refine (bitlen_eq_iff hne).mpr ⟨?_, ?_⟩
  · calc 2 ^ (bitlen D + c - 1) = 2 ^ (bitlen D - 1) * 2 ^ c := by
          rw [← pow_add]
          congr 1
          omega
    _ ≤ D * 2 ^ c := Nat.mul_le_mul_right _ h1
  · calc D * 2 ^ c < 2 ^ bitlen D * 2 ^ c :=
          (Nat.mul_lt_mul_right (Nat.pos_pow_of_pos _ (by norm_num))).mpr h2
    _ = 2 ^ (bitlen D + c - 1 + 1) := by
          rw [← pow_add]
          congr 1
          omega

/-- Normalization of an exactly-representable value (a `D` of at most
`M + 1` significant bits shifted up by `c`) rounds nothing: the result is a
Normal float of the same rational value. -/
theorem af_normalize_exact (E M : Nat) (hE : 2 ≤ E) (s : Bool) (e : Int)
    (D c : Nat) (hD0 : D ≠ 0) (hDlt : D < 2 ^ (M + 1))
    (hlo : AF.expMin E ≤ e)
    (hhi : e + ((bitlen (D <<< c) : Int) - 1) - (M : Int) ≤ AF.expMax E) :
    ∃ e2 m2,
      AF.normalize E M AF.RoundingMode.NearestTiesToEven
          (AF.new s e (D <<< c)) AF.LossFraction.ExactlyZero =
        ⟨s, e2, m2, AF.Category.Normal⟩ ∧
      AF.wfF E M ⟨s, e2, m2, AF.Category.Normal⟩ = true ∧
      m2 ≠ 0 ∧
      (m2 : ℚ) * 2 ^ (e2 - (M : Int)) =
        ((D <<< c : Nat) : ℚ) * 2 ^ (e - (M : Int)) ∧
      (bitlen (D <<< c) ≤ M + 1 → e2 ≤ e) := by
  have hm_eq : D <<< c = D * 2 ^ c := Nat.shiftLeft_eq D c
  set m : Nat := D <<< c with hmd
  have hm0 : m ≠ 0 := by
    rw [hm_eq]
    exact Nat.mul_ne_zero hD0 (Nat.pos_iff_ne_zero.mp
      (Nat.pos_pow_of_pos _ (by norm_num)))
  have hbl : bitlen m = bitlen D + c := by
    rw [hm_eq]
    exact bitlen_mul_pow D c hD0
  have hDb : bitlen D ≤ M + 1 := bitlen_le_of_lt hDlt
  have hDB1 : 1 ≤ bitlen D := bitlen_pos hD0
  have hbias : 1 ≤ AF.get_bias E := af_bias_pos E hE
  have hEmm : AF.expMin E ≤ AF.expMax E := by
    unfold AF.expMin AF.expMax
    omega
  have hnr : ∀ (sb b : Bool), AF.need_round_up
      AF.RoundingMode.NearestTiesToEven sb AF.LossFraction.ExactlyZero b
      = false := fun _ _ => rfl
  rw [show AF.new s e m = AF.raw s e m AF.Category.Normal from by
    simp [AF.new, hm0]]
  rw [AF.normalize]
  simp only [AF.raw, bne_self_eq_false, Bool.false_eq_true, if_false]
  rw [if_neg hm0]
  set sh : Int := ((M : Int) - ((bitlen m : Int) - 1)) ⊓ (e - AF.expMin E)
    with hshd
  have hsh1 : sh ≤ (M : Int) - ((bitlen m : Int) - 1) := min_le_left _ _
  have hsh2 : sh ≤ e - AF.expMin E := min_le_right _ _
  have hshcases : sh = (M : Int) - ((bitlen m : Int) - 1) ∨
      sh = e - AF.expMin E := by
    rcases min_cases ((M : Int) - ((bitlen m : Int) - 1))
        (e - AF.expMin E) with ⟨h1, _⟩ | ⟨h1, _⟩
    · exact Or.inl (by rw [hshd, h1])
    · exact Or.inr (by rw [hshd, h1])
  by_cases hs0 : 0 ≤ sh
  · -- left shift: trivially exact
    simp only [if_pos hs0]
    have hloss : (if sh = 0 then AF.LossFraction.ExactlyZero
        else AF.demoteLoss AF.LossFraction.ExactlyZero) =
        AF.LossFraction.ExactlyZero := by
      split_ifs <;> rfl
    simp only [hloss, hnr, Bool.false_eq_true, if_false]
    have hmb : bitlen m ≤ M + 1 := by omega
    have hov : ¬(e - sh > AF.expMax E) := by
      rcases hshcases with h1 | h1 <;> omega
    simp only [if_neg hov]
    have hmlt2 : m <<< sh.toNat < 2 ^ (M + 1) := by
      rw [Nat.shiftLeft_eq]
      calc m * 2 ^ sh.toNat < 2 ^ bitlen m * 2 ^ sh.toNat :=
            (Nat.mul_lt_mul_right (Nat.pos_pow_of_pos _ (by norm_num))).mpr
              (lt_two_pow_bitlen m)
      _ ≤ 2 ^ bitlen m * 2 ^ (M + 1 - bitlen m) :=
            Nat.mul_le_mul_left _ (Nat.pow_le_pow_right (by norm_num)
              (by omega))
      _ = 2 ^ (M + 1) := by
            rw [← pow_add]
            congr 1
            omega
    simp only [if_neg (Nat.ne_of_lt hmlt2)]
    have hmne0 : ¬(m <<< sh.toNat = 0) := by
      rw [Nat.shiftLeft_eq]
      exact Nat.mul_ne_zero hm0 (Nat.pos_iff_ne_zero.mp
        (Nat.pos_pow_of_pos _ (by norm_num)))
    simp only [if_neg hmne0]
    refine ⟨e - sh, m <<< sh.toNat, rfl, ?_, hmne0, ?_, fun _ => by omega⟩
    · rw [af_wfF_normal_iff]
      refine ⟨by omega, by omega, Nat.pos_of_ne_zero hmne0, hmlt2, ?_⟩
      rcases hshcases with h1 | h1
      · refine Or.inl ?_
        rw [Nat.shiftLeft_eq]
        have hkt : sh.toNat = M + 1 - bitlen m := by omega
        rw [hkt]
        calc 2 ^ M = 2 ^ (bitlen m - 1) * 2 ^ (M + 1 - bitlen m) := by
              rw [← pow_add]
              congr 1
              omega
        _ ≤ m * 2 ^ (M + 1 - bitlen m) :=
              Nat.mul_le_mul_right _ (two_pow_bitlen_pred_le hm0)
      · exact Or.inr (by omega)
    · rw [Nat.shiftLeft_eq]
      push_cast
      rw [show ((2 : ℚ) ^ (sh.toNat : Nat)) = (2 : ℚ) ^ (sh : Int) from by
        rw [← zpow_natCast]
        congr 1
        omega]
      rw [mul_assoc, ← zpow_add₀ (by norm_num : (2 : ℚ) ≠ 0)]
      congr 1
      ring
  · -- right shift: the discarded bits are inside the zero factor
    push_neg at hs0
    have hsha : sh = (M : Int) - ((bitlen m : Int) - 1) := by
      rcases hshcases with h1 | h1
      · exact h1
      · omega
    have hmbig : M + 1 < bitlen m := by omega
    simp only [if_neg (not_le.mpr hs0)]
    have hkk : (-sh).toNat = bitlen m - 1 - M := by omega
    have hkk1 : 1 ≤ (-sh).toNat := by omega
    have hkkc : (-sh).toNat ≤ c := by omega
    have hdvd : (2 : Nat) ^ (-sh).toNat ∣ m := by
      rw [hm_eq]
      exact Dvd.dvd.mul_left (pow_dvd_pow 2 hkkc) D
    have hmod : m % 2 ^ (-sh).toNat = 0 := Nat.mod_eq_zero_of_dvd hdvd
    have hloss2 : AF.combineLoss (AF.lossOfShift m (-sh).toNat)
        AF.LossFraction.ExactlyZero = AF.LossFraction.ExactlyZero := by
      have hls : AF.lossOfShift m (-sh).toNat =
          AF.LossFraction.ExactlyZero := by
        unfold AF.lossOfShift
        rw [if_neg (by omega : ¬((-sh).toNat = 0))]
        dsimp only
        rw [if_pos hmod]
      rw [hls]
      rfl
    simp only [hloss2, hnr, Bool.false_eq_true, if_false]
    have hmant_eq : m >>> (-sh).toNat = D * 2 ^ (c - (-sh).toNat) := by
      rw [hm_eq, Nat.shiftRight_eq_div_pow]
      rw [show (2 : Nat) ^ c = 2 ^ (c - (-sh).toNat) * 2 ^ (-sh).toNat from
        by rw [← pow_add]; congr 1; omega]
      rw [← mul_assoc]
      exact Nat.mul_div_cancel _ (Nat.pos_pow_of_pos _ (by norm_num))
    have hov : ¬(e - sh > AF.expMax E) := by omega
    simp only [if_neg hov]
    have hck : c - (-sh).toNat = M + 1 - bitlen D := by omega
    have hm2lt : m >>> (-sh).toNat < 2 ^ (M + 1) := by
      rw [hmant_eq, hck]
      calc D * 2 ^ (M + 1 - bitlen D)
          < 2 ^ bitlen D * 2 ^ (M + 1 - bitlen D) :=
            (Nat.mul_lt_mul_right (Nat.pos_pow_of_pos _ (by norm_num))).mpr
              (lt_two_pow_bitlen D)
      _ = 2 ^ (M + 1) := by
            rw [← pow_add]
            congr 1
            omega
    simp only [if_neg (Nat.ne_of_lt hm2lt)]
    have hm2ne0 : ¬(m >>> (-sh).toNat = 0) := by
      rw [hmant_eq]
      exact Nat.mul_ne_zero hD0 (Nat.pos_iff_ne_zero.mp
        (Nat.pos_pow_of_pos _ (by norm_num)))
    simp only [if_neg hm2ne0]
    refine ⟨e - sh, m >>> (-sh).toNat, rfl, ?_, hm2ne0, ?_, fun hc => by
      omega⟩
    · rw [af_wfF_normal_iff]
      refine ⟨by omega, by omega, Nat.pos_of_ne_zero hm2ne0, hm2lt, ?_⟩
      refine Or.inl ?_
      rw [hmant_eq, hck]
      calc 2 ^ M = 2 ^ (bitlen D - 1) * 2 ^ (M + 1 - bitlen D) := by
            rw [← pow_add]
            congr 1
            omega
      _ ≤ D * 2 ^ (M + 1 - bitlen D) :=
            Nat.mul_le_mul_right _ (two_pow_bitlen_pred_le hD0)
    · rw [hmant_eq, hm_eq]
      push_cast
      rw [show ((2 : ℚ) ^ ((c - (-sh).toNat) : Nat)) =
          (2 : ℚ) ^ ((c : Int) + sh) from by
        rw [← zpow_natCast]
        congr 1
        omega]
      rw [show ((2 : ℚ) ^ (c : Nat)) = (2 : ℚ) ^ ((c : Int)) from by
        rw [← zpow_natCast]]
      rw [mul_assoc, ← zpow_add₀ (by norm_num : (2 : ℚ) ≠ 0)]
      rw [mul_assoc, ← zpow_add₀ (by norm_num : (2 : ℚ) ≠ 0)]
      congr 1
      ring

/-- Closed description of scaling a nonnegative Normal float when the
target exponent is in range: Normal result, no rounding, value scaled
exactly, stored exponent not above the target. -/
theorem af_scaleF_closed (E M : Nat) (hE : 2 ≤ E) (re k : Int) (mr : Nat)
    (hm0 : mr ≠ 0) (hmlt : mr < 2 ^ (M + 1))
    (hlo : AF.expMin E ≤ re + k) (hhi : re + k ≤ AF.expMax E) :
    ∃ e2 m2,
      AF.scaleF E M ⟨false, re, mr, AF.Category.Normal⟩ k
          AF.RoundingMode.NearestTiesToEven =
        ⟨false, e2, m2, AF.Category.Normal⟩ ∧
      AF.wfF E M ⟨false, e2, m2, AF.Category.Normal⟩ = true ∧
      m2 ≠ 0 ∧ e2 ≤ re + k ∧
      (m2 : ℚ) * 2 ^ (e2 - (M : Int)) =
        (mr : ℚ) * 2 ^ (re + k - (M : Int)) := by
  have hb : bitlen mr ≤ M + 1 := bitlen_le_of_lt hmlt
  obtain ⟨e2, m2, heq, hwf, hne, hval, hle⟩ :=
    af_normalize_exact E M hE false (re + k) mr 0 hm0 hmlt hlo
      (by rw [Nat.shiftLeft_zero]; omega)
  rw [Nat.shiftLeft_zero] at heq hval hle
  refine ⟨e2, m2, ?_, hwf, hne, hle hb, hval⟩
  unfold AF.scaleF
  rw [if_neg (show ¬((!AF.is_normal
      (⟨false, re, mr, AF.Category.Normal⟩ : AF.Float)) = true) from by
    simp [AF.is_normal])]
  exact heq

/-- Subtracting one nonnegative Normal float from another reaches the
exact add core with the sign flipped. -/
theorem af_subW_nn_eq (E M : Nat) (le ed : Int) (ml md : Nat) :
    AF.subW E M ⟨false, le, ml, AF.Category.Normal⟩
        ⟨false, ed, md, AF.Category.Normal⟩ =
      AF.addExact E M AF.RoundingMode.NearestTiesToEven
        ⟨false, le, ml, AF.Category.Normal⟩
        ⟨true, ed, md, AF.Category.Normal⟩ := rfl

/-- Evaluation of the exact add core on opposite-signed Normal operands
with the second exponent not larger. -/
theorem af_addExact_opp (E M : Nat) (le ed : Int) (ml md : Nat)
    (hed : ed ≤ le) :
    AF.addExact E M AF.RoundingMode.NearestTiesToEven
        ⟨false, le, ml, AF.Category.Normal⟩
        ⟨true, ed, md, AF.Category.Normal⟩ =
      (if ml <<< (le - ed).toNat = md then AF.zero false
       else if md < ml <<< (le - ed).toNat then
         AF.normalize E M AF.RoundingMode.NearestTiesToEven
           (AF.new false ed (ml <<< (le - ed).toNat - md))
           AF.LossFraction.ExactlyZero
       else
         AF.normalize E M AF.RoundingMode.NearestTiesToEven
           (AF.new true ed (md - ml <<< (le - ed).toNat))
           AF.LossFraction.ExactlyZero) := by
  unfold AF.addExact
  dsimp only
  rw [min_eq_right hed]
  rw [sub_self, Int.toNat_zero, Nat.shiftLeft_zero]
  rfl

/-- From a strict rational-value inequality to a strict key inequality on
nonnegative well-formed Normal floats. -/
theorem af_key_lt_of_val_nn (E M : Nat) (e2 le : Int) (m2 ml : Nat)
    (hw2 : AF.wfF E M ⟨false, e2, m2, AF.Category.Normal⟩ = true)
    (hwl : AF.wfF E M ⟨false, le, ml, AF.Category.Normal⟩ = true)
    (hv : (m2 : ℚ) * 2 ^ (e2 - (M : Int)) <
      (ml : ℚ) * 2 ^ (le - (M : Int))) :
    AF.keyF E M ⟨false, e2, m2, AF.Category.Normal⟩ <
      AF.keyF E M ⟨false, le, ml, AF.Category.Normal⟩ := by
  refine af_key_lt_of_flt E M _ _ hw2 hwl rfl rfl rfl rfl ?_
  rw [af_flt_nn _ _ rfl rfl rfl rfl]
  exact (af_magLt_iff_val M _ _).mpr hv

/-- One iteration of the rem loop strictly decreases the key of the
dividend, preserving well-formedness, sign and NaN-freedom. -/
theorem af_rem_step_decrease (E M : Nat) (hE : 2 ≤ E)
    (le re : Int) (ml mr : Nat)
    (hwl : AF.wfF E M ⟨false, le, ml, AF.Category.Normal⟩ = true)
    (hwr : AF.wfF E M ⟨false, re, mr, AF.Category.Normal⟩ = true)
    (hge : AF.fge ⟨false, le, ml, AF.Category.Normal⟩
      ⟨false, re, mr, AF.Category.Normal⟩ = true) :
    ∀ d : AF.Float,
      d = (if AF.fgt (AF.scaleF E M ⟨false, re, mr, AF.Category.Normal⟩
            (le - re) AF.RoundingMode.NearestTiesToEven)
            ⟨false, le, ml, AF.Category.Normal⟩ then
          AF.scaleF E M ⟨false, re, mr, AF.Category.Normal⟩ (le - re - 1)
            AF.RoundingMode.NearestTiesToEven
        else
          AF.scaleF E M ⟨false, re, mr, AF.Category.Normal⟩ (le - re)
            AF.RoundingMode.NearestTiesToEven) →
      (AF.keyF E M (AF.subW E M ⟨false, le, ml, AF.Category.Normal⟩ d) <
          AF.keyF E M (⟨false, le, ml, AF.Category.Normal⟩ : AF.Float) ∧
        AF.wfF E M (AF.subW E M ⟨false, le, ml, AF.Category.Normal⟩ d)
          = true ∧
        (AF.subW E M ⟨false, le, ml, AF.Category.Normal⟩ d).sign = false ∧
        AF.is_nan (AF.subW E M ⟨false, le, ml, AF.Category.Normal⟩ d)
          = false) := by
  intro d hd
  have hwl' := hwl
  have hwr' := hwr
  rw [af_wfF_normal_iff] at hwl' hwr'
  obtain ⟨hle1, hle2, hml1, hml2, hlsub⟩ := hwl'
  obtain ⟨hre1, hre2, hmr1, hmr2, hrsub⟩ := hwr'
  have hml0 : ml ≠ 0 := Nat.pos_iff_ne_zero.mp hml1
  have hmr0 : mr ≠ 0 := Nat.pos_iff_ne_zero.mp hmr1
  -- value ordering from the loop guard
  have hvle : (mr : ℚ) * 2 ^ (re - (M : Int)) ≤
      (ml : ℚ) * 2 ^ (le - (M : Int)) := by
    simp only [AF.fge, Bool.or_eq_true] at hge
    rcases hge with h | h
    · rw [af_flt_nn _ _ rfl rfl rfl rfl] at h
      exact le_of_lt ((af_magLt_iff_val M _ _).mp h)
    · rw [af_feq_nn _ _ rfl rfl rfl rfl] at h
      exact le_of_eq ((af_magEq_iff_val M _ _).mp h).symm
  -- the divisor exponent is not larger
  have hrele : re ≤ le := by
    by_contra hc
    push_neg at hc
    have hmrM : 2 ^ M ≤ mr := by
      rcases hrsub with h | h
      · exact h
      · omega
    have hbig : (2 : ℚ) ^ M * 2 ^ (re - (M : Int)) ≤
        (mr : ℚ) * 2 ^ (re - (M : Int)) := by
      have : ((2 : ℚ) ^ M) ≤ (mr : ℚ) := by exact_mod_cast hmrM
      exact mul_le_mul_of_nonneg_right this (by positivity)
    have hsmall : (ml : ℚ) * 2 ^ (le - (M : Int)) <
        (2 : ℚ) ^ (M + 1) * 2 ^ (le - (M : Int)) := by
      have : (ml : ℚ) < (2 : ℚ) ^ (M + 1) := by exact_mod_cast hml2
      exact mul_lt_mul_of_pos_right this (by positivity)
    have hstep : (2 : ℚ) ^ (M + 1) * 2 ^ (le - (M : Int)) ≤
        (2 : ℚ) ^ M * 2 ^ (re - (M : Int)) := by
      rw [show ((2 : ℚ) ^ (M + 1) : ℚ) = (2 : ℚ) ^ ((M : Int) + 1) from by
        norm_cast]
      rw [show ((2 : ℚ) ^ (M : Nat) : ℚ) = (2 : ℚ) ^ ((M : Int)) from by
        rw [← zpow_natCast]]
      rw [← zpow_add₀ (by norm_num : (2 : ℚ) ≠ 0),
        ← zpow_add₀ (by norm_num : (2 : ℚ) ≠ 0)]
      exact zpow_le_zpow_right₀ (by norm_num) (by omega)
    linarith
  -- scaled divisor at the dividend's exponent
  obtain ⟨ed, md, hd_eq, hd_wf, hd_ne, hd_le, hd_val⟩ :=
    af_scaleF_closed E M hE re (le - re) mr hmr0 hmr2
      (by omega) (by omega)
  rw [show re + (le - re) = le from by ring] at hd_le hd_val
  by_cases hstep : AF.fgt (AF.scaleF E M ⟨false, re, mr, AF.Category.Normal⟩
      (le - re) AF.RoundingMode.NearestTiesToEven)
      (⟨false, le, ml, AF.Category.Normal⟩ : AF.Float) = true
  · -- step-back case: the scaled divisor overshoots, scale one less
    rw [if_pos hstep] at hd
    have hlt : (ml : ℚ) * 2 ^ (le - (M : Int)) <
        (mr : ℚ) * 2 ^ (le - (M : Int)) := by
      unfold AF.fgt at hstep
      rw [hd_eq] at hstep
      rw [af_flt_nn _ _ rfl rfl rfl rfl] at hstep
      have := (af_magLt_iff_val M _ _).mp hstep
      rw [hd_val] at this
      exact this
    have hmlmr : ml < mr := by
      have := lt_of_mul_lt_mul_right hlt (by positivity :
        (0 : ℚ) ≤ (2 : ℚ) ^ (le - (M : Int)))
      exact_mod_cast this
    have hscl1 : 1 ≤ le - re := by
      rcases lt_or_ge le (re + 1) with hc | hc
      · exfalso
        have hlere : le = re := by omega
        rw [hlere] at hvle
        have := le_of_mul_le_mul_right hvle (by positivity :
          (0 : ℚ) < (2 : ℚ) ^ (re - (M : Int)))
        have hmrml : mr ≤ ml := by exact_mod_cast this
        omega
      · omega
    have hmlM : 2 ^ M ≤ ml := by
      rcases hlsub with h | h
      · exact h
      · omega
    obtain ⟨ed2, md2, hd2_eq, hd2_wf, hd2_ne, hd2_le, hd2_val⟩ :=
      af_scaleF_closed E M hE re (le - re - 1) mr hmr0 hmr2
        (by omega) (by omega)
    rw [show re + (le - re - 1) = le - 1 from by ring] at hd2_le hd2_val
    rw [hd2_eq] at hd
    subst hd
    have hd2_wf' := hd2_wf
    rw [af_wfF_normal_iff] at hd2_wf'
    obtain ⟨hed2a, hed2b, hmd2a, hmd2b, _⟩ := hd2_wf'
    -- md2 = mr shifted up to exponent le - 1
    have hmd2 : md2 = mr * 2 ^ (le - 1 - ed2).toNat := by
      have hsplit := af_zpow_split (le - 1) ed2 (M : Int) hd2_le
      rw [hsplit, ← mul_assoc] at hd2_val
      have hpos : (0 : ℚ) < (2 : ℚ) ^ (ed2 - (M : Int)) := by positivity
      have h := mul_right_cancel₀ (ne_of_gt hpos) hd2_val
      exact_mod_cast h
    -- the common exponent is ed2 and the shifted dividend doubles
    have hshift : (le - ed2).toNat = (le - 1 - ed2).toNat + 1 := by omega
    have hX : ml <<< (le - ed2).toNat =
        (2 * ml) * 2 ^ (le - 1 - ed2).toNat := by
      rw [Nat.shiftLeft_eq, hshift, pow_succ]
      ring
    have hXY : md2 < ml <<< (le - ed2).toNat := by
      rw [hX, hmd2]
      have h2ml : mr < 2 * ml := by omega
      exact Nat.mul_lt_mul_of_lt_of_le h2ml (le_refl _)
        (Nat.pos_pow_of_pos _ (by norm_num))
    rw [af_subW_nn_eq, af_addExact_opp E M le ed2 ml md2 (by omega)]
    rw [if_neg (by omega : ¬(ml <<< (le - ed2).toNat = md2))]
    rw [if_pos hXY]
    have hD : ml <<< (le - ed2).toNat - md2 =
        (2 * ml - mr) <<< (le - 1 - ed2).toNat := by
      rw [hX, hmd2, Nat.shiftLeft_eq]
      rw [← Nat.sub_mul]
    rw [hD]
    have hD0 : 2 * ml - mr ≠ 0 := by omega
    have hDlt : 2 * ml - mr < 2 ^ (M + 1) := by omega
    have hblD : bitlen (2 * ml - mr) ≤ M + 1 := bitlen_le_of_lt hDlt
    obtain ⟨e2, m2, h2eq, h2wf, h2ne, h2val, _⟩ :=
      af_normalize_exact E M hE false ed2 (2 * ml - mr)
        (le - 1 - ed2).toNat hD0 hDlt (by omega) (by
          rw [Nat.shiftLeft_eq, bitlen_mul_pow _ _ hD0]
          omega)
    rw [h2eq]
    refine ⟨?_, h2wf, rfl, rfl⟩
    refine af_key_lt_of_val_nn E M e2 le m2 ml h2wf hwl ?_
    rw [h2val]
    -- value: (2ml - mr) · 2^(le-1-M) < ml · 2^(le-M)
    rw [Nat.shiftLeft_eq]
    push_cast
    rw [show ((2 : ℚ) ^ ((le - 1 - ed2).toNat : Nat)) =
        (2 : ℚ) ^ (le - 1 - ed2) from by
      rw [← zpow_natCast]
      congr 1
      omega]
    rw [mul_assoc, ← zpow_add₀ (by norm_num : (2 : ℚ) ≠ 0)]
    rw [show (le - 1 - ed2) + (ed2 - (M : Int)) = (le - 1) - (M : Int)
      from by ring]
    rw [af_zpow_split le (le - 1) (M : Int) (by omega)]
    rw [show (le - (le - 1)).toNat = 1 from by omega]
    have hpos : (0 : ℚ) < (2 : ℚ) ^ ((le - 1) - (M : Int)) := by positivity
    rw [← mul_assoc]
    refine mul_lt_mul_of_pos_right ?_ hpos
    have h1 : ((2 : ℚ) * ml - mr) < (ml : ℚ) * 2 ^ (1 : ℕ) := by
      have hmr1' : (1 : ℚ) ≤ (mr : ℚ) := by exact_mod_cast hmr1
      have hml1' : (0 : ℚ) ≤ (ml : ℚ) := by positivity
      norm_num
      linarith
    calc ((2 * ml - mr : ℕ) : ℚ) = (2 : ℚ) * ml - mr := by
          push_cast [Nat.cast_sub (by omega : mr ≤ 2 * ml)]
          ring
    _ < (ml : ℚ) * 2 ^ (1 : ℕ) := h1
  · -- no step-back: subtract the scaled divisor directly
    rw [if_neg hstep] at hd
    rw [hd_eq] at hd
    subst hd
    have hd_wf' := hd_wf
    rw [af_wfF_normal_iff] at hd_wf'
    obtain ⟨heda, hedb, hmda, hmdb, _⟩ := hd_wf'
    -- value of the scaled divisor does not exceed the dividend
    have hvd : (mr : ℚ) * 2 ^ (le - (M : Int)) ≤
        (ml : ℚ) * 2 ^ (le - (M : Int)) := by
      unfold AF.fgt at hstep
      rw [hd_eq] at hstep
      rw [af_flt_nn _ _ rfl rfl rfl rfl] at hstep
      have := (af_magLt_iff_val M
        (⟨false, le, ml, AF.Category.Normal⟩ : AF.Float)
        (⟨false, ed, md, AF.Category.Normal⟩ : AF.Float)).not.mp
        (by simpa using hstep)
      push_neg at this
      rw [hd_val] at this
      exact this
    have hmrml : mr ≤ ml := by
      have := le_of_mul_le_mul_right hvd (by positivity :
        (0 : ℚ) < (2 : ℚ) ^ (le - (M : Int)))
      exact_mod_cast this
    have hmd : md = mr * 2 ^ (le - ed).toNat := by
      have hsplit := af_zpow_split le ed (M : Int) hd_le
      rw [hsplit, ← mul_assoc] at hd_val
      have hpos : (0 : ℚ) < (2 : ℚ) ^ (ed - (M : Int)) := by positivity
      have h := mul_right_cancel₀ (ne_of_gt hpos) hd_val
      exact_mod_cast h
    have hX : ml <<< (le - ed).toNat = ml * 2 ^ (le - ed).toNat :=
      Nat.shiftLeft_eq _ _
    rw [af_subW_nn_eq, af_addExact_opp E M le ed ml md hd_le]
    by_cases hXeq : ml <<< (le - ed).toNat = md
    · rw [if_pos hXeq]
      refine ⟨?_, rfl, rfl, rfl⟩
      rw [af_keyF_normal]
      show 0 < _
      omega
    · rw [if_neg hXeq]
      have hmrml' : mr < ml := by
        rcases Nat.lt_or_ge mr ml with h | h
        · exact h
        · exfalso
          have : mr = ml := by omega
          subst this
          rw [hX, hmd] at hXeq
          exact hXeq rfl
      have hYX : md < ml <<< (le - ed).toNat := by
        rw [hX, hmd]
        exact Nat.mul_lt_mul_of_lt_of_le hmrml' (le_refl _)
          (Nat.pos_pow_of_pos _ (by norm_num))
      rw [if_pos hYX]
      have hD : ml <<< (le - ed).toNat - md =
          (ml - mr) <<< (le - ed).toNat := by
        rw [hX, hmd, Nat.shiftLeft_eq]
        rw [← Nat.sub_mul]
      rw [hD]
      have hD0 : ml - mr ≠ 0 := by omega
      have hDlt : ml - mr < 2 ^ (M + 1) := by omega
      obtain ⟨e2, m2, h2eq, h2wf, h2ne, h2val, _⟩ :=
        af_normalize_exact E M hE false ed (ml - mr)
          (le - ed).toNat hD0 hDlt (by omega) (by
            rw [Nat.shiftLeft_eq, bitlen_mul_pow _ _ hD0]
            have := bitlen_le_of_lt hDlt
            omega)
      rw [h2eq]
      refine ⟨?_, h2wf, rfl, rfl⟩
      refine af_key_lt_of_val_nn E M e2 le m2 ml h2wf hwl ?_
      rw [h2val]
      rw [Nat.shiftLeft_eq]
      push_cast [Nat.cast_sub (by omega : mr ≤ ml)]
      rw [show ((2 : ℚ) ^ ((le - ed).toNat : Nat)) =
          (2 : ℚ) ^ (le - ed) from by
        rw [← zpow_natCast]
        congr 1
        omega]
      rw [mul_assoc, ← zpow_add₀ (by norm_num : (2 : ℚ) ≠ 0)]
      rw [show (le - ed) + (ed - (M : Int)) = le - (M : Int) from by ring]
      have hpos : (0 : ℚ) < (2 : ℚ) ^ (le - (M : Int)) := by positivity
      refine mul_lt_mul_of_pos_right ?_ hpos
      have hmr1' : (1 : ℚ) ≤ (mr : ℚ) := by exact_mod_cast hmr1
      linarith

/-- The rem loop terminates before the key of the dividend runs out. -/
theorem af_remGo_term (E M : Nat) (hE : 2 ≤ E) (re : Int) (mr : Nat)
    (hwr : AF.wfF E M ⟨false, re, mr, AF.Category.Normal⟩ = true) :
    ∀ (n : Nat) (lhs : AF.Float), AF.wfF E M lhs = true →
      lhs.sign = false → AF.is_nan lhs = false → AF.keyF E M lhs < n →
      AF.remGo E M ⟨false, re, mr, AF.Category.Normal⟩ n lhs ≠
        AF.PRes.fuelOut := by
  intro n
  induction n with
  | zero =>
    intro lhs _ _ _ hk
    omega
  | succ n ih =>
    intro lhs hw hs hn hk
    rw [AF.remGo]
    by_cases hguard : (AF.fge lhs ⟨false, re, mr, AF.Category.Normal⟩ &&
        AF.is_normal lhs) = true
    · rw [if_pos hguard]
      simp only [Bool.and_eq_true] at hguard
      obtain ⟨hge, hnorm⟩ := hguard
      obtain ⟨ls, le, ml, lc⟩ := lhs
      have hlc : lc = AF.Category.Normal := by
        simpa [AF.is_normal] using hnorm
      subst hlc
      simp only at hs
      subst hs
      dsimp only
      have hdec := af_rem_step_decrease E M hE le re ml mr hw hwr hge _ rfl
      rw [af_keyF_normal] at hk
      refine ih _ hdec.2.1 hdec.2.2.1 hdec.2.2.2 ?_
      have h1 := hdec.1
      rw [af_keyF_normal] at h1
      omega
    · rw [if_neg hguard]
      simp

/-- `rem` terminates on well-formed inputs: some finite fuel amount never
runs out (special cases return immediately, the debug assertion aborts,
and the loop strictly decreases the dividend's key). -/
theorem af_remM_term (E M : Nat) (hE : 2 ≤ E) (x y : AF.Float)
    (hwx : AF.wfF E M x = true) (hwy : AF.wfF E M y = true) :
    ∃ n : Nat, AF.remM E M n x y ≠ AF.PRes.fuelOut := by
  by_cases h1 : (AF.is_nan x || AF.is_nan y || AF.is_inf x ||
      AF.is_zero y) = true
  · exact ⟨0, by unfold AF.remM; rw [if_pos h1]; simp⟩
  · by_cases h2 : (AF.is_zero x || AF.is_inf y) = true
    · exact ⟨0, by unfold AF.remM; rw [if_neg h1, if_pos h2]; simp⟩
    · refine ⟨AF.keyF E M (AF.abs x) + 1, ?_⟩
      unfold AF.remM
      rw [if_neg h1, if_neg h2]
      unfold AF.remTail
      by_cases h3 : (AF.is_normal (AF.abs x) = true ∧
          AF.is_normal (if AF.is_negative y then AF.neg y else y) = true)
      · rw [if_neg (by simpa using h3)]
        -- the normalized divisor is a nonnegative Normal float
        have hrs : (if AF.is_negative y then AF.neg y else y).sign
            = false := by
          unfold AF.is_negative
          split_ifs with hy
          · simp [AF.neg, hy]
          · simpa using hy
        have hrw : AF.wfF E M (if AF.is_negative y then AF.neg y else y)
            = true := by
          split_ifs
          · rw [af_wfF_neg]
            exact hwy
          · exact hwy
        obtain ⟨re, mr, hr_eq⟩ : ∃ re mr,
            (if AF.is_negative y then AF.neg y else y) =
              ⟨false, re, mr, AF.Category.Normal⟩ := by
          rcases hre : (if AF.is_negative y then AF.neg y else y) with
            ⟨rs, re, mr, rc⟩
          have h3' := h3.2
          rw [hre] at h3'
          have hrc : rc = AF.Category.Normal := by
            simpa [AF.is_normal] using h3'
          have hrs' : rs = false := by
            rw [hre] at hrs
            simpa using hrs
          exact ⟨re, mr, by rw [hrc, hrs']⟩
        rw [hr_eq]
        have hwr : AF.wfF E M ⟨false, re, mr, AF.Category.Normal⟩ = true :=
          by rw [← hr_eq]; exact hrw
        have hlw : AF.wfF E M (AF.abs x) = true := by
          unfold AF.abs
          rw [af_wfF_set_sign]
          exact hwx
        have hls : (AF.abs x).sign = false := rfl
        have hln : AF.is_nan (AF.abs x) = false := by
          have h3' := h3.1
          rcases hax : AF.abs x with ⟨as, ae, am, ac⟩
          rw [hax] at h3'
          have : ac = AF.Category.Normal := by
            simpa [AF.is_normal] using h3'
          simp [AF.is_nan, this]
        have hterm := af_remGo_term E M hE re mr hwr
          (AF.keyF E M (AF.abs x) + 1) (AF.abs x) hlw hls hln
          (Nat.lt_succ_self _)
        rcases hre2 : AF.remGo E M ⟨false, re, mr, AF.Category.Normal⟩
            (AF.keyF E M (AF.abs x) + 1) (AF.abs x) with l | _ | _
        · simp
        · simp
        · exact absurd hre2 hterm
      · rw [if_pos (by simpa using h3)]
        simp

/-- C4 counterexample: `pi` at the 2-exponent-bit / 25-mantissa-bit
configuration does not terminate — even with 4000 iterations of fuel the
AGM loop is still running, because the state with `a = 28427754`,
`b = 28427753`, `t = NaN`, `x = Infinity` reproduces itself exactly under
one loop iteration while `a != b` keeps the loop going. -/
theorem c4_pi_nontermination_counterexample :
    AF.piM 2 25 4000 = AF.PRes.fuelOut ∧
    AF.feq (⟨false, 0, 28427754, AF.Category.Normal⟩ : AF.Float)
      (⟨false, 0, 28427753, AF.Category.Normal⟩ : AF.Float) = false ∧
    AF.piStep 2 25 4000 (AF.from_u64 2 25 2)
        (⟨false, 0, 28427754, AF.Category.Normal⟩,
         ⟨false, 0, 28427753, AF.Category.Normal⟩,
         ⟨true, 0, 1, AF.Category.NaN⟩,
         ⟨false, 0, 0, AF.Category.Infinity⟩) =
      AF.PRes.ok
        (⟨false, 0, 28427754, AF.Category.Normal⟩,
         ⟨false, 0, 28427753, AF.Category.Normal⟩,
         ⟨true, 0, 1, AF.Category.NaN⟩,
         ⟨false, 0, 0, AF.Category.Infinity⟩) :=
  ⟨pi25_nonterm 4000, by decide, by decide⟩

/-- C4 (amended): with at least two exponent bits and one mantissa bit,
the sqrt Newton loop and the rem scaled-subtraction loop terminate on
every well-formed input (some finite fuel never runs out), and the pi
AGM loop terminates at the standard configurations (FP64, FP32, FP16
with 60 iterations of fuel); but pi does not terminate for every
configuration: at (2,25) it runs forever. -/
theorem c4_loop_termination_amended (E M : Nat) (hE : 2 ≤ E) (hM : 1 ≤ M)
    (f x y : AF.Float) (hf : AF.wfF E M f = true)
    (hx : AF.wfF E M x = true) (hy : AF.wfF E M y = true) :
    (∃ n, AF.sqrtM E M n f ≠ AF.PRes.fuelOut) ∧
    (∃ n, AF.remM E M n x y ≠ AF.PRes.fuelOut) ∧
    AF.piM 11 52 60 ≠ AF.PRes.fuelOut ∧
    AF.piM 8 23 60 ≠ AF.PRes.fuelOut ∧
    AF.piM 5 10 60 ≠ AF.PRes.fuelOut ∧
    (∀ fuel, AF.piM 2 25 fuel = AF.PRes.fuelOut) :=
  ⟨af_sqrtM_term E M hE hM f hf, af_remM_term E M hE x y hx hy,
    by decide, by decide, by decide, pi25_nonterm⟩

/-- C4 witness: the amended theorem applied at FP64 to `sqrt 2` and
`7 rem 3`. -/
theorem c4_loop_termination_amended_witness :
    (2 ≤ 11 ∧ 1 ≤ 52 ∧
      AF.wfF 11 52 (AF.from_u64 11 52 2) = true ∧
      AF.wfF 11 52 (AF.from_u64 11 52 7) = true ∧
      AF.wfF 11 52 (AF.from_u64 11 52 3) = true) ∧
    ((∃ n, AF.sqrtM 11 52 n (AF.from_u64 11 52 2) ≠ AF.PRes.fuelOut) ∧
      (∃ n, AF.remM 11 52 n (AF.from_u64 11 52 7) (AF.from_u64 11 52 3) ≠
        AF.PRes.fuelOut) ∧
      AF.piM 11 52 60 ≠ AF.PRes.fuelOut ∧
      AF.piM 8 23 60 ≠ AF.PRes.fuelOut ∧
      AF.piM 5 10 60 ≠ AF.PRes.fuelOut ∧
      (∀ fuel, AF.piM 2 25 fuel = AF.PRes.fuelOut)) :=
  ⟨⟨by norm_num, by norm_num, by decide, by decide, by decide⟩,
    c4_loop_termination_amended 11 52 (by norm_num) (by norm_num)
      (AF.from_u64 11 52 2) (AF.from_u64 11 52 7) (AF.from_u64 11 52 3)
      (by decide) (by decide) (by decide)⟩

/-- Perfect-square sqrt check, inputs 0 to 15. -/
theorem c7_blk0 : ((List.range 16).all
    fun r => AF.c7check (16 * 0 + r)) = true := by
  decide

/-- Perfect-square sqrt check, inputs 16 to 31. -/
theorem c7_blk1 : ((List.range 16).all
    fun r => AF.c7check (16 * 1 + r)) = true := by
  decide

/-- Perfect-square sqrt check, inputs 32 to 47. -/
theorem c7_blk2 : ((List.range 16).all
    fun r => AF.c7check (16 * 2 + r)) = true := by
  decide

/-- Perfect-square sqrt check, inputs 48 to 63. -/
theorem c7_blk3 : ((List.range 16).all
    fun r => AF.c7check (16 * 3 + r)) = true := by
  decide

/-- Perfect-square sqrt check, inputs 64 to 79. -/
theorem c7_blk4 : ((List.range 16).all
    fun r => AF.c7check (16 * 4 + r)) = true := by
  decide

/-- Perfect-square sqrt check, inputs 80 to 95. -/
theorem c7_blk5 : ((List.range 16).all
    fun r => AF.c7check (16 * 5 + r)) = true := by
  decide

/-- Perfect-square sqrt check, inputs 96 to 111. -/
theorem c7_blk6 : ((List.range 16).all
    fun r => AF.c7check (16 * 6 + r)) = true := by
  decide

/-- Perfect-square sqrt check, inputs 112 to 127. -/
theorem c7_blk7 : ((List.range 16).all
    fun r => AF.c7check (16 * 7 + r)) = true := by
  decide

/-- Perfect-square sqrt check, inputs 128 to 143. -/
theorem c7_blk8 : ((List.range 16).all
    fun r => AF.c7check (16 * 8 + r)) = true := by
  decide

/-- Perfect-square sqrt check, inputs 144 to 159. -/
theorem c7_blk9 : ((List.range 16).all
    fun r => AF.c7check (16 * 9 + r)) = true := by
  decide

/-- Perfect-square sqrt check, inputs 160 to 175. -/
theorem c7_blk10 : ((List.range 16).all
    fun r => AF.c7check (16 * 10 + r)) = true := by
  decide

/-- Perfect-square sqrt check, inputs 176 to 191. -/
theorem c7_blk11 : ((List.range 16).all
    fun r => AF.c7check (16 * 11 + r)) = true := by
  decide

/-- Perfect-square sqrt check, inputs 192 to 207. -/
theorem c7_blk12 : ((List.range 16).all
    fun r => AF.c7check (16 * 12 + r)) = true := by
  decide

/-- Perfect-square sqrt check, inputs 208 to 223. -/
theorem c7_blk13 : ((List.range 16).all
    fun r => AF.c7check (16 * 13 + r)) = true := by
  decide

/-- Perfect-square sqrt check, inputs 224 to 239. -/
theorem c7_blk14 : ((List.range 16).all
    fun r => AF.c7check (16 * 14 + r)) = true := by
  decide

/-- Perfect-square sqrt check, inputs 240 to 255. -/
theorem c7_blk15 : ((List.range 16).all
    fun r => AF.c7check (16 * 15 + r)) = true := by
  decide

/-- Blockwise exhaustion of the 256 perfect-square sqrt checks. -/
theorem c7_all_blocks
    (h : ∀ j, j < 16 → ((List.range 16).all
      fun r => AF.c7check (16 * j + r)) = true) :
    ∀ i, i < 256 → AF.c7check i = true := by
  intro i hi
  have hj : i / 16 < 16 := Nat.div_lt_of_lt_mul (by omega)
  have hr : i % 16 < 16 := Nat.mod_lt _ (by norm_num)
  have hb := h (i / 16) hj
  rw [List.all_eq_true] at hb
  have hmem : i % 16 ∈ List.range 16 := List.mem_range.mpr hr
  have happ := hb _ hmem
  have heq : 16 * (i / 16) + i % 16 = i := Nat.div_add_mod i 16
  rw [heq] at happ
  simpa using happ

/-- C7: for every integer i in [0, 256), sqrt applied to
`from_integer(i*i)` at FP64 converges to exactly `from_integer(i)` with no
rounding residue (60 iterations of fuel are ample). -/
theorem c7_sqrt_exact_on_squares (i : Nat) (hi : i < 256) :
    AF.sqrtM 11 52 60 (AF.from_u64 11 52 (i * i)) =
      AF.PRes.ok (AF.from_u64 11 52 i) := by
  have hall : ∀ j, j < 16 → ((List.range 16).all
      fun r => AF.c7check (16 * j + r)) = true := by
    intro j hj
    interval_cases j
    · exact c7_blk0
    · exact c7_blk1
    · exact c7_blk2
    · exact c7_blk3
    · exact c7_blk4
    · exact c7_blk5
    · exact c7_blk6
    · exact c7_blk7
    · exact c7_blk8
    · exact c7_blk9
    · exact c7_blk10
    · exact c7_blk11
    · exact c7_blk12
    · exact c7_blk13
    · exact c7_blk14
    · exact c7_blk15
  have hc := c7_all_blocks hall i hi
  unfold AF.c7check at hc
  exact eq_of_beq hc

/-- C7 witness: `sqrt 100 = 10` exactly at FP64. -/
theorem c7_sqrt_exact_on_squares_witness :
    10 < 256 ∧ AF.sqrtM 11 52 60 (AF.from_u64 11 52 (10 * 10)) =
      AF.PRes.ok (AF.from_u64 11 52 10) :=
  ⟨by norm_num, c7_sqrt_exact_on_squares 10 (by norm_num)⟩

/-- The rem loop never hits an assertion. -/
theorem af_remGo_no_abort (E M : Nat) (rhs : AF.Float) :
    ∀ (n : Nat) (lhs : AF.Float),
      AF.remGo E M rhs n lhs ≠ AF.PRes.abort := by
  intro n
  induction n with
  | zero =>
    intro lhs h
    exact absurd h (by simp [AF.remGo])
  | succ n ih =>
    intro lhs h
    rw [AF.remGo] at h
    split at h
    · exact ih _ h
    · exact absurd h (by simp)

/-- `rem` never aborts: its `debug_assert!` always holds, because after the
special cases both operands are Normal. -/
theorem af_remM_no_abort (E M : Nat) (fuel : Nat) (x y : AF.Float) :
    AF.remM E M fuel x y ≠ AF.PRes.abort := by
  unfold AF.remM
  by_cases h1 : (AF.is_nan x || AF.is_nan y || AF.is_inf x ||
      AF.is_zero y) = true
  · rw [if_pos h1]
    simp
  · rw [if_neg h1]
    by_cases h2 : (AF.is_zero x || AF.is_inf y) = true
    · rw [if_pos h2]
      simp
    · rw [if_neg h2]
      simp only [Bool.or_eq_true] at h1 h2
      push_neg at h1 h2
      have hxn : AF.is_nan x = false := by simpa using h1.1.1.1
      have hyn : AF.is_nan y = false := by simpa using h1.1.1.2
      have hxi : AF.is_inf x = false := by simpa using h1.1.2
      have hyz : AF.is_zero y = false := by simpa using h1.2
      have hxz : AF.is_zero x = false := by simpa using h2.1
      have hyi : AF.is_inf y = false := by simpa using h2.2
      have hxc : x.category = AF.Category.Normal := by
        obtain ⟨s, e, m, c⟩ := x
        cases c
        · simp [AF.is_zero] at hxz
        · rfl
        · simp [AF.is_inf] at hxi
        · simp [AF.is_nan] at hxn
      have hyc : y.category = AF.Category.Normal := by
        obtain ⟨s, e, m, c⟩ := y
        cases c
        · simp [AF.is_zero] at hyz
        · rfl
        · simp [AF.is_inf] at hyi
        · simp [AF.is_nan] at hyn
      unfold AF.remTail
      rw [if_neg (show ¬¬(AF.is_normal (AF.abs x) = true ∧
          AF.is_normal (if AF.is_negative y then AF.neg y else y) = true)
          from by
        push_neg
        constructor
        · simp [AF.is_normal, AF.abs, AF.set_sign, hxc]
        · split_ifs
          · simp [AF.is_normal, AF.neg, hyc]
          · simp [AF.is_normal, hyc])]
      rcases hre : AF.remGo E M (if AF.is_negative y then AF.neg y else y)
          fuel (AF.abs x) with l | _ | _
      · simp
      · exact absurd hre (af_remGo_no_abort E M _ fuel (AF.abs x))
      · simp

/-- `sqrt` never aborts. -/
theorem af_sqrtM_no_abort (E M : Nat) (fuel : Nat) (f : AF.Float) :
    AF.sqrtM E M fuel f ≠ AF.PRes.abort := by
  unfold AF.sqrtM
  split_ifs
  · simp
  · simp
  · simp
  · exact af_sqrtGo_no_abort E M f _ fuel _

/-- One AGM step never aborts. -/
theorem af_piStep_no_abort (E M sf : Nat) (tw : AF.Float)
    (s : AF.Float × AF.Float × AF.Float × AF.Float) :
    AF.piStep E M sf tw s ≠ AF.PRes.abort := by
  obtain ⟨a, b, t, x⟩ := s
  rw [af_piStep_eq]
  rcases hq : AF.sqrtM E M sf (AF.mulW E M b a) with r | _ | _
  · simp
  · exact absurd hq (af_sqrtM_no_abort E M sf _)
  · simp

/-- The AGM driver loop never aborts. -/
theorem af_piGo_no_abort (E M sf : Nat) (tw : AF.Float) :
    ∀ (n : Nat) (s : AF.Float × AF.Float × AF.Float × AF.Float),
      AF.piGo E M sf tw n s ≠ AF.PRes.abort := by
  intro n
  induction n with
  | zero =>
    intro s h
    exact absurd h (by simp [AF.piGo])
  | succ n ih =>
    intro s h
    rw [af_piGo_succ_eq] at h
    split at h
    · exact absurd h (by simp)
    · rcases hq : AF.piStep E M sf tw s with s2 | _ | _
      · rw [hq] at h
        exact ih s2 h
      · exact absurd hq (af_piStep_no_abort E M sf tw s)
      · rw [hq] at h
        exact absurd h (by simp)

/-- `pi` never aborts. -/
theorem af_piM_no_abort (E M fuel : Nat) :
    AF.piM E M fuel ≠ AF.PRes.abort := by
  rw [af_piM_eq]
  rcases hq : AF.sqrtM E M fuel (AF.from_u64 E M 2) with s2 | _ | _
  · intro h
    exact af_piGo_no_abort E M fuel (AF.from_u64 E M 2) fuel _ h
  · exact absurd hq (af_sqrtM_no_abort E M fuel _)
  · simp

/-- Underflow clamps: a value strictly below the minimum-exponent scale
normalizes to a signed Zero or to a subnormal-range float stored at the
minimum exponent — never to a NaN or an error. -/
theorem af_normalize_underflow (E M : Nat) (hE : 2 ≤ E)
    (rm : AF.RoundingMode) (s : Bool) (e : Int) (m : Nat)
    (l : AF.LossFraction) (hm : m ≠ 0)
    (hu : e + (bitlen m : Int) - 1 - (M : Int) < AF.expMin E) :
    AF.normalize E M rm (AF.new s e m) l = AF.zero s ∨
    ((AF.normalize E M rm (AF.new s e m) l).category =
        AF.Category.Normal ∧
      (AF.normalize E M rm (AF.new s e m) l).exp = AF.expMin E ∧
      (AF.normalize E M rm (AF.new s e m) l).mantissa ≤ 2 ^ M) := by
  have hbias : 1 ≤ AF.get_bias E := af_bias_pos E hE
  have hEmm : AF.expMin E ≤ AF.expMax E := by
    unfold AF.expMin AF.expMax
    omega
  have hbl1 : 1 ≤ bitlen m := bitlen_pos hm
  have hmlt : m < 2 ^ bitlen m := lt_two_pow_bitlen m
  rw [show AF.new s e m = AF.raw s e m AF.Category.Normal from by
    simp [AF.new, hm]]
  rw [AF.normalize]
  simp only [AF.raw, bne_self_eq_false, Bool.false_eq_true, if_false]
  rw [if_neg hm]
  have hsh_eq : ((M : Int) - ((bitlen m : Int) - 1)) ⊓ (e - AF.expMin E)
      = e - AF.expMin E := min_eq_right (by omega)
  simp only [hsh_eq]
  have hmant_lt : (if 0 ≤ e - AF.expMin E then
      m <<< (e - AF.expMin E).toNat
      else m >>> (-(e - AF.expMin E)).toNat) < 2 ^ M := by
    split_ifs with hs0
    · rw [Nat.shiftLeft_eq]
      have hb : bitlen m + (e - AF.expMin E).toNat ≤ M := by omega
      calc m * 2 ^ (e - AF.expMin E).toNat
          < 2 ^ bitlen m * 2 ^ (e - AF.expMin E).toNat :=
            (Nat.mul_lt_mul_right (Nat.pos_pow_of_pos _ (by norm_num))).mpr
              hmlt
      _ = 2 ^ (bitlen m + (e - AF.expMin E).toNat) := by rw [← pow_add]
      _ ≤ 2 ^ M := Nat.pow_le_pow_right (by norm_num) hb
    · rw [Nat.shiftRight_eq_div_pow]
      apply Nat.div_lt_of_lt_mul
      rw [← pow_add]
      have hb : bitlen m ≤ (-(e - AF.expMin E)).toNat + M := by omega
      calc m < 2 ^ bitlen m := hmlt
      _ ≤ 2 ^ ((-(e - AF.expMin E)).toNat + M) :=
            Nat.pow_le_pow_right (by norm_num) hb
  rw [if_neg (show ¬(e - (e - AF.expMin E) > AF.expMax E) from by omega)]
  set mant : Nat := if 0 ≤ e - AF.expMin E then
    m <<< (e - AF.expMin E).toNat
    else m >>> (-(e - AF.expMin E)).toNat with hmantd
  set m2 : Nat := if AF.need_round_up rm s
      (if 0 ≤ e - AF.expMin E then
        (if e - AF.expMin E = 0 then l else AF.demoteLoss l)
      else AF.combineLoss
        (AF.lossOfShift m (-(e - AF.expMin E)).toNat) l)
      (decide (mant % 2 = 1)) = true then mant + 1 else mant with hm2d
  have hm2le : m2 ≤ 2 ^ M := by
    rw [hm2d]
    split_ifs <;> omega
  rw [if_neg (show ¬(m2 = 2 ^ (M + 1)) from by
    have : (2 : Nat) ^ M < 2 ^ (M + 1) :=
      Nat.pow_lt_pow_right (by norm_num) (Nat.lt_succ_self M)
    omega)]
  by_cases hz : m2 = 0
  · rw [if_pos hz]
    exact Or.inl rfl
  · rw [if_neg hz]
    refine Or.inr ⟨rfl, by show e - (e - AF.expMin E) = AF.expMin E; omega,
      hm2le⟩

/-- C2 amended: numerically-induced edge cases return category values and
never abort — `sqrt` of NaN or of a negative number yields NaN, of zero or
Infinity yields the input; `rem` with a NaN operand, an Infinity dividend or
a zero divisor yields NaN; division by zero yields Infinity (`0/0` NaN);
normalization overflow yields Infinity; underflow yields subnormal/Zero
(normalization of any value never yields NaN, keeps the mantissa invariants,
and clamps values below the minimum-exponent scale to a signed Zero or a
subnormal stored at the minimum exponent); and `sqrt`, `rem` and `pi` never
abort on any input whatsoever (the remaining public operations — add, sub,
mul, div, min, max, sqr, scale — are total functions with no assertion at
all) — with the single exception that `sin` applied to a NaN or Infinity
operand aborts through its `assert!(self.is_normal())` instead of returning
NaN. -/
theorem c2_edge_cases_amended (E M fuel : Nat) (x y : AF.Float) :
    (AF.is_nan x = true → AF.sqrtM E M fuel x = AF.PRes.ok (AF.nan x.sign)) ∧
    (AF.is_nan x = false → AF.is_zero x = false → AF.is_negative x = true →
      AF.sqrtM E M fuel x = AF.PRes.ok (AF.nan x.sign)) ∧
    (AF.is_zero x = true → AF.sqrtM E M fuel x = AF.PRes.ok x) ∧
    (AF.is_nan x = false → AF.is_negative x = false → AF.is_inf x = true →
      AF.sqrtM E M fuel x = AF.PRes.ok x) ∧
    (AF.is_nan x = true ∨ AF.is_nan y = true ∨ AF.is_inf x = true ∨
        AF.is_zero y = true →
      AF.remM E M fuel x y = AF.PRes.ok (AF.nan x.sign)) ∧
    (AF.is_normal x = true → AF.is_zero y = true →
      AF.divW E M x y = AF.inf (x.sign != y.sign)) ∧
    (AF.is_zero x = true → AF.is_zero y = true →
      AF.divW E M x y = AF.nan (x.sign != y.sign)) ∧
    (∀ (s : Bool) (e : Int) (m : Nat), m ≠ 0 →
      e + (bitlen m : Int) - 1 - M > AF.expMax E →
      AF.normalize E M AF.RoundingMode.NearestTiesToEven
        (AF.raw s e m AF.Category.Normal) AF.LossFraction.ExactlyZero =
        AF.inf s) ∧
    (AF.is_nan x = true ∨ AF.is_inf x = true →
      AF.sinM E M fuel x = AF.PRes.abort) ∧
    (∀ (n : Nat) (z : AF.Float), AF.sqrtM E M n z ≠ AF.PRes.abort) ∧
    (∀ (n : Nat) (z w : AF.Float), AF.remM E M n z w ≠ AF.PRes.abort) ∧
    (∀ n : Nat, AF.piM E M n ≠ AF.PRes.abort) ∧
    (∀ (rm : AF.RoundingMode) (s : Bool) (e : Int) (m : Nat)
        (l : AF.LossFraction),
      AF.is_nan (AF.normalize E M rm (AF.new s e m) l) = false ∧
      AF.wfF E M (AF.normalize E M rm (AF.new s e m) l) = true) ∧
    (2 ≤ E → ∀ (rm : AF.RoundingMode) (s : Bool) (e : Int) (m : Nat)
        (l : AF.LossFraction), m ≠ 0 →
      e + (bitlen m : Int) - 1 - (M : Int) < AF.expMin E →
      (AF.normalize E M rm (AF.new s e m) l = AF.zero s ∨
        ((AF.normalize E M rm (AF.new s e m) l).category =
            AF.Category.Normal ∧
          (AF.normalize E M rm (AF.new s e m) l).exp = AF.expMin E ∧
          (AF.normalize E M rm (AF.new s e m) l).mantissa ≤ 2 ^ M))) := by
  refine ⟨?_, ?_, ?_, ?_, ?_, ?_, ?_, ?_, ?_, ?_, ?_, ?_, ?_, ?_⟩
  · intro hx
    have hc : x.category = AF.Category.NaN := by
      simpa [AF.is_nan] using hx
    have hz : AF.is_zero x = false := by simp [AF.is_zero, hc]
    simp [AF.sqrtM, hz, hx]
  · intro hn hz hneg
    simp [AF.sqrtM, hz, hn, hneg]
  · intro hz
    simp [AF.sqrtM, hz]
  · intro hn hneg hinf
    have hc : x.category = AF.Category.Infinity := by
      simpa [AF.is_inf] using hinf
    have hz : AF.is_zero x = false := by simp [AF.is_zero, hc]
    simp [AF.sqrtM, hz, hn, hneg, hinf]
  · intro h
    have hb : (AF.is_nan x || AF.is_nan y || AF.is_inf x || AF.is_zero y)
        = true := by
      rcases h with h | h | h | h <;> simp [h]
    simp [AF.remM, hb]
  · intro hnorm hzy
    have hcx : x.category = AF.Category.Normal := by
      simpa [AF.is_normal] using hnorm
    have hcy : y.category = AF.Category.Zero := by
      simpa [AF.is_zero] using hzy
    simp [AF.divW, AF.is_nan, AF.is_inf, AF.is_zero, hcx, hcy]
  · intro hzx hzy
    have hcx : x.category = AF.Category.Zero := by
      simpa [AF.is_zero] using hzx
    have hcy : y.category = AF.Category.Zero := by
      simpa [AF.is_zero] using hzy
    simp [AF.divW, AF.is_nan, AF.is_inf, AF.is_zero, hcx, hcy]
  · intro s e m hm hov
    have hp : 2 ^ (bitlen m - 1) ≤ m := two_pow_bitlen_pred_le hm
    simp only [AF.normalize, AF.raw]
    have hcat : (AF.Category.Normal != AF.Category.Normal) = false := by decide
    rw [hcat]
    simp only [Bool.false_eq_true, if_false, if_neg hm]
    have hkey : e - min ((M : Int) - ((bitlen m : Int) - 1))
        (e - AF.expMin E) > AF.expMax E := by
      have h1 : min ((M : Int) - ((bitlen m : Int) - 1)) (e - AF.expMin E) ≤
          (M : Int) - ((bitlen m : Int) - 1) := min_le_left _ _
      omega
    rw [if_pos hkey]
  · intro h
    have hz : AF.is_zero x = false := by
      rcases h with h | h
      · have hc : x.category = AF.Category.NaN := by simpa [AF.is_nan] using h
        simp [AF.is_zero, hc]
      · have hc : x.category = AF.Category.Infinity := by
          simpa [AF.is_inf] using h
        simp [AF.is_zero, hc]
    have hnrm : AF.is_normal x = false := by
      rcases h with h | h
      · have hc : x.category = AF.Category.NaN := by simpa [AF.is_nan] using h
        simp [AF.is_normal, hc]
      · have hc : x.category = AF.Category.Infinity := by
          simpa [AF.is_inf] using h
        simp [AF.is_normal, hc]
    simp [AF.sinM, hz, hnrm]
  · intro n z
    exact af_sqrtM_no_abort E M n z
  · intro n z w
    exact af_remM_no_abort E M n z w
  · intro n
    exact af_piM_no_abort E M n
  · intro rm s e m l
    exact ⟨af_normalize_not_nan _ _ _ _ _ (af_new_not_nan _ _ _),
      af_normalize_new_wf E M rm s e m l⟩
  · intro hE2 rm s e m l hm hu
    exact af_normalize_underflow E M hE2 rm s e m l hm hu

/-- C2 witness: the amended statement at a NaN operand, a zero divisor, a
sin abort, a pi no-abort and an underflowing normalization in the 11/52
configuration. -/
theorem c2_edge_cases_amended_witness :
    AF.sqrtM 11 52 5 (AF.nan true) = AF.PRes.ok (AF.nan true) ∧
    AF.remM 11 52 5 (AF.from_u64 11 52 7) (AF.zero false) =
      AF.PRes.ok (AF.nan false) ∧
    AF.sinM 11 52 5 (AF.inf false) = AF.PRes.abort ∧
    AF.piM 11 52 3 ≠ AF.PRes.abort ∧
    (AF.normalize 11 52 AF.RoundingMode.NearestTiesToEven
        (AF.new false (-2000) 1) AF.LossFraction.ExactlyZero =
          AF.zero false ∨
      ((AF.normalize 11 52 AF.RoundingMode.NearestTiesToEven
          (AF.new false (-2000) 1) AF.LossFraction.ExactlyZero).category =
          AF.Category.Normal ∧
        (AF.normalize 11 52 AF.RoundingMode.NearestTiesToEven
          (AF.new false (-2000) 1) AF.LossFraction.ExactlyZero).exp =
          AF.expMin 11 ∧
        (AF.normalize 11 52 AF.RoundingMode.NearestTiesToEven
          (AF.new false (-2000) 1) AF.LossFraction.ExactlyZero).mantissa ≤
          2 ^ 52)) := by
  refine ⟨?_, ?_, ?_, ?_, ?_⟩
  · exact (c2_edge_cases_amended 11 52 5 (AF.nan true) (AF.zero false)).1
      (by decide)
  · have h := (c2_edge_cases_amended 11 52 5 (AF.from_u64 11 52 7)
      (AF.zero false)).2.2.2.2.1 (Or.inr (Or.inr (Or.inr (by decide))))
    simpa using h
  · exact (c2_edge_cases_amended 11 52 5 (AF.inf false)
      (AF.zero false)).2.2.2.2.2.2.2.2.1 (Or.inr (by decide))
  · exact (c2_edge_cases_amended 11 52 5 (AF.inf false)
      (AF.zero false)).2.2.2.2.2.2.2.2.2.2.2.1 3
  · exact (c2_edge_cases_amended 11 52 5 (AF.inf false)
      (AF.zero false)).2.2.2.2.2.2.2.2.2.2.2.2.2 (by norm_num)
      AF.RoundingMode.NearestTiesToEven false (-2000) 1
      AF.LossFraction.ExactlyZero (by norm_num) (by decide)

end Arp
